import Mathlib

/-!
# pcx2sms: PCX run-length decoder and SMS tile packer

A shallow embedding of `pcx2sms.c`.

Conventions of the embedding:

* memory is a list of bytes (`Nat`, intended `< 256`); a C `char` is stored as
  its 8-bit pattern;
* `unsigned int` arithmetic is taken modulo `UINT_MOD = 2 ^ 32`; `int` values
  are represented by their 32-bit two's-complement pattern where the code
  computes with them (`sext8`, `char_add`);
* an access outside a buffer is undefined behaviour in C; the embedding
  reports it as `Fault.oobRead` / `Fault.oobWrite`;
* the input `FILE` is the list of bytes not yet read, together with a count of
  the `fread` calls made on it; the output `FILE` is the list of the chunks
  written by the successive `fwrite` calls.
-/

namespace Pcx2sms

/-- Number of values of a C `unsigned int` (32 bits). -/
def UINT_MOD : Nat := 4294967296

/-- Ways in which an execution can leave the defined behaviour of C, plus the
exhaustion of the iteration bound of the embedding of the `while` loop. -/
inductive Fault where
  | oobRead
  | oobWrite
  | fuel
deriving DecidableEq

/-- C `struct run_s`. -/
structure run_s where
  ch : Nat
  len : Nat
deriving DecidableEq

/-- C `struct conv_s`, with `buffers_s` and `header_info_s` flattened:
`bufN`, `sizeN`, `posN` are `buffers.buf[N]`, `buffers.size[N]`,
`buffers.pos[N]`. -/
structure conv_s where
  buf0 : List Nat
  buf1 : List Nat
  buf2 : List Nat
  size0 : Nat
  size1 : Nat
  size2 : Nat
  pos0 : Nat
  pos1 : Nat
  pos2 : Nat
  run : run_s
  width : Nat
  height : Nat
  input : List Nat
  freads : Nat
  output : List (List Nat)
deriving DecidableEq

/-- Model of `malloc(n)`: a fresh block of `n` bytes whose content is indeterminate
(whatever `junk` happens to provide). -/
def malloc (junk : List Nat) (n : Nat) : List Nat :=
  (junk ++ List.replicate n 0).take n

/-- Model of `fread(buf, 1, n, file)` on a regular file: the next `min n |file|` bytes
overwrite the start of `buf`; returns the buffer, the count and the rest of
the file. -/
def fread (buf : List Nat) (n : Nat) (file : List Nat) : List Nat × Nat × List Nat :=
  (file.take n ++ buf.drop (min n file.length), min n file.length, file.drop n)

/-- Model of `memset(buf + pos, ch, len)`; `none` when the range leaves the
buffer. -/
def memset (buf : List Nat) (pos ch len : Nat) : Option (List Nat) :=
  if pos + len ≤ buf.length then
    some (buf.take pos ++ List.replicate len ch ++ buf.drop (pos + len))
  else none

/-- Model of `memcpy(dst + off, src, |src|)`; `none` when the range leaves
the buffer. -/
def memcpy (dst : List Nat) (off : Nat) (src : List Nat) : Option (List Nat) :=
  if off + src.length ≤ dst.length then
    some (dst.take off ++ src ++ dst.drop (off + src.length))
  else none

/-- The macro `HEADER(x)`: the `x`-th 16-bit word of the header
(little-endian host). -/
def HEADER (header : List Nat) (x : Nat) : Nat :=
  header.getD (2 * x) 0 + 256 * header.getD (2 * x + 1) 0

/-- C `read_header`: the subtraction is done in `int` and the result is
converted to `unsigned int`. -/
def read_header (junk : List Nat) (conv : conv_s) : conv_s :=
  let r := fread (malloc junk 128) 128 conv.input
  let header := r.1
  { conv with
    width := ((((HEADER header 4 : Nat) : Int) - (HEADER header 2 : Nat) + 1) % (UINT_MOD : Nat)).toNat
    height := ((((HEADER header 5 : Nat) : Int) - (HEADER header 3 : Nat) + 1) % (UINT_MOD : Nat)).toNat
    input := r.2.2
    freads := conv.freads + 1 }

/-- C `buffers_init`. -/
def buffers_init (j0 j1 j2 : List Nat) (conv : conv_s) : conv_s :=
  let r := fread (malloc j0 256) 256 conv.input
  { conv with
    buf0 := r.1
    buf1 := malloc j1 conv.width
    buf2 := malloc j2 (conv.width * 8 % UINT_MOD / 2)
    pos0 := 0
    size0 := r.2.1
    input := r.2.2
    freads := conv.freads + 1
    size1 := conv.width
    pos1 := conv.width
    size2 := conv.width * 8 % UINT_MOD / 2
    pos2 := conv.width * 8 % UINT_MOD / 2 }

/-- C `refill_run`. -/
def refill_run (conv : conv_s) : conv_s :=
  let conv := { conv with pos0 := (conv.pos0 + 1) % UINT_MOD }
  if conv.pos0 = conv.size0 then
    let r := fread conv.buf0 256 conv.input
    { conv with
      buf0 := r.1
      size0 := r.2.1
      input := r.2.2
      freads := conv.freads + 1
      pos0 := 0 }
  else conv

/-- C `next_run`. -/
def next_run (conv : conv_s) : Except Fault conv_s :=
  match conv.buf0[conv.pos0]? with
  | none => .error .oobRead
  | some ch =>
    let code := ch &&& 0xc0
    let len := if code = 0xc0 then ch &&& 0x3f else 1
    let conv := refill_run conv
    if code = 0xc0 then
      match conv.buf0[conv.pos0]? with
      | none => .error .oobRead
      | some ch => .ok { refill_run conv with run := ⟨ch, len⟩ }
    else .ok { conv with run := ⟨ch, len⟩ }

/-- Body of the `while` loop of `next_8_pixels`. -/
def next_8_pixels_body (conv : conv_s) : Except Fault conv_s :=
  match next_run conv with
  | .error e => .error e
  | .ok conv =>
    match memset conv.buf1 conv.pos1 conv.run.ch conv.run.len with
    | none => .error .oobWrite
    | some b => .ok { conv with buf1 := b, pos1 := (conv.pos1 + conv.run.len) % UINT_MOD }

/-- The loop `while (POS < SIZE) { ... }` of `next_8_pixels`, iterated at most
`fuel` times. -/
def next_8_pixels_loop : Nat → conv_s → Except Fault conv_s
  | 0, conv => if conv.pos1 < conv.size1 then .error .fuel else .ok conv
  | fuel + 1, conv =>
    if conv.pos1 < conv.size1 then
      match next_8_pixels_body conv with
      | .error e => .error e
      | .ok conv => next_8_pixels_loop fuel conv
    else .ok conv

/-- Iteration bound for the loop of `next_8_pixels`: every iteration takes at
least one byte from the window, and fewer than `257 * |input| + 513` bytes can
be taken before a read leaves the window, so the bound is never what stops the
loop (`next_8_pixels_fuel`). -/
def loop_bound (conv : conv_s) : Nat := 257 * conv.input.length + 513

/-- C `next_8_pixels`. -/
def next_8_pixels (conv : conv_s) : Except Fault conv_s :=
  if conv.pos1 = conv.size1 then
    match next_8_pixels_loop (loop_bound conv) { conv with pos1 := 0 } with
    | .error e => .error e
    | .ok conv => .ok { conv with pos1 := 0 }
  else .ok conv

/-- The 32-bit pattern of the `int` obtained by reading a (signed) `char` whose
byte pattern is `b`. -/
def sext8 (b : Nat) : Nat := if b < 128 then b else b + 0xFFFFFF00

/-- The statement `t += x` for a `char t` and an `int x`: the sum is formed in `int` and
narrowed to 8 bits. -/
def char_add (t x : Nat) : Nat := (sext8 t + x) % UINT_MOD % 256

/-- The term `(1 << (7-bit))*((ch & (1 << p)) >> p)`. -/
def plane_term (bit p ch : Nat) : Nat := (1 <<< (7 - bit)) * ((ch &&& (1 <<< p)) >>> p)

/-- C `char tile_row[4]`. -/
structure tile_row_t where
  t0 : Nat
  t1 : Nat
  t2 : Nat
  t3 : Nat
deriving DecidableEq

/-- Body of the `for (bit ...)` loop of `next_8_scanlines`. -/
def tile_bit (conv : conv_s) (tile_row : tile_row_t) (bit : Nat) : Except Fault tile_row_t :=
  match conv.buf1[conv.pos1 + bit]? with
  | none => .error .oobRead
  | some b =>
    let ch := sext8 b
    .ok { t0 := char_add tile_row.t0 (plane_term bit 0 ch)
          t1 := char_add tile_row.t1 (plane_term bit 1 ch)
          t2 := char_add tile_row.t2 (plane_term bit 2 ch)
          t3 := char_add tile_row.t3 (plane_term bit 3 ch) }

/-- Body of the `for (col ...)` loop of `next_8_scanlines`. -/
def tile_col (row : Nat) (conv : conv_s) (col : Nat) : Except Fault conv_s :=
  match (List.range 8).foldlM (tile_bit conv) ⟨0, 0, 0, 0⟩ with
  | .error e => .error e
  | .ok tr =>
    match memcpy conv.buf2 (col * 32 % UINT_MOD + row * 4 % UINT_MOD) [tr.t0, tr.t1, tr.t2, tr.t3] with
    | none => .error .oobWrite
    | some b => .ok { conv with buf2 := b, pos1 := (conv.pos1 + 8) % UINT_MOD }

/-- Body of the `for (row ...)` loop of `next_8_scanlines`. -/
def scan_row (tiles_per_col : Nat) (conv : conv_s) (row : Nat) : Except Fault conv_s :=
  match next_8_pixels conv with
  | .error e => .error e
  | .ok conv => (List.range tiles_per_col).foldlM (tile_col row) conv

/-- C `next_8_scanlines`. -/
def next_8_scanlines (conv : conv_s) : Except Fault conv_s :=
  (List.range 8).foldlM (scan_row (conv.width / 8)) conv

/-- The `fwrite` of the tile output buffer in `main`. -/
def fwrite_output (conv : conv_s) : Except Fault conv_s :=
  if conv.size2 ≤ conv.buf2.length then
    .ok { conv with output := conv.output ++ [conv.buf2.take conv.size2] }
  else .error .oobRead

/-- The loop `while (tile_rows--) { ... }` of `main`. -/
def main_loop : Nat → conv_s → Except Fault conv_s
  | 0, conv => .ok conv
  | tile_rows + 1, conv =>
    match next_8_scanlines conv with
    | .error e => .error e
    | .ok conv =>
      match fwrite_output conv with
      | .error e => .error e
      | .ok conv => main_loop tile_rows conv

/-- The conversion part of `main`: `tile_rows = height/8`, then the loop
`while (tile_rows--)`. -/
def main_convert (conv : conv_s) : Except Fault conv_s :=
  main_loop (conv.height / 8) conv

/-- C `main` once both files are open: `read_header`, `buffers_init`, then the
conversion loop. -/
def main (jh j0 j1 j2 : List Nat) (conv : conv_s) : Except Fault conv_s :=
  main_convert (buffers_init j0 j1 j2 (read_header jh conv))

/-- A `conv_s` on the stack before anything is stored in it, with the input
file opened on `file`. -/
def conv_open (file : List Nat) : conv_s :=
  { buf0 := [], buf1 := [], buf2 := [], size0 := 0, size1 := 0, size2 := 0,
    pos0 := 0, pos1 := 0, pos2 := 0, run := ⟨0, 0⟩, width := 0, height := 0,
    input := file, freads := 0, output := [] }

/-! ## Abstraction of the input window and reference decoders -/

/-- Bytes of the pixel-data stream that have not been consumed yet: the filled
part of the input window after the cursor, then what is still unread in the
file. -/
def stream (conv : conv_s) : List Nat :=
  (conv.buf0.take conv.size0).drop conv.pos0 ++ conv.input

/-- Well-formedness of the input window: 256 bytes of capacity, and either the
cursor is inside the filled part or the file is exhausted. -/
def window_ok (conv : conv_s) : Prop :=
  conv.buf0.length = 256 ∧ conv.size0 ≤ 256 ∧
    (conv.pos0 < conv.size0 ∨ (conv.size0 = 0 ∧ conv.input = []))

/-- Termination measure of the refill loop of `next_8_pixels`: it decreases
with every byte that `next_run` takes from a 256-byte window. -/
def window_measure (conv : conv_s) : Nat :=
  257 * conv.input.length + (if conv.size0 = 0 then 0 else 256) + (256 - conv.pos0)

/-- Reference decoder: one run read from the head of a flat byte list. -/
def decode_run : List Nat → Option (run_s × List Nat)
  | [] => none
  | m :: rest =>
    if m &&& 0xc0 = 0xc0 then
      match rest with
      | [] => none
      | v :: rest => some (⟨v, m &&& 0x3f⟩, rest)
    else some (⟨m, 1⟩, rest)

/-- Reference decoder: `s` starts with the encoding of `runs`, and `rest`
follows. -/
def decodes : List Nat → List run_s → List Nat → Prop
  | s, [], rest => rest = s
  | s, r :: runs, rest =>
    match decode_run s with
    | none => False
    | some (r1, s1) => r1 = r ∧ decodes s1 runs rest

/-- Pixels described by a list of runs. -/
def expand (runs : List run_s) : List Nat :=
  (runs.map (fun r => List.replicate r.len r.ch)).flatten

/-- Sum of the lengths of a list of runs. -/
def total_len (runs : List run_s) : Nat := (runs.map (fun r => r.len)).sum

/-- The runs `runs` fill a scanline of `W` pixels exactly: their lengths sum to
`W` and no proper prefix already reaches `W`. -/
def fills (W : Nat) (runs : List run_s) : Prop :=
  total_len runs = W ∧ ∀ j, j < runs.length → total_len (runs.take j) < W

/-- Reference description of a well-formed pixel-data stream: `s` starts with
the encodings of the scanlines `lines`, each one a sequence of runs that fills
exactly `W` pixels, and `rest` follows. -/
def encodes (W : Nat) : List Nat → List (List Nat) → List Nat → Prop
  | s, [], rest => rest = s
  | s, line :: lines, rest =>
    ∃ runs mid, decodes s runs mid ∧ fills W runs ∧ line = expand runs ∧
      encodes W mid lines rest

/-- Reference decoder following the spec's words: the sequence of runs
obtained by decoding a flat byte list directly, a marker byte (both top bits
set) taking the next byte as its value. A marker without a value byte at the
very end yields no run. -/
def decode_flat : List Nat → List run_s
  | [] => []
  | [m] => if m &&& 0xc0 = 0xc0 then [] else [⟨m, 1⟩]
  | m :: v :: rest =>
    if m &&& 0xc0 = 0xc0 then ⟨v, m &&& 0x3f⟩ :: decode_flat rest
    else ⟨m, 1⟩ :: decode_flat (v :: rest)

/-- The runs produced by `n` successive calls of `next_run`. -/
def run_seq : Nat → conv_s → Except Fault (List run_s)
  | 0, _ => .ok []
  | n + 1, conv =>
    match next_run conv with
    | .error e => .error e
    | .ok conv =>
      match run_seq n conv with
      | .error e => .error e
      | .ok runs => .ok (conv.run :: runs)

/-! ## Frame conditions -/

/-- The parts of the state that assembling a scanline leaves alone: the tile
buffer, the sizes, the header information and the output file. -/
def same_tiles (c c' : conv_s) : Prop :=
  c'.buf2 = c.buf2 ∧ c'.size1 = c.size1 ∧ c'.size2 = c.size2 ∧ c'.pos2 = c.pos2 ∧
    c'.width = c.width ∧ c'.height = c.height ∧ c'.output = c.output

/-- The parts of the state that decoding a run leaves alone: those of
`same_tiles`, and the scanline buffer with its cursor. -/
def same_scan (c c' : conv_s) : Prop :=
  same_tiles c c' ∧ c'.buf1 = c.buf1 ∧ c'.pos1 = c.pos1

/-- The header information, the sizes and the output file are unchanged. -/
def same_hdr (c c' : conv_s) : Prop :=
  c'.size1 = c.size1 ∧ c'.size2 = c.size2 ∧ c'.pos2 = c.pos2 ∧
    c'.width = c.width ∧ c'.height = c.height ∧ c'.output = c.output

/-! ## Reference description of the tile layout -/

/-- Bit `p` of a pixel value, as `0` or `1`: `(v >> p) & 1`. -/
def pixel_bit (p v : Nat) : Nat := v / 2 ^ p % 2

/-- The byte whose bit `7 - b` is bit `p` of the `b`-th of the 8 pixels `px`,
for `b = 0 .. 7`. -/
def plane_byte (p : Nat) (px : List Nat) : Nat :=
  128 * pixel_bit p (px.getD 0 0) + 64 * pixel_bit p (px.getD 1 0) +
  32 * pixel_bit p (px.getD 2 0) + 16 * pixel_bit p (px.getD 3 0) +
  8 * pixel_bit p (px.getD 4 0) + 4 * pixel_bit p (px.getD 5 0) +
  2 * pixel_bit p (px.getD 6 0) + pixel_bit p (px.getD 7 0)

/-- Plane `p` of the 8 pixels of tile column `col` in the scanline `line`. -/
def tile_byte (line : List Nat) (col p : Nat) : Nat :=
  plane_byte p ((line.drop (8 * col)).take 8)

/-- Byte at offset `i` of the tile output buffer that packs the 8 scanlines
`lines`: tile `i / 32`, row `i % 32 / 4`, plane `i % 4`. -/
def packed_byte (lines : List (List Nat)) (i : Nat) : Nat :=
  tile_byte (lines.getD (i % 32 / 4) []) (i / 32) (i % 4)

/-- Tile output buffer for the 8 scanlines `lines` of width `W`. -/
def pack_tiles (W : Nat) (lines : List (List Nat)) : List Nat :=
  (List.range (4 * W)).map (packed_byte lines)

/-- Output chunks for `n` rows of tiles cut from `lines`. -/
def pack_rows (W : Nat) : Nat → List (List Nat) → List (List Nat)
  | 0, _ => []
  | n + 1, lines => pack_tiles W (lines.take 8) :: pack_rows W n (lines.drop 8)

/-! ## Sample inputs -/

/-- Encoding of one scanline of `8 * n` pixels of value `v`, as `n` runs of
length 8 (marker byte `0xc8`). -/
def solid_line (n v : Nat) : List Nat := (List.replicate n [0xc8, v]).flatten

/-- Encoding of `m` scanlines of `8 * n` pixels of value `v`. -/
def solid_image (m n v : Nat) : List Nat := (List.replicate m (solid_line n v)).flatten

/-- The state of `main` after `read_header` found the dimensions `W` and `H`,
with the input file positioned on the pixel data `s`. -/
def conv_image (W H : Nat) (s : List Nat) : conv_s :=
  { conv_open s with width := W, height := H }

/-- Offset of the `memcpy` destination in the column loop of
`next_8_scanlines`: the `col*32 + row*4` of `buf[2] + col*32 + row*4`, each
product computed in `unsigned int`. -/
def tile_dst (row col : Nat) : Nat := col * 32 % UINT_MOD + row * 4 % UINT_MOD

/-- State in the shape `buffers_init` leaves for width `W`: a scanline buffer
of `W` bytes that counts as consumed (`pos[1] = size[1] = W`) and a tile buffer
of `width*8/2` bytes, the product taken in `unsigned int`. -/
def scan_ready (W : Nat) (c : conv_s) : Prop :=
  c.width = W ∧ c.size1 = W ∧ c.pos1 = W ∧ c.buf1.length = W ∧
    c.buf2.length = W * 8 % UINT_MOD / 2 ∧ c.size2 = W * 8 % UINT_MOD / 2

/-- The first `n` iterations of the body of the `while` loop of
`next_8_pixels` (`next_run`, `memset`, `POS += run.len`), without the loop
test: the state in which iteration `n` starts. -/
def refill_steps : Nat → conv_s → Except Fault conv_s
  | 0, conv => .ok conv
  | n + 1, conv =>
    match next_8_pixels_body conv with
    | .error e => .error e
    | .ok conv => refill_steps n conv

/-- The byte `tile_row[p]` after the first `k` iterations of the `bit` loop of
`next_8_scanlines` on the pixel bytes `px`: the terms
`(1 << (7-bit)) * ((ch & (1 << p)) >> p)` of the sign-extended pixels, added one
by one into a `char`. -/
def plane_add (p : Nat) (px : List Nat) (k : Nat) : Nat :=
  (List.range k).foldl
    (fun t bit => char_add t (plane_term bit p (sext8 (px.getD bit 0)))) 0

/-- Follows the spec's words: the same terms, taken from the pixel bytes as
unsigned values, accumulated by bitwise OR instead of addition. -/
def plane_or (p : Nat) (px : List Nat) (k : Nat) : Nat :=
  (List.range k).foldl (fun t bit => t ||| plane_term bit p (px.getD bit 0)) 0

/-- The input window invariant `pos[0] < size[0] <= 256`: the cursor stands on
a byte of the filled part of the window. -/
def window_inv (c : conv_s) : Prop := c.pos0 < c.size0 ∧ c.size0 ≤ 256

/-- Number of bytes not yet consumed: those in the window from the cursor on
and those not yet read from the file. -/
def unconsumed (c : conv_s) : Nat := (c.size0 - c.pos0) + c.input.length

/-- The scanline assembler is starved for width `W`: the scanline cursor is a
multiple of 8 while the scanline size `W` is not, so the refill test
`pos[1] == size[1]` of `next_8_pixels` cannot hold. -/
def starved (W : Nat) (c : conv_s) : Prop := c.size1 = W ∧ c.pos1 % 8 = 0 ∧ W % 8 ≠ 0

/-- Nothing was decoded between `c` and `c'`: same unconsumed stream, same
number of reads from the file, same scanline buffer. -/
def no_decode (c c' : conv_s) : Prop :=
  stream c' = stream c ∧ c'.freads = c.freads ∧ c'.buf1 = c.buf1

/-! # Theorems -/

/-! ## The input window -/

theorem malloc_length (junk : List Nat) (n : Nat) : (malloc junk n).length = n := by
  simp [malloc]

theorem refill_run_eq (c : conv_s) :
    refill_run c =
      if (c.pos0 + 1) % UINT_MOD = c.size0 then
        { c with
          buf0 := (fread c.buf0 256 c.input).1
          size0 := (fread c.buf0 256 c.input).2.1
          input := (fread c.buf0 256 c.input).2.2
          freads := c.freads + 1
          pos0 := 0 }
      else { c with pos0 := (c.pos0 + 1) % UINT_MOD } := rfl

@[simp] theorem refill_run_buf1 (c : conv_s) : (refill_run c).buf1 = c.buf1 := by
  rw [refill_run_eq]; split <;> rfl
@[simp] theorem refill_run_buf2 (c : conv_s) : (refill_run c).buf2 = c.buf2 := by
  rw [refill_run_eq]; split <;> rfl
@[simp] theorem refill_run_size1 (c : conv_s) : (refill_run c).size1 = c.size1 := by
  rw [refill_run_eq]; split <;> rfl
@[simp] theorem refill_run_size2 (c : conv_s) : (refill_run c).size2 = c.size2 := by
  rw [refill_run_eq]; split <;> rfl
@[simp] theorem refill_run_pos1 (c : conv_s) : (refill_run c).pos1 = c.pos1 := by
  rw [refill_run_eq]; split <;> rfl
@[simp] theorem refill_run_pos2 (c : conv_s) : (refill_run c).pos2 = c.pos2 := by
  rw [refill_run_eq]; split <;> rfl
@[simp] theorem refill_run_width (c : conv_s) : (refill_run c).width = c.width := by
  rw [refill_run_eq]; split <;> rfl
@[simp] theorem refill_run_height (c : conv_s) : (refill_run c).height = c.height := by
  rw [refill_run_eq]; split <;> rfl
@[simp] theorem refill_run_output (c : conv_s) : (refill_run c).output = c.output := by
  rw [refill_run_eq]; split <;> rfl
@[simp] theorem refill_run_run (c : conv_s) : (refill_run c).run = c.run := by
  rw [refill_run_eq]; split <;> rfl

theorem buffers_init_window (j0 j1 j2 : List Nat) (conv : conv_s) :
    window_ok (buffers_init j0 j1 j2 conv) ∧
      stream (buffers_init j0 j1 j2 conv) = conv.input := by
  simp only [window_ok, stream, buffers_init, fread]
  have hm := malloc_length j0 256
  refine ⟨⟨?_, ?_, ?_⟩, ?_⟩
  · simp [hm]
  · omega
  · by_cases h : conv.input = []
    · right; simp [h]
    · left
      have : 0 < conv.input.length := List.length_pos.mpr h
      omega
  · simp

/-- The byte at the window cursor is the head of the unconsumed stream. -/
theorem stream_head (c : conv_s) (b : Nat) (t : List Nat) (hw : window_ok c)
    (hs : stream c = b :: t) : c.buf0[c.pos0]? = some b := by
  obtain ⟨hl, hsz, hp⟩ := hw
  rcases hp with hp | ⟨h0, hin⟩
  · have hlt : c.pos0 < (c.buf0.take c.size0).length := by simp; omega
    have h1 := List.drop_eq_getElem_cons hlt
    simp only [stream] at hs
    rw [h1] at hs
    simp at hs
    have h2 : c.pos0 < c.buf0.length := by omega
    rw [List.getElem?_eq_getElem h2]
    simp [← hs.1, List.getElem_take]
  · simp [stream, h0, hin] at hs

/-- One `refill_run` consumes exactly the head of the unconsumed stream. -/
theorem refill_run_stream (c : conv_s) (b : Nat) (t : List Nat) (hw : window_ok c)
    (hs : stream c = b :: t) :
    window_ok (refill_run c) ∧ stream (refill_run c) = t := by
  obtain ⟨hl, hsz, hp⟩ := hw
  rcases hp with hp | ⟨h0, hin⟩
  · have hlt : c.pos0 < (c.buf0.take c.size0).length := by simp; omega
    have h1 := List.drop_eq_getElem_cons hlt
    simp only [stream] at hs
    rw [h1] at hs
    simp only [List.cons_append, List.cons.injEq] at hs
    have hmod : (c.pos0 + 1) % UINT_MOD = c.pos0 + 1 := by
      apply Nat.mod_eq_of_lt; simp only [UINT_MOD]; omega
    rw [refill_run_eq]
    simp only [hmod]
    by_cases he : c.pos0 + 1 = c.size0
    · simp only [he, if_true, fread, window_ok, stream]
      have hd : List.drop (c.pos0 + 1) (List.take c.size0 c.buf0) = [] := by
        apply List.drop_of_length_le; simp; omega
      rw [hd] at hs
      simp only [List.nil_append] at hs
      refine ⟨⟨?_, ?_, ?_⟩, ?_⟩
      · simp [hl]
      · omega
      · by_cases h : c.input = []
        · right; simp [h]
        · left
          have : 0 < c.input.length := List.length_pos.mpr h
          omega
      · simpa using hs.2
    · simp only [he, if_false, window_ok, stream]
      refine ⟨⟨hl, hsz, ?_⟩, hs.2⟩
      left; omega
  · simp [stream, h0, hin] at hs

/-! ## The run-length decoder -/

theorem next_run_literal (c : conv_s) (v : Nat) (t : List Nat) (hw : window_ok c)
    (hs : stream c = v :: t) (hv : v &&& 0xc0 ≠ 0xc0) :
    next_run c = .ok { refill_run c with run := ⟨v, 1⟩ } := by
  have h := stream_head c v t hw hs
  simp only [next_run, h, hv, if_false]

theorem next_run_marker (c : conv_s) (m v : Nat) (t : List Nat) (hw : window_ok c)
    (hs : stream c = m :: v :: t) (hm : m &&& 0xc0 = 0xc0) :
    next_run c = .ok { refill_run (refill_run c) with run := ⟨v, m &&& 0x3f⟩ } := by
  have h := stream_head c m (v :: t) hw hs
  obtain ⟨hw1, hs1⟩ := refill_run_stream c m (v :: t) hw hs
  have h1 := stream_head (refill_run c) v t hw1 hs1
  simp only [next_run, h, hm, if_true, h1]

/-- The function `next_run` refines the reference decoder `decode_run` on the unconsumed
stream. -/
theorem next_run_decode (c : conv_s) (r : run_s) (t : List Nat) (hw : window_ok c)
    (hd : decode_run (stream c) = some (r, t)) :
    ∃ c', next_run c = .ok c' ∧ c'.run = r ∧ stream c' = t ∧ window_ok c' ∧
      same_scan c c' := by
  cases hs : stream c with
  | nil => rw [hs] at hd; simp [decode_run] at hd
  | cons m rest =>
    rw [hs] at hd
    simp only [decode_run] at hd
    by_cases hm : m &&& 0xc0 = 0xc0
    · simp only [hm, if_true] at hd
      cases rest with
      | nil => simp at hd
      | cons v rest' =>
        simp only [Option.some.injEq, Prod.mk.injEq] at hd
        obtain ⟨hw1, hs1⟩ := refill_run_stream c m (v :: rest') hw hs
        obtain ⟨hw2, hs2⟩ := refill_run_stream (refill_run c) v rest' hw1 hs1
        refine ⟨_, next_run_marker c m v rest' hw hs hm, hd.1, ?_, hw2, ?_⟩
        · rw [← hd.2]; exact hs2
        · simp [same_scan, same_tiles]
    · simp only [hm, if_false, Option.some.injEq, Prod.mk.injEq] at hd
      obtain ⟨hw1, hs1⟩ := refill_run_stream c m rest hw hs
      refine ⟨_, next_run_literal c m rest hw hs hm, hd.1, ?_, hw1, ?_⟩
      · rw [← hd.2]; exact hs1
      · simp [same_scan, same_tiles]
/-! ## The scanline assembler -/

theorem same_tiles_refl (c : conv_s) : same_tiles c c := by simp [same_tiles]

theorem same_tiles_trans {a b c : conv_s} (h1 : same_tiles a b) (h2 : same_tiles b c) :
    same_tiles a c := by
  unfold same_tiles at *
  refine ⟨by rw [h2.1, h1.1], by rw [h2.2.1, h1.2.1], by rw [h2.2.2.1, h1.2.2.1],
    by rw [h2.2.2.2.1, h1.2.2.2.1], by rw [h2.2.2.2.2.1, h1.2.2.2.2.1],
    by rw [h2.2.2.2.2.2.1, h1.2.2.2.2.2.1], by rw [h2.2.2.2.2.2.2, h1.2.2.2.2.2.2]⟩

theorem total_len_cons (r : run_s) (runs : List run_s) :
    total_len (r :: runs) = r.len + total_len runs := by
  simp [total_len]

theorem expand_cons (r : run_s) (runs : List run_s) :
    expand (r :: runs) = List.replicate r.len r.ch ++ expand runs := by
  simp [expand]

theorem expand_length (runs : List run_s) : (expand runs).length = total_len runs := by
  induction runs with
  | nil => simp [expand, total_len]
  | cons r runs ih => simp [expand_cons, total_len_cons, ih]

/-- The refill loop of `next_8_pixels`, started with the cursor at `pos1` and
fed runs that fill the rest of the scanline exactly. -/
theorem next_8_pixels_loop_fills (W : Nat) (hW : W < UINT_MOD) :
    ∀ (runs : List run_s) (fuel : Nat) (c : conv_s) (rest : List Nat),
      window_ok c → c.size1 = W → c.buf1.length = W → c.pos1 ≤ W →
      decodes (stream c) runs rest → total_len runs = W - c.pos1 →
      (∀ j, j < runs.length → total_len (runs.take j) < W - c.pos1) →
      runs.length ≤ fuel →
      ∃ c', next_8_pixels_loop fuel c = .ok c' ∧
        c'.buf1 = c.buf1.take c.pos1 ++ expand runs ∧ c'.pos1 = W ∧
        stream c' = rest ∧ window_ok c' ∧ same_tiles c c' := by
  intro runs
  induction runs with
  | nil =>
    intro fuel c rest hw hsz hlen hpos hdec htot _ _
    simp only [total_len, List.map_nil, List.sum_nil] at htot
    have hp : c.pos1 = W := by omega
    have hnlt : ¬ c.pos1 < c.size1 := by omega
    refine ⟨c, ?_, ?_, hp, ?_, hw, same_tiles_refl c⟩
    · cases fuel <;> simp [next_8_pixels_loop, hnlt]
    · simp [expand, hp, ← hlen]
    · simpa [decodes] using hdec.symm
  | cons r runs ih =>
    intro fuel c rest hw hsz hlen hpos hdec htot hpre hfuel
    have h0 := hpre 0 (by simp)
    simp only [List.take_zero, total_len, List.map_nil, List.sum_nil] at h0
    have hlt : c.pos1 < c.size1 := by omega
    rw [total_len_cons] at htot
    cases fuel with
    | zero => simp at hfuel
    | succ fuel =>
      simp only [decodes] at hdec
      cases hdr : decode_run (stream c) with
      | none => rw [hdr] at hdec; exact hdec.elim
      | some pr =>
        obtain ⟨r1, s1⟩ := pr
        rw [hdr] at hdec
        simp only at hdec
        obtain ⟨hr, hdec1⟩ := hdec
        subst hr
        obtain ⟨c1, hn, hrun, hs1, hw1, ⟨ht1, hb1, hp1⟩⟩ := next_run_decode c r1 s1 hw hdr
        have hms : memset c1.buf1 c1.pos1 c1.run.ch c1.run.len
            = some (c.buf1.take c.pos1 ++ List.replicate r1.len r1.ch
                ++ c.buf1.drop (c.pos1 + r1.len)) := by
          simp only [memset, hb1, hp1, hrun]
          rw [if_pos (by omega)]
        have hmod : (c1.pos1 + c1.run.len) % UINT_MOD = c.pos1 + r1.len := by
          rw [hp1, hrun]; apply Nat.mod_eq_of_lt; omega
        have hbody : next_8_pixels_body c = .ok
            { c1 with
              buf1 := c.buf1.take c.pos1 ++ List.replicate r1.len r1.ch
                ++ c.buf1.drop (c.pos1 + r1.len)
              pos1 := c.pos1 + r1.len } := by
          simp only [next_8_pixels_body, hn, hms, hmod]
        obtain ⟨hc1, hc2, hc3, hc4, hc5, hc6, hc7⟩ := ht1
        obtain ⟨c', hl', hb', hp', hs', hw', ht'⟩ := ih fuel
          { c1 with
            buf1 := c.buf1.take c.pos1 ++ List.replicate r1.len r1.ch
              ++ c.buf1.drop (c.pos1 + r1.len)
            pos1 := c.pos1 + r1.len } rest hw1
          (by show c1.size1 = W; omega)
          (by
            show (c.buf1.take c.pos1 ++ List.replicate r1.len r1.ch
              ++ c.buf1.drop (c.pos1 + r1.len)).length = W
            simp; omega)
          (by show c.pos1 + r1.len ≤ W; omega)
          (by show decodes (stream c1) runs rest; rw [hs1]; exact hdec1)
          (by show total_len runs = W - (c.pos1 + r1.len); omega)
          (by
            intro j hj
            have := hpre (j + 1) (by simp; omega)
            simp only [List.take_succ_cons, total_len_cons] at this
            show total_len (runs.take j) < W - (c.pos1 + r1.len)
            omega)
          (by simp at hfuel; omega)
        refine ⟨c', ?_, ?_, hp', hs', hw', ?_⟩
        · simp only [next_8_pixels_loop, hlt, if_true, hbody]
          exact hl'
        · rw [hb', expand_cons]
          simp only []
          rw [List.take_append_of_le_length (by simp; omega)]
          rw [List.take_of_length_le (by simp), List.append_assoc]
        · refine same_tiles_trans ?_ ht'
          exact ⟨hc1, hc2, hc3, hc4, hc5, hc6, hc7⟩

theorem decode_run_length (s : List Nat) (r : run_s) (t : List Nat)
    (h : decode_run s = some (r, t)) : t.length + 1 ≤ s.length := by
  cases s with
  | nil => simp [decode_run] at h
  | cons m rest =>
    simp only [decode_run] at h
    split at h
    · cases rest with
      | nil => simp at h
      | cons v rest' =>
        simp only [Option.some.injEq, Prod.mk.injEq] at h
        rw [← h.2]; simp
    · simp only [Option.some.injEq, Prod.mk.injEq] at h
      rw [← h.2]; simp

theorem decodes_length : ∀ (runs : List run_s) (s rest : List Nat),
    decodes s runs rest → runs.length + rest.length ≤ s.length := by
  intro runs
  induction runs with
  | nil => intro s rest h; simp only [decodes] at h; simp [h]
  | cons r runs ih =>
    intro s rest h
    simp only [decodes] at h
    cases hdr : decode_run s with
    | none => rw [hdr] at h; exact h.elim
    | some pr =>
      obtain ⟨r1, s1⟩ := pr
      rw [hdr] at h
      have h1 := ih s1 rest h.2
      have h2 := decode_run_length s r1 s1 hdr
      simp only [List.length_cons]; omega

theorem stream_length_le (c : conv_s) (hw : window_ok c) :
    (stream c).length ≤ 256 + c.input.length := by
  obtain ⟨_, hsz, _⟩ := hw
  simp only [stream, List.length_append, List.length_drop, List.length_take]
  omega

/-- The call `next_8_pixels` on a consumed scanline buffer, fed runs that fill one
scanline exactly. -/
theorem next_8_pixels_fills (W : Nat) (hW : W < UINT_MOD) (c : conv_s)
    (runs : List run_s) (rest : List Nat) (hw : window_ok c) (hsz : c.size1 = W)
    (hpos : c.pos1 = W) (hlen : c.buf1.length = W)
    (hdec : decodes (stream c) runs rest) (hfill : fills W runs) :
    ∃ c', next_8_pixels c = .ok c' ∧ c'.buf1 = expand runs ∧ c'.pos1 = 0 ∧
      stream c' = rest ∧ window_ok c' ∧ same_tiles c c' := by
  have hfuel : runs.length ≤ loop_bound c := by
    have h1 := decodes_length runs (stream c) rest hdec
    have h2 := stream_length_le c hw
    simp only [loop_bound]; omega
  obtain ⟨c', hl, hb, _, hs, hw', ht⟩ :=
    next_8_pixels_loop_fills W hW runs (loop_bound c) { c with pos1 := 0 } rest hw hsz hlen
      (Nat.zero_le W) hdec (by simpa using hfill.1) (by simpa using hfill.2) hfuel
  refine ⟨{ c' with pos1 := 0 }, ?_, ?_, rfl, hs, hw', ?_⟩
  · unfold next_8_pixels
    rw [if_pos (by omega), hl]
  · simpa using hb
  · exact ht

/-! ## The tile packer -/

theorem and_shift_bit (x p : Nat) : (x &&& (1 <<< p)) >>> p = x / 2 ^ p % 2 := by
  apply Nat.eq_of_testBit_eq
  intro i
  rw [Nat.testBit_shiftRight, Nat.testBit_and, Nat.one_shiftLeft, Nat.testBit_two_pow,
    ← Nat.shiftRight_eq_div_pow, show (2 : Nat) = 2 ^ 1 from rfl, Nat.testBit_mod_two_pow,
    Nat.testBit_shiftRight]
  by_cases h : i = 0
  · subst h; simp
  · have : ¬ (p = p + i) := by omega
    have h2 : ¬ (i < 1) := by omega
    simp [this, h2]

theorem pixel_bit_le (p v : Nat) : pixel_bit p v ≤ 1 := by
  unfold pixel_bit; omega

theorem pixel_bit_sext8 (p b : Nat) (hp : p < 4) : pixel_bit p (sext8 b) = pixel_bit p b := by
  unfold pixel_bit sext8
  split
  · rfl
  · interval_cases p <;> omega

theorem plane_term_sext8 (bit p b : Nat) (hp : p < 4) :
    plane_term bit p (sext8 b) = 2 ^ (7 - bit) * pixel_bit p b := by
  unfold plane_term
  rw [and_shift_bit, Nat.one_shiftLeft]
  exact congrArg _ (pixel_bit_sext8 p b hp)

theorem char_add_small (t x : Nat) (h : t + x < 256) : char_add t x = t + x := by
  unfold char_add sext8 UINT_MOD
  split <;> omega

theorem char_add_chain (e0 e1 e2 e3 e4 e5 e6 e7 : Nat) (h0 : e0 ≤ 1) (h1 : e1 ≤ 1)
    (h2 : e2 ≤ 1) (h3 : e3 ≤ 1) (h4 : e4 ≤ 1) (h5 : e5 ≤ 1) (h6 : e6 ≤ 1) (h7 : e7 ≤ 1) :
    char_add (char_add (char_add (char_add (char_add (char_add (char_add (char_add 0
      (128 * e0)) (64 * e1)) (32 * e2)) (16 * e3)) (8 * e4)) (4 * e5)) (2 * e6)) e7
      = 128 * e0 + 64 * e1 + 32 * e2 + 16 * e3 + 8 * e4 + 4 * e5 + 2 * e6 + e7 := by
  rw [char_add_small 0 (128 * e0) (by omega)]
  rw [char_add_small (0 + 128 * e0) (64 * e1) (by omega)]
  rw [char_add_small (0 + 128 * e0 + 64 * e1) (32 * e2) (by omega)]
  rw [char_add_small (0 + 128 * e0 + 64 * e1 + 32 * e2) (16 * e3) (by omega)]
  rw [char_add_small (0 + 128 * e0 + 64 * e1 + 32 * e2 + 16 * e3) (8 * e4) (by omega)]
  rw [char_add_small (0 + 128 * e0 + 64 * e1 + 32 * e2 + 16 * e3 + 8 * e4) (4 * e5)
    (by omega)]
  rw [char_add_small (0 + 128 * e0 + 64 * e1 + 32 * e2 + 16 * e3 + 8 * e4 + 4 * e5)
    (2 * e6) (by omega)]
  rw [char_add_small (0 + 128 * e0 + 64 * e1 + 32 * e2 + 16 * e3 + 8 * e4 + 4 * e5 + 2 * e6)
    e7 (by omega)]
  omega

theorem list_length_eight (l : List Nat) (h : l.length = 8) :
    ∃ x0 x1 x2 x3 x4 x5 x6 x7, l = [x0, x1, x2, x3, x4, x5, x6, x7] := by
  match l, h with
  | [x0, x1, x2, x3, x4, x5, x6, x7], _ => exact ⟨x0, x1, x2, x3, x4, x5, x6, x7, rfl⟩

/-- The inner `bit` loop builds the four plane bytes of the 8 pixels at the
scanline cursor. -/
theorem tile_bit_ok (c : conv_s) (t : tile_row_t) (bit x : Nat)
    (h : c.buf1[c.pos1 + bit]? = some x) :
    tile_bit c t bit = .ok
      { t0 := char_add t.t0 (2 ^ (7 - bit) * pixel_bit 0 x)
        t1 := char_add t.t1 (2 ^ (7 - bit) * pixel_bit 1 x)
        t2 := char_add t.t2 (2 ^ (7 - bit) * pixel_bit 2 x)
        t3 := char_add t.t3 (2 ^ (7 - bit) * pixel_bit 3 x) } := by
  simp only [tile_bit, h, plane_term_sext8 _ _ _ (show 0 < 4 by omega),
    plane_term_sext8 _ _ _ (show 1 < 4 by omega), plane_term_sext8 _ _ _ (show 2 < 4 by omega),
    plane_term_sext8 _ _ _ (show 3 < 4 by omega)]

theorem plane_byte_chain (p x0 x1 x2 x3 x4 x5 x6 x7 : Nat) :
    char_add (char_add (char_add (char_add (char_add (char_add (char_add (char_add 0
      (2 ^ (7 - 0) * pixel_bit p x0)) (2 ^ (7 - 1) * pixel_bit p x1))
      (2 ^ (7 - 2) * pixel_bit p x2)) (2 ^ (7 - 3) * pixel_bit p x3))
      (2 ^ (7 - 4) * pixel_bit p x4)) (2 ^ (7 - 5) * pixel_bit p x5))
      (2 ^ (7 - 6) * pixel_bit p x6)) (2 ^ (7 - 7) * pixel_bit p x7)
      = plane_byte p [x0, x1, x2, x3, x4, x5, x6, x7] := by
  have e := char_add_chain _ _ _ _ _ _ _ _ (pixel_bit_le p x0) (pixel_bit_le p x1)
    (pixel_bit_le p x2) (pixel_bit_le p x3) (pixel_bit_le p x4) (pixel_bit_le p x5)
    (pixel_bit_le p x6) (pixel_bit_le p x7)
  simp only [Nat.sub_zero, Nat.reduceSub, Nat.reducePow, Nat.one_mul, Nat.pow_zero,
    plane_byte, List.getD_cons_zero, List.getD_cons_succ, e]

/-- The inner `bit` loop builds the four plane bytes of the 8 pixels at the
scanline cursor. -/
theorem tile_bits (c : conv_s) (h : c.pos1 + 8 ≤ c.buf1.length) :
    (List.range 8).foldlM (tile_bit c) ⟨0, 0, 0, 0⟩ = .ok
      { t0 := plane_byte 0 ((c.buf1.drop c.pos1).take 8)
        t1 := plane_byte 1 ((c.buf1.drop c.pos1).take 8)
        t2 := plane_byte 2 ((c.buf1.drop c.pos1).take 8)
        t3 := plane_byte 3 ((c.buf1.drop c.pos1).take 8) } := by
  have hlen : ((c.buf1.drop c.pos1).take 8).length = 8 := by simp; omega
  have hget : ∀ i, i < 8 → c.buf1[c.pos1 + i]? = ((c.buf1.drop c.pos1).take 8)[i]? := by
    intro i hi
    rw [List.getElem?_take_of_lt hi, List.getElem?_drop]
  obtain ⟨x0, x1, x2, x3, x4, x5, x6, x7, hpx⟩ := list_length_eight _ hlen
  rw [hpx] at hget
  rw [hpx]
  have hr : List.range 8 = [0, 1, 2, 3, 4, 5, 6, 7] := by decide
  rw [hr]
  simp only [List.foldlM_cons, List.foldlM_nil]
  rw [tile_bit_ok c _ 0 x0 (by rw [hget 0 (by omega)]; rfl)]
  simp only [bind, Except.bind]
  rw [tile_bit_ok c _ 1 x1 (by rw [hget 1 (by omega)]; rfl)]
  simp only [bind, Except.bind]
  rw [tile_bit_ok c _ 2 x2 (by rw [hget 2 (by omega)]; rfl)]
  simp only [bind, Except.bind]
  rw [tile_bit_ok c _ 3 x3 (by rw [hget 3 (by omega)]; rfl)]
  simp only [bind, Except.bind]
  rw [tile_bit_ok c _ 4 x4 (by rw [hget 4 (by omega)]; rfl)]
  simp only [bind, Except.bind]
  rw [tile_bit_ok c _ 5 x5 (by rw [hget 5 (by omega)]; rfl)]
  simp only [bind, Except.bind]
  rw [tile_bit_ok c _ 6 x6 (by rw [hget 6 (by omega)]; rfl)]
  simp only [bind, Except.bind]
  rw [tile_bit_ok c _ 7 x7 (by rw [hget 7 (by omega)]; rfl)]
  simp only [bind, Except.bind, pure, Except.pure, plane_byte_chain]

theorem memcpy_ok (dst src : List Nat) (off : Nat) (h : off + src.length ≤ dst.length) :
    ∃ b, memcpy dst off src = some b ∧ b.length = dst.length ∧
      ∀ i, b[i]? = if off ≤ i ∧ i < off + src.length then src[i - off]? else dst[i]? := by
  refine ⟨_, if_pos h, ?_, ?_⟩
  · simp; omega
  · intro i
    by_cases h1 : i < off
    · rw [if_neg (by omega), List.append_assoc, List.getElem?_append_left (by simp; omega),
        List.getElem?_take_of_lt h1]
    · by_cases h2 : i < off + src.length
      · rw [if_pos (by omega), List.getElem?_append_left (by simp; omega),
          List.getElem?_append_right (by simp; omega)]
        simp
        congr 1
        omega
      · rw [if_neg (by omega), List.getElem?_append_right (by simp; omega),
          List.getElem?_drop]
        congr 1
        simp
        omega

/-- One iteration of the column loop: four plane bytes are stored at
`col*32 + row*4` and the scanline cursor advances by 8. -/
theorem tile_col_ok (row col : Nat) (c : conv_s) (hrow : row < 8)
    (hpos : c.pos1 + 8 ≤ c.buf1.length) (hlen1 : c.buf1.length < UINT_MOD)
    (hcol : col * 32 + 32 ≤ c.buf2.length) (hwrap : col * 32 < UINT_MOD) :
    ∃ B, tile_col row c col = .ok { c with buf2 := B, pos1 := c.pos1 + 8 } ∧
      B.length = c.buf2.length ∧
      ∀ i, B[i]? = if i / 32 = col ∧ i % 32 / 4 = row then
          some (plane_byte (i % 4) ((c.buf1.drop c.pos1).take 8))
        else c.buf2[i]? := by
  have hoff : col * 32 % UINT_MOD + row * 4 % UINT_MOD = col * 32 + row * 4 := by
    rw [Nat.mod_eq_of_lt hwrap, Nat.mod_eq_of_lt (by unfold UINT_MOD; omega)]
  have hp8 : (c.pos1 + 8) % UINT_MOD = c.pos1 + 8 := Nat.mod_eq_of_lt (by omega)
  obtain ⟨B, hB, hBl, hBi⟩ := memcpy_ok c.buf2
    [plane_byte 0 ((c.buf1.drop c.pos1).take 8), plane_byte 1 ((c.buf1.drop c.pos1).take 8),
      plane_byte 2 ((c.buf1.drop c.pos1).take 8), plane_byte 3 ((c.buf1.drop c.pos1).take 8)]
    (col * 32 + row * 4) (by simp; omega)
  refine ⟨B, ?_, hBl, ?_⟩
  · simp only [tile_col, tile_bits c hpos, hoff, hB, hp8]
  · intro i
    rw [hBi]
    simp only [List.length_cons, List.length_nil]
    by_cases hi : i / 32 = col ∧ i % 32 / 4 = row
    · rw [if_pos hi, if_pos (by omega)]
      obtain ⟨h1, h2⟩ := hi
      have h4 : i - (col * 32 + row * 4) = i % 4 := by omega
      rw [h4]
      have h5 : i % 4 < 4 := Nat.mod_lt _ (by omega)
      interval_cases h6 : i % 4 <;> rfl
    · rw [if_neg hi, if_neg (by omega)]

/-- The column loop of `next_8_scanlines` over the tile columns `k .. k+n-1`
of row `row`. -/
theorem tile_cols_ok (row : Nat) (hrow : row < 8) :
    ∀ (n k : Nat) (c : conv_s),
      c.pos1 + 8 * n ≤ c.buf1.length → c.buf1.length < UINT_MOD →
      (k + n) * 32 ≤ c.buf2.length → (k + n) * 32 ≤ UINT_MOD →
      ∃ B, (List.range' k n).foldlM (tile_col row) c
          = .ok { c with buf2 := B, pos1 := c.pos1 + 8 * n } ∧
        B.length = c.buf2.length ∧
        ∀ i, B[i]? = if k ≤ i / 32 ∧ i / 32 < k + n ∧ i % 32 / 4 = row then
            some (plane_byte (i % 4) ((c.buf1.drop (c.pos1 + 8 * (i / 32 - k))).take 8))
          else c.buf2[i]? := by
  intro n
  induction n with
  | zero =>
    intro k c _ _ _ _
    refine ⟨c.buf2, rfl, rfl, ?_⟩
    intro i
    rw [if_neg (by omega)]
  | succ n ih =>
    intro k c h1 h2 h3 h4
    obtain ⟨B1, hB1, hl1, hi1⟩ := tile_col_ok row k c hrow (by omega) h2 (by omega) (by omega)
    obtain ⟨B2, hB2, hl2, hi2⟩ := ih (k + 1) { c with buf2 := B1, pos1 := c.pos1 + 8 }
      (by show c.pos1 + 8 + 8 * n ≤ c.buf1.length; omega) h2
      (by show (k + 1 + n) * 32 ≤ B1.length; omega) (by omega)
    refine ⟨B2, ?_, ?_, ?_⟩
    · rw [List.range'_succ, List.foldlM_cons, hB1]
      simp only [bind, Except.bind]
      rw [hB2]
      have : c.pos1 + 8 + 8 * n = c.pos1 + 8 * (n + 1) := by omega
      simp only [this]
    · rw [hl2]; exact hl1
    · intro i
      rw [hi2]
      simp only []
      by_cases hc : k + 1 ≤ i / 32 ∧ i / 32 < k + 1 + n ∧ i % 32 / 4 = row
      · rw [if_pos hc, if_pos (by omega)]
        have : c.pos1 + 8 + 8 * (i / 32 - (k + 1)) = c.pos1 + 8 * (i / 32 - k) := by omega
        rw [this]
      · rw [if_neg hc, hi1]
        by_cases hd : i / 32 = k ∧ i % 32 / 4 = row
        · rw [if_pos hd, if_pos (by omega)]
          have : c.pos1 + 8 * (i / 32 - k) = c.pos1 := by omega
          rw [this]
        · rw [if_neg hd, if_neg (by omega)]

theorem same_hdr_refl (c : conv_s) : same_hdr c c := by simp [same_hdr]

theorem same_hdr_trans {a b c : conv_s} (h1 : same_hdr a b) (h2 : same_hdr b c) :
    same_hdr a c := by
  unfold same_hdr at *
  refine ⟨by rw [h2.1, h1.1], by rw [h2.2.1, h1.2.1], by rw [h2.2.2.1, h1.2.2.1],
    by rw [h2.2.2.2.1, h1.2.2.2.1], by rw [h2.2.2.2.2.1, h1.2.2.2.2.1],
    by rw [h2.2.2.2.2.2, h1.2.2.2.2.2]⟩

theorem same_tiles_hdr {c c' : conv_s} (h : same_tiles c c') : same_hdr c c' := h.2

/-- One iteration of the row loop: a scanline is assembled and its `W/8`
tiles are packed into row `row` of the tile buffer. -/
theorem scan_row_ok (W : Nat) (hW8 : W % 8 = 0) (hW : W * 8 < UINT_MOD) (row : Nat)
    (hrow : row < 8) (c : conv_s) (runs : List run_s) (mid : List Nat)
    (hw : window_ok c) (hsz : c.size1 = W) (hpos : c.pos1 = W) (hlen : c.buf1.length = W)
    (hlen2 : c.buf2.length = 4 * W)
    (hdec : decodes (stream c) runs mid) (hfill : fills W runs) :
    ∃ c', scan_row (W / 8) c row = .ok c' ∧ c'.buf1.length = W ∧ c'.pos1 = W ∧
      stream c' = mid ∧ window_ok c' ∧ c'.buf2.length = 4 * W ∧ same_hdr c c' ∧
      ∀ i, c'.buf2[i]? = if i / 32 < W / 8 ∧ i % 32 / 4 = row then
          some (tile_byte (expand runs) (i / 32) (i % 4))
        else c.buf2[i]? := by
  have hWlt : W < UINT_MOD := by omega
  obtain ⟨c1, hn, hb1, hp1, hs1, hw1, ht1⟩ :=
    next_8_pixels_fills W hWlt c runs mid hw hsz hpos hlen hdec hfill
  have hl1 : c1.buf1.length = W := by rw [hb1, expand_length]; exact hfill.1
  have hb2 : c1.buf2 = c.buf2 := ht1.1
  obtain ⟨B, hB, hBl, hBi⟩ := tile_cols_ok row hrow (W / 8) 0 c1 (by omega) (by omega)
    (by rw [hb2]; omega) (by unfold UINT_MOD at *; omega)
  refine ⟨{ c1 with buf2 := B, pos1 := c1.pos1 + 8 * (W / 8) }, ?_, ?_, ?_, hs1, hw1, ?_, ?_, ?_⟩
  · simp only [scan_row, hn]
    rw [← List.range_eq_range'] at hB
    exact hB
  · exact hl1
  · show c1.pos1 + 8 * (W / 8) = W; omega
  · show B.length = 4 * W; rw [hBl, hb2]; exact hlen2
  · exact ht1.2
  · intro i
    show B[i]? = _
    rw [hBi, hb2]
    by_cases hc : i / 32 < W / 8 ∧ i % 32 / 4 = row
    · rw [if_pos hc, if_pos (by omega), hb1, hp1]
      simp [tile_byte]
    · rw [if_neg hc, if_neg (by omega)]

/-- The row loop of `next_8_scanlines` over the rows `k .. k + |lines| - 1`. -/
theorem scan_rows_ok (W : Nat) (hW8 : W % 8 = 0) (hW : W * 8 < UINT_MOD) :
    ∀ (lines : List (List Nat)) (k : Nat) (c : conv_s) (rest : List Nat),
      k + lines.length ≤ 8 → window_ok c → c.size1 = W → c.pos1 = W →
      c.buf1.length = W → c.buf2.length = 4 * W → encodes W (stream c) lines rest →
      ∃ c', (List.range' k lines.length).foldlM (scan_row (W / 8)) c = .ok c' ∧
        c'.buf1.length = W ∧ c'.pos1 = W ∧ stream c' = rest ∧ window_ok c' ∧
        c'.buf2.length = 4 * W ∧ same_hdr c c' ∧
        ∀ i, c'.buf2[i]? =
          if i / 32 < W / 8 ∧ k ≤ i % 32 / 4 ∧ i % 32 / 4 < k + lines.length then
            some (tile_byte (lines.getD (i % 32 / 4 - k) []) (i / 32) (i % 4))
          else c.buf2[i]? := by
  intro lines
  induction lines with
  | nil =>
    intro k c rest _ hw _ hpos hlen hlen2 henc
    refine ⟨c, rfl, hlen, hpos, ?_, hw, hlen2, same_hdr_refl c, ?_⟩
    · simpa [encodes] using henc.symm
    · intro i
      rw [if_neg (by simp)]
  | cons line lines ih =>
    intro k c rest hk hw hsz hpos hlen hlen2 henc
    simp only [List.length_cons] at hk
    obtain ⟨runs, mid, hdec, hfill, hline, henc'⟩ := henc
    obtain ⟨c1, hr1, hl1, hp1, hs1, hw1, hl21, hh1, hi1⟩ :=
      scan_row_ok W hW8 hW k (by omega) c runs mid hw hsz hpos hlen hlen2 hdec hfill
    obtain ⟨c2, hr2, hl2, hp2, hs2, hw2, hl22, hh2, hi2⟩ :=
      ih (k + 1) c1 rest (by omega) hw1 (hh1.1.trans hsz) hp1 hl1 hl21 (by rw [hs1]; exact henc')
    refine ⟨c2, ?_, hl2, hp2, hs2, hw2, hl22, same_hdr_trans hh1 hh2, ?_⟩
    · rw [List.length_cons, List.range'_succ, List.foldlM_cons, hr1]
      exact hr2
    · intro i
      rw [hi2, hi1, List.length_cons]
      by_cases ha : i / 32 < W / 8 ∧ k + 1 ≤ i % 32 / 4 ∧ i % 32 / 4 < k + 1 + lines.length
      · rw [if_pos ha, if_pos (by omega)]
        have : i % 32 / 4 - k = (i % 32 / 4 - (k + 1)) + 1 := by omega
        rw [this, List.getD_cons_succ]
      · rw [if_neg ha]
        by_cases hb : i / 32 < W / 8 ∧ i % 32 / 4 = k
        · rw [if_pos hb, if_pos (by omega)]
          have : i % 32 / 4 - k = 0 := by omega
          rw [this, List.getD_cons_zero, hline]
        · rw [if_neg hb, if_neg (by omega)]

theorem pack_tiles_length (W : Nat) (lines : List (List Nat)) :
    (pack_tiles W lines).length = 4 * W := by
  simp [pack_tiles]

/-- The call `next_8_scanlines` on a stream that starts with 8 well-formed scanlines:
the tile buffer is exactly the packing of these scanlines. -/
theorem next_8_scanlines_ok (W : Nat) (hW8 : W % 8 = 0) (hW : W * 8 < UINT_MOD)
    (lines : List (List Nat)) (c : conv_s) (rest : List Nat) (hlines : lines.length = 8)
    (hw : window_ok c) (hwd : c.width = W) (hsz : c.size1 = W) (hpos : c.pos1 = W)
    (hlen : c.buf1.length = W) (hlen2 : c.buf2.length = 4 * W)
    (henc : encodes W (stream c) lines rest) :
    ∃ c', next_8_scanlines c = .ok c' ∧ c'.buf2 = pack_tiles W lines ∧
      c'.buf1.length = W ∧ c'.pos1 = W ∧ stream c' = rest ∧ window_ok c' ∧
      same_hdr c c' := by
  obtain ⟨c', hr, hl1, hp, hs, hw', hl2, hh, hi⟩ :=
    scan_rows_ok W hW8 hW lines 0 c rest (by omega) hw hsz hpos hlen hlen2 henc
  refine ⟨c', ?_, ?_, hl1, hp, hs, hw', hh⟩
  · unfold next_8_scanlines
    rw [hwd, List.range_eq_range']
    rw [hlines] at hr
    exact hr
  · apply List.ext_getElem?
    intro i
    rw [hi]
    by_cases hlt : i < 4 * W
    · rw [if_pos (by omega)]
      simp [pack_tiles, hlt, packed_byte]
    · rw [if_neg (by omega)]
      rw [List.getElem?_eq_none (by omega), List.getElem?_eq_none (by simp [pack_tiles]; omega)]

/-! ## The conversion loop -/

theorem encodes_split (W : Nat) : ∀ (k : Nat) (lines : List (List Nat)) (s rest : List Nat),
    encodes W s lines rest →
    ∃ mid, encodes W s (lines.take k) mid ∧ encodes W mid (lines.drop k) rest := by
  intro k
  induction k with
  | zero => intro lines s rest h; exact ⟨s, rfl, h⟩
  | succ k ih =>
    intro lines s rest h
    cases lines with
    | nil => exact ⟨s, rfl, h⟩
    | cons line lines =>
      obtain ⟨runs, mid1, hdec, hfill, hline, henc⟩ := h
      obtain ⟨mid, h1, h2⟩ := ih lines mid1 rest henc
      exact ⟨mid, ⟨runs, mid1, hdec, hfill, hline, h1⟩, h2⟩

/-- The conversion loop of `main` on a stream that starts with `8 * n`
well-formed scanlines: `n` chunks are written, packing the scanlines 8 at a
time, and exactly these scanlines are consumed. -/
theorem main_loop_ok (W : Nat) (hW8 : W % 8 = 0) (hW : W * 8 < UINT_MOD) :
    ∀ (n : Nat) (lines : List (List Nat)) (c : conv_s) (rest : List Nat),
      lines.length = 8 * n → window_ok c → c.width = W → c.size1 = W → c.pos1 = W →
      c.buf1.length = W → c.buf2.length = 4 * W → c.size2 = 4 * W →
      encodes W (stream c) lines rest →
      ∃ c', main_loop n c = .ok c' ∧ c'.output = c.output ++ pack_rows W n lines ∧
        stream c' = rest := by
  intro n
  induction n with
  | zero =>
    intro lines c rest hl _ _ _ _ _ _ _ henc
    have : lines = [] := List.length_eq_zero.mp (by omega)
    subst this
    exact ⟨c, rfl, by simp [pack_rows], henc.symm⟩
  | succ n ih =>
    intro lines c rest hl hw hwd hsz hpos hlen hlen2 hsz2 henc
    obtain ⟨mid, he1, he2⟩ := encodes_split W 8 lines (stream c) rest henc
    obtain ⟨c1, hr1, hb2, hl1, hp1, hs1, hw1, hh1⟩ :=
      next_8_scanlines_ok W hW8 hW (lines.take 8) c mid (by simp; omega) hw hwd hsz hpos
        hlen hlen2 he1
    obtain ⟨g1, g2, g3, g4, g5, g6⟩ := hh1
    have hfw : fwrite_output c1
        = .ok { c1 with output := c.output ++ [pack_tiles W (lines.take 8)] } := by
      have ht : (pack_tiles W (lines.take 8)).take (4 * W) = pack_tiles W (lines.take 8) :=
        List.take_of_length_le (by rw [pack_tiles_length])
      unfold fwrite_output
      rw [if_pos (by rw [hb2, pack_tiles_length]; omega), g6, hb2, g2, hsz2, ht]
    obtain ⟨c2, hr2, ho2, hs2⟩ := ih (lines.drop 8)
      { c1 with output := c.output ++ [pack_tiles W (lines.take 8)] } rest
      (by simp; omega) hw1 (g4.trans hwd) (g1.trans hsz) hp1 hl1
      (by show c1.buf2.length = 4 * W; rw [hb2, pack_tiles_length])
      (g2.trans hsz2) (by show encodes W (stream c1) _ _; rw [hs1]; exact he2)
    refine ⟨c2, ?_, ?_, hs2⟩
    · simp only [main_loop, hr1, hfw]
      exact hr2
    · rw [ho2]
      simp [pack_rows]

/-- State left by `buffers_init` when the size computation `width*8/2` does not
wrap. -/
theorem buffers_init_alloc (j0 j1 j2 : List Nat) (conv : conv_s)
    (hW : conv.width * 8 < UINT_MOD) :
    let c := buffers_init j0 j1 j2 conv
    c.width = conv.width ∧ c.height = conv.height ∧ c.output = conv.output ∧
      c.size1 = conv.width ∧ c.pos1 = conv.width ∧ c.buf1.length = conv.width ∧
      c.buf2.length = 4 * conv.width ∧ c.size2 = 4 * conv.width := by
  have h : conv.width * 8 % UINT_MOD / 2 = 4 * conv.width := by
    rw [Nat.mod_eq_of_lt hW]; omega
  simp only [buffers_init, malloc_length, h]
  trivial

theorem pack_rows_length (W : Nat) : ∀ (n : Nat) (lines : List (List Nat)),
    (pack_rows W n lines).length = n := by
  intro n
  induction n with
  | zero => intro lines; rfl
  | succ n ih => intro lines; simp [pack_rows, ih]

theorem pack_rows_flatten_length (W : Nat) : ∀ (n : Nat) (lines : List (List Nat)),
    (pack_rows W n lines).flatten.length = n * (4 * W) := by
  intro n
  induction n with
  | zero => intro lines; simp [pack_rows]
  | succ n ih =>
    intro lines
    simp only [pack_rows, List.flatten_cons, List.length_append, pack_tiles_length, ih]
    ring

/-- Byte `j` of chunk `t` of the output. -/
theorem pack_rows_flatten_get (W : Nat) : ∀ (n : Nat) (lines : List (List Nat)) (t j : Nat),
    t < n → j < 4 * W →
    (pack_rows W n lines).flatten[t * (4 * W) + j]?
      = some (packed_byte ((lines.drop (8 * t)).take 8) j) := by
  intro n
  induction n with
  | zero => intro lines t j ht; omega
  | succ n ih =>
    intro lines t j ht hj
    simp only [pack_rows, List.flatten_cons]
    cases t with
    | zero =>
      rw [List.getElem?_append_left (by rw [pack_tiles_length]; omega)]
      simp [pack_tiles, hj]
    | succ t =>
      rw [List.getElem?_append_right (by rw [pack_tiles_length]; nlinarith)]
      rw [pack_tiles_length]
      have h1 : (t + 1) * (4 * W) + j - 4 * W = t * (4 * W) + j := by
        have : (t + 1) * (4 * W) = t * (4 * W) + 4 * W := by ring
        omega
      rw [h1, ih (lines.drop 8) t j (by omega) hj, List.drop_drop]
      have h2 : 8 + 8 * t = 8 * (t + 1) := by ring
      rw [h2]

theorem plane_byte_lt (p : Nat) (px : List Nat) : plane_byte p px < 256 := by
  unfold plane_byte
  have h0 := pixel_bit_le p (px.getD 0 0)
  have h1 := pixel_bit_le p (px.getD 1 0)
  have h2 := pixel_bit_le p (px.getD 2 0)
  have h3 := pixel_bit_le p (px.getD 3 0)
  have h4 := pixel_bit_le p (px.getD 4 0)
  have h5 := pixel_bit_le p (px.getD 5 0)
  have h6 := pixel_bit_le p (px.getD 6 0)
  have h7 := pixel_bit_le p (px.getD 7 0)
  omega

theorem pixel_bit_testBit (p v : Nat) : v.testBit p = decide (pixel_bit p v = 1) :=
  Nat.testBit_to_div_mod

/-- Bit `7 - b` of a plane byte is bit `p` of pixel `b`. -/
theorem plane_byte_testBit (p b : Nat) (px : List Nat) (hb : b < 8) :
    (plane_byte p px).testBit (7 - b) = (px.getD b 0).testBit p := by
  rw [pixel_bit_testBit, pixel_bit_testBit]
  show decide (plane_byte p px / 2 ^ (7 - b) % 2 = 1) = _
  have h0 := pixel_bit_le p (px.getD 0 0)
  have h1 := pixel_bit_le p (px.getD 1 0)
  have h2 := pixel_bit_le p (px.getD 2 0)
  have h3 := pixel_bit_le p (px.getD 3 0)
  have h4 := pixel_bit_le p (px.getD 4 0)
  have h5 := pixel_bit_le p (px.getD 5 0)
  have h6 := pixel_bit_le p (px.getD 6 0)
  have h7 := pixel_bit_le p (px.getD 7 0)
  have key : plane_byte p px / 2 ^ (7 - b) % 2 = pixel_bit p (px.getD b 0) := by
    unfold plane_byte
    interval_cases b <;> simp only [Nat.sub_zero, Nat.reduceSub, Nat.reducePow, Nat.pow_zero,
      Nat.div_one] <;> omega
  rw [key]

/-- Pixel `b` of tile column `col` of a scanline. -/
theorem tile_pixel (line : List Nat) (col b : Nat) (hb : b < 8) :
    ((line.drop (8 * col)).take 8).getD b 0 = line.getD (8 * col + b) 0 := by
  simp only [List.getD_eq_getElem?_getD]
  rw [List.getElem?_take_of_lt hb, List.getElem?_drop]

/-- Scanline `r` of the `t`-th group of 8 scanlines. -/
theorem group_line (lines : List (List Nat)) (t r : Nat) (hr : r < 8) :
    ((lines.drop (8 * t)).take 8).getD r [] = lines.getD (8 * t + r) [] := by
  simp only [List.getD_eq_getElem?_getD]
  rw [List.getElem?_take_of_lt hr, List.getElem?_drop]

/-! ## Widths whose buffer size wraps -/

theorem tile_col_fault (row col : Nat) (c : conv_s) (hpos : c.pos1 + 8 ≤ c.buf1.length)
    (hoff : c.buf2.length < col * 32 % UINT_MOD + row * 4 % UINT_MOD + 4) :
    tile_col row c col = .error .oobWrite := by
  simp only [tile_col, tile_bits c hpos, memcpy, List.length_cons, List.length_nil]
  rw [if_neg (by omega)]

/-- The column loop writes past the tile buffer when the buffer holds only `n`
tiles and the scanline has more. -/
theorem tile_cols_fault (row : Nat) (hrow : row < 8) (n m : Nat) (c : conv_s)
    (h1 : c.pos1 + 8 * (n + 1) ≤ c.buf1.length) (h2 : c.buf1.length < UINT_MOD)
    (h3 : c.buf2.length = n * 32) (h4 : n * 32 + 32 ≤ UINT_MOD) :
    (List.range' 0 (n + (1 + m))).foldlM (tile_col row) c = .error .oobWrite := by
  obtain ⟨B, hB, hBl, _⟩ := tile_cols_ok row hrow n 0 c (by omega) h2 (by omega) (by omega)
  have hf := tile_col_fault row n { c with buf2 := B, pos1 := c.pos1 + 8 * n }
    (by show c.pos1 + 8 * n + 8 ≤ c.buf1.length; omega)
    (by
      show B.length < _
      rw [Nat.mod_eq_of_lt (show n * 32 < UINT_MOD by omega),
        Nat.mod_eq_of_lt (show row * 4 < UINT_MOD by unfold UINT_MOD; omega)]
      omega)
  have hsplit : List.range' 0 (n + (1 + m)) = List.range' 0 n ++ (n :: List.range' (n + 1) m) := by
    have h : List.range' 0 (n + (1 + m)) = List.range' 0 n ++ List.range' (0 + n) (1 + m) := by
      rw [List.range'_append_1, Nat.add_comm]
    rw [h, Nat.zero_add, Nat.add_comm 1 m, List.range'_succ]
  rw [hsplit, List.foldlM_append, hB]
  simp only [bind, Except.bind]
  rw [List.foldlM_cons, hf]
  rfl

/-- When `width*8` wraps in `unsigned int`, the tile buffer allocated by
`buffers_init` is too small for one row of tiles and the first call of
`next_8_scanlines` writes past its end. -/
theorem next_8_scanlines_wide_fault (W : Nat) (hW8 : W % 8 = 0) (hWlt : W < UINT_MOD)
    (hwrap : UINT_MOD ≤ W * 8) (j0 j1 j2 : List Nat) (conv : conv_s) (runs : List run_s)
    (mid : List Nat) (hwd : conv.width = W) (hdec : decodes conv.input runs mid)
    (hfill : fills W runs) :
    next_8_scanlines (buffers_init j0 j1 j2 conv) = .error .oobWrite := by
  obtain ⟨hw, hs⟩ := buffers_init_window j0 j1 j2 conv
  have f1 : (buffers_init j0 j1 j2 conv).width = W := hwd
  have f2 : (buffers_init j0 j1 j2 conv).size1 = W := hwd
  have f3 : (buffers_init j0 j1 j2 conv).pos1 = W := hwd
  have f4 : (buffers_init j0 j1 j2 conv).buf1.length = W := by
    simp only [buffers_init, malloc_length, hwd]
  have f5 : (buffers_init j0 j1 j2 conv).buf2.length = W * 8 % UINT_MOD / 2 := by
    simp only [buffers_init, malloc_length, hwd]
  obtain ⟨c1, hn, hb1, hp1, _, _, ht1⟩ :=
    next_8_pixels_fills W hWlt (buffers_init j0 j1 j2 conv) runs mid hw f2 f3 f4
      (by rw [hs]; exact hdec) hfill
  have hl1 : c1.buf1.length = W := by rw [hb1, expand_length]; exact hfill.1
  have hcount : W / 8 = W * 8 % UINT_MOD / 64 + (1 + (W / 8 - W * 8 % UINT_MOD / 64 - 1)) := by
    unfold UINT_MOD at *; omega
  have hfault := tile_cols_fault 0 (by omega) (W * 8 % UINT_MOD / 64)
    (W / 8 - W * 8 % UINT_MOD / 64 - 1) c1
    (by rw [hp1, hl1]; unfold UINT_MOD at *; omega) (by omega)
    (by rw [ht1.1, f5]; unfold UINT_MOD at *; omega) (by unfold UINT_MOD at *; omega)
  unfold next_8_scanlines
  rw [f1, List.range_eq_range', show (8 : Nat) = 7 + 1 from rfl, List.range'_succ,
    List.foldlM_cons]
  have hrow : scan_row (W / 8) (buffers_init j0 j1 j2 conv) 0 = .error .oobWrite := by
    simp only [scan_row, hn]
    rw [List.range_eq_range', hcount]
    exact hfault
  rw [hrow]
  rfl

/-! ## Sample inputs are well formed -/

theorem decodes_solid_line (v : Nat) (t : List Nat) : ∀ n : Nat,
    decodes (solid_line n v ++ t) (List.replicate n ⟨v, 8⟩) t := by
  intro n
  induction n with
  | zero => simp [solid_line, decodes]
  | succ n ih =>
    have h : solid_line (n + 1) v ++ t = 0xc8 :: v :: (solid_line n v ++ t) := by
      simp [solid_line, List.replicate_succ]
    rw [h, List.replicate_succ]
    simp only [decodes, decode_run]
    exact ⟨rfl, ih⟩

theorem total_len_solid (v : Nat) : ∀ n : Nat,
    total_len (List.replicate n (⟨v, 8⟩ : run_s)) = 8 * n := by
  intro n
  induction n with
  | zero => rfl
  | succ n ih => rw [List.replicate_succ, total_len_cons, ih]; show 8 + 8 * n = _; omega

theorem fills_solid (n v : Nat) : fills (8 * n) (List.replicate n ⟨v, 8⟩) := by
  refine ⟨total_len_solid v n, ?_⟩
  intro j hj
  simp only [List.length_replicate] at hj
  rw [List.take_replicate, total_len_solid, Nat.min_eq_left (by omega)]
  omega

theorem expand_solid (v : Nat) : ∀ n : Nat,
    expand (List.replicate n (⟨v, 8⟩ : run_s)) = List.replicate (8 * n) v := by
  intro n
  induction n with
  | zero => rfl
  | succ n ih =>
    rw [List.replicate_succ, expand_cons, ih]
    show List.replicate 8 v ++ List.replicate (8 * n) v = _
    rw [List.append_replicate_replicate]
    congr 1
    omega

theorem encodes_solid_image (n v : Nat) (t : List Nat) : ∀ m : Nat,
    encodes (8 * n) (solid_image m n v ++ t) (List.replicate m (List.replicate (8 * n) v)) t := by
  intro m
  induction m with
  | zero => simp [solid_image, encodes]
  | succ m ih =>
    have h : solid_image (m + 1) n v ++ t = solid_line n v ++ (solid_image m n v ++ t) := by
      simp [solid_image, List.replicate_succ]
    rw [h, List.replicate_succ]
    exact ⟨List.replicate n ⟨v, 8⟩, _, decodes_solid_line v _ n, fills_solid n v,
      (expand_solid v n).symm, ih⟩

theorem solid_image_succ (m n v : Nat) :
    solid_image (m + 1) n v = solid_line n v ++ solid_image m n v := by
  simp [solid_image, List.replicate_succ]

theorem main_loop_fault (n : Nat) (c : conv_s) (e : Fault)
    (h : next_8_scanlines c = .error e) : main_loop (n + 1) c = .error e := by
  simp only [main_loop, h]

/-! ## Claims -/

/-- C1, on the widths whose `width*8` does not wrap in `unsigned int`. End to end:
for every width `W` and height `H` that are multiples of 8 with `W * 8 < 2^32`
and every pixel-data stream that starts with `H` well-formed scanlines `lines`
of `W` pixels, the conversion loop of `main`, run on the state left by
`buffers_init`, completes and writes exactly `(W/8)*(H/8)*32` bytes; the byte at
index `(tr*(W/8)+tc)*32 + r*4 + p` is a byte (`< 256`) whose bit `7-b` is bit
`p` of the pixel at row `8*tr+r`, column `8*tc+b`. -/
theorem C1_end_to_end (W H : Nat) (j0 j1 j2 : List Nat) (conv : conv_s)
    (lines : List (List Nat)) (rest : List Nat)
    (hW8 : W % 8 = 0) (hH8 : H % 8 = 0) (hW : W * 8 < UINT_MOD)
    (hwd : conv.width = W) (hht : conv.height = H) (hout : conv.output = [])
    (hlines : lines.length = H) (henc : encodes W conv.input lines rest) :
    ∃ c', main_convert (buffers_init j0 j1 j2 conv) = .ok c' ∧
      c'.output.flatten.length = (W / 8) * (H / 8) * 32 ∧
      ∀ tr tc r p b, tr < H / 8 → tc < W / 8 → r < 8 → p < 4 → b < 8 →
        c'.output.flatten.getD ((tr * (W / 8) + tc) * 32 + r * 4 + p) 0 < 256 ∧
        (c'.output.flatten.getD ((tr * (W / 8) + tc) * 32 + r * 4 + p) 0).testBit (7 - b)
          = ((lines.getD (8 * tr + r) []).getD (8 * tc + b) 0).testBit p := by
  obtain ⟨hw, hs⟩ := buffers_init_window j0 j1 j2 conv
  obtain ⟨a1, a2, a3, a4, a5, a6, a7, a8⟩ :=
    buffers_init_alloc j0 j1 j2 conv (by rw [hwd]; exact hW)
  rw [hwd] at a1 a4 a5 a6 a7 a8
  obtain ⟨c', hr, ho, _⟩ := main_loop_ok W hW8 hW (H / 8) lines (buffers_init j0 j1 j2 conv)
    rest (by omega) hw a1 a4 a5 a6 a7 a8 (by rw [hs]; exact henc)
  rw [a3, hout, List.nil_append] at ho
  have hr : main_convert (buffers_init j0 j1 j2 conv) = .ok c' := by
    unfold main_convert; rw [a2, hht]; exact hr
  obtain ⟨q, hq⟩ : ∃ q, W = 8 * q := ⟨W / 8, by omega⟩
  have hq8 : W / 8 = q := by omega
  refine ⟨c', hr, ?_, ?_⟩
  · rw [ho, pack_rows_flatten_length, hq8, hq]; ring
  · intro tr tc r p b htr htc hr8 hp hb
    have hidx : (tr * (W / 8) + tc) * 32 + r * 4 + p = tr * (4 * W) + (tc * 32 + r * 4 + p) := by
      rw [hq8, hq]; ring
    have hj : tc * 32 + r * 4 + p < 4 * W := by omega
    have hget := pack_rows_flatten_get W (H / 8) lines tr (tc * 32 + r * 4 + p) htr hj
    rw [ho, hidx, List.getD_eq_getElem?_getD, hget, Option.getD_some]
    have e1 : (tc * 32 + r * 4 + p) % 32 / 4 = r := by omega
    have e2 : (tc * 32 + r * 4 + p) / 32 = tc := by omega
    have e3 : (tc * 32 + r * 4 + p) % 4 = p := by omega
    simp only [packed_byte, e1, e2, e3, tile_byte]
    refine ⟨plane_byte_lt _ _, ?_⟩
    rw [plane_byte_testBit p b _ hb, tile_pixel _ _ _ hb, group_line _ _ _ hr8]

set_option maxRecDepth 100000 in
/-- C1, witness: `W = H = 8` and a stream encoding 64 pixels of value `0x0F`
give exactly one 32-byte tile whose every byte is `0xFF`. -/
theorem C1_end_to_end_witness :
    ∃ c', main_convert (buffers_init [] [] [] (conv_image 8 8 (solid_image 8 1 0x0F)))
        = .ok c' ∧ c'.output = [List.replicate 32 0xFF] := by
  obtain ⟨c', h, _, _⟩ := C1_end_to_end 8 8 [] [] [] (conv_image 8 8 (solid_image 8 1 0x0F))
    (List.replicate 8 (List.replicate (8 * 1) 0x0F)) [] (by decide) (by decide) (by decide)
    rfl rfl rfl (by simp) (by simpa using encodes_solid_image 1 0x0F [] 8)
  refine ⟨c', h, ?_⟩
  have h2 : main_convert (buffers_init [] [] [] (conv_image 8 8 (solid_image 8 1 0x0F)))
      = .ok (match main_convert
          (buffers_init [] [] [] (conv_image 8 8 (solid_image 8 1 0x0F))) with
        | .ok c => c
        | .error _ => conv_open []) := by rfl
  rw [h2] at h
  injection h with h
  rw [← h]
  rfl

/-- C1, failing input: for `W = 8 * 536870911 = 4294967288` (the width that
`read_header` computes from `xmin = 9`, `xmax = 0`), `H = 8` and a well-formed
stream of 8 solid scanlines, the conversion loop does not produce the claimed
output: its first `next_8_scanlines` writes past the tile buffer, which
`buffers_init` sized with the wrapped product `width*8`. -/
theorem C1_failing_input :
    (8 * 536870911) % 8 = 0 ∧ 0 < 8 * 536870911 ∧
    encodes (8 * 536870911)
      (conv_image (8 * 536870911) 8 (solid_image 8 536870911 0x0F)).input
      (List.replicate 8 (List.replicate (8 * 536870911) 0x0F)) [] ∧
    main_convert
      (buffers_init [] [] [] (conv_image (8 * 536870911) 8 (solid_image 8 536870911 0x0F)))
      = .error .oobWrite := by
  have henc : encodes (8 * 536870911)
      (conv_image (8 * 536870911) 8 (solid_image 8 536870911 0x0F)).input
      (List.replicate 8 (List.replicate (8 * 536870911) 0x0F)) [] := by
    have h := encodes_solid_image 536870911 0x0F [] 8
    rw [List.append_nil] at h
    exact h
  have hwd : (conv_image (8 * 536870911) 8 (solid_image 8 536870911 0x0F)).width
      = 8 * 536870911 := rfl
  have hdec : decodes (conv_image (8 * 536870911) 8 (solid_image 8 536870911 0x0F)).input
      (List.replicate 536870911 ⟨0x0F, 8⟩) (solid_image 7 536870911 0x0F) := by
    have h := decodes_solid_line 0x0F (solid_image 7 536870911 0x0F) 536870911
    rw [← solid_image_succ] at h
    exact h
  have hf : next_8_scanlines
      (buffers_init [] [] [] (conv_image (8 * 536870911) 8 (solid_image 8 536870911 0x0F)))
      = .error .oobWrite :=
    next_8_scanlines_wide_fault (8 * 536870911) (by decide) (by decide) (by decide)
      [] [] [] (conv_image (8 * 536870911) 8 (solid_image 8 536870911 0x0F))
      (List.replicate 536870911 ⟨0x0F, 8⟩) (solid_image 7 536870911 0x0F) hwd hdec
      (fills_solid 536870911 0x0F)
  exact ⟨by decide, by decide, henc, main_loop_fault 0 _ _ hf⟩

/-- C2, on the widths whose `width*8` does not wrap in `unsigned int`. Bit-plane
packing: for every width `W` that is a multiple of 8 with `W * 8 < 2^32`, on a
state whose buffers are those allocated by `buffers_init`, whose scanline
buffer is consumed and whose stream starts with 8 well-formed scanlines
`lines`, one call of `next_8_scanlines` succeeds and leaves at offset
`col*32 + row*4 + p` of the tile buffer the byte `plane_byte p` of the 8 pixels
`lines[row][8*col ..]`: a byte whose bit `7-b` is `(lines[row][8*col+b] >> p) & 1`. -/
theorem C2_bit_plane_packing (W : Nat) (lines : List (List Nat)) (c : conv_s)
    (rest : List Nat) (hW8 : W % 8 = 0) (hW : W * 8 < UINT_MOD)
    (hlines : lines.length = 8) (hw : window_ok c) (hwd : c.width = W)
    (hsz : c.size1 = W) (hpos : c.pos1 = W) (hlen : c.buf1.length = W)
    (hlen2 : c.buf2.length = W * 8 % UINT_MOD / 2)
    (henc : encodes W (stream c) lines rest) :
    ∃ c', next_8_scanlines c = .ok c' ∧
      ∀ col row p, col < W / 8 → row < 8 → p < 4 →
        c'.buf2[col * 32 + row * 4 + p]?
          = some (plane_byte p (((lines.getD row []).drop (8 * col)).take 8)) ∧
        plane_byte p (((lines.getD row []).drop (8 * col)).take 8) < 256 ∧
        ∀ b, b < 8 →
          (plane_byte p (((lines.getD row []).drop (8 * col)).take 8)).testBit (7 - b)
            = ((lines.getD row []).getD (8 * col + b) 0).testBit p := by
  have h2 : c.buf2.length = 4 * W := by
    rw [hlen2, Nat.mod_eq_of_lt hW]; omega
  obtain ⟨c', hr, hb, _⟩ := next_8_scanlines_ok W hW8 hW lines c rest hlines hw hwd hsz hpos
    hlen h2 henc
  refine ⟨c', hr, ?_⟩
  intro col row p hcol hrow hp
  have e1 : (col * 32 + row * 4 + p) % 32 / 4 = row := by omega
  have e2 : (col * 32 + row * 4 + p) / 32 = col := by omega
  have e3 : (col * 32 + row * 4 + p) % 4 = p := by omega
  refine ⟨?_, plane_byte_lt _ _, ?_⟩
  · rw [hb, pack_tiles, List.getElem?_map, List.getElem?_range (by omega)]
    simp only [Option.map_some', packed_byte, e1, e2, e3, tile_byte]
  · intro b hb8
    rw [plane_byte_testBit p b _ hb8, tile_pixel _ _ _ hb8]

set_option maxRecDepth 100000 in
/-- C2, witness: when every pixel of a single 8x8 tile is `0x01`, the plane-0
byte of every row is `0xFF` and the bytes of planes 1, 2 and 3 are `0x00`. -/
theorem C2_bit_plane_packing_witness :
    ∃ c', next_8_scanlines (buffers_init [] [] [] (conv_image 8 8 (solid_image 8 1 0x01)))
        = .ok c' ∧ c'.buf2 = (List.replicate 8 [0xFF, 0x00, 0x00, 0x00]).flatten := by
  obtain ⟨hw, hs⟩ := buffers_init_window [] [] [] (conv_image 8 8 (solid_image 8 1 0x01))
  obtain ⟨c', h, _⟩ := C2_bit_plane_packing 8
    (List.replicate 8 (List.replicate (8 * 1) 0x01))
    (buffers_init [] [] [] (conv_image 8 8 (solid_image 8 1 0x01))) [] (by decide)
    (by decide) (by simp) hw rfl rfl rfl rfl rfl
    (by rw [hs]; simpa using encodes_solid_image 1 0x01 [] 8)
  refine ⟨c', h, ?_⟩
  have h2 : next_8_scanlines (buffers_init [] [] [] (conv_image 8 8 (solid_image 8 1 0x01)))
      = .ok (match next_8_scanlines
          (buffers_init [] [] [] (conv_image 8 8 (solid_image 8 1 0x01))) with
        | .ok c => c
        | .error _ => conv_open []) := by rfl
  rw [h2] at h
  injection h with h
  rw [← h]
  rfl

/-- C2, failing input: for `W = 8 * 536870911 = 4294967288`, a multiple of 8,
on the state left by `buffers_init` with a stream of 8 well-formed scanlines of
pixels `0x01`, `next_8_scanlines` does not fill the tile buffer: the buffer has
only `(W*8 mod 2^32)/2 = 2147483616` bytes and the call writes past its end. -/
theorem C2_failing_input :
    (8 * 536870911) % 8 = 0 ∧
    window_ok (buffers_init [] [] [] (conv_image (8 * 536870911) 8 (solid_image 8 536870911 1))) ∧
    encodes (8 * 536870911)
      (stream (buffers_init [] [] [] (conv_image (8 * 536870911) 8 (solid_image 8 536870911 1))))
      (List.replicate 8 (List.replicate (8 * 536870911) 1)) [] ∧
    (buffers_init [] [] [] (conv_image (8 * 536870911) 8 (solid_image 8 536870911 1))).buf2.length
      = 2147483616 ∧
    next_8_scanlines
      (buffers_init [] [] [] (conv_image (8 * 536870911) 8 (solid_image 8 536870911 1)))
      = .error .oobWrite := by
  obtain ⟨hw, hs⟩ :=
    buffers_init_window [] [] [] (conv_image (8 * 536870911) 8 (solid_image 8 536870911 1))
  have henc : encodes (8 * 536870911)
      (stream (buffers_init [] [] [] (conv_image (8 * 536870911) 8 (solid_image 8 536870911 1))))
      (List.replicate 8 (List.replicate (8 * 536870911) 1)) [] := by
    have h := encodes_solid_image 536870911 1 [] 8
    rw [List.append_nil] at h
    rw [hs]
    exact h
  have hwd : (conv_image (8 * 536870911) 8 (solid_image 8 536870911 1)).width
      = 8 * 536870911 := rfl
  have hdec : decodes (conv_image (8 * 536870911) 8 (solid_image 8 536870911 1)).input
      (List.replicate 536870911 ⟨1, 8⟩) (solid_image 7 536870911 1) := by
    have h := decodes_solid_line 1 (solid_image 7 536870911 1) 536870911
    rw [← solid_image_succ] at h
    exact h
  have hlen : (buffers_init [] [] []
      (conv_image (8 * 536870911) 8 (solid_image 8 536870911 1))).buf2.length
      = 8 * 536870911 * 8 % UINT_MOD / 2 := malloc_length _ _
  exact ⟨by decide, hw, henc, hlen,
    next_8_scanlines_wide_fault (8 * 536870911) (by decide) (by decide) (by decide)
      [] [] [] (conv_image (8 * 536870911) 8 (solid_image 8 536870911 1))
      (List.replicate 536870911 ⟨1, 8⟩) (solid_image 7 536870911 1) hwd hdec
      (fills_solid 536870911 1)⟩

/-- C3. Repeated run decode: when the byte `m` at the input window cursor has
`(m & 0xC0) == 0xC0` and is followed in the stream by a byte `v`, `next_run`
produces the run `{value: v, length: m & 0x3F}` and consumes exactly 2 bytes of
the stream. -/
theorem C3_repeated_run (c : conv_s) (m v : Nat) (rest : List Nat) (hw : window_ok c)
    (hs : stream c = m :: v :: rest) (hm : m &&& 0xc0 = 0xc0) :
    c.buf0[c.pos0]? = some m ∧
    ∃ c', next_run c = .ok c' ∧ c'.run = ⟨v, m &&& 0x3f⟩ ∧
      stream c' = (stream c).drop 2 ∧ (stream c').length + 2 = (stream c).length ∧
      window_ok c' := by
  refine ⟨stream_head c m _ hw hs, ?_⟩
  obtain ⟨c', h1, h2, h3, h4, _⟩ :=
    next_run_decode c ⟨v, m &&& 0x3f⟩ rest hw (by rw [hs]; simp [decode_run, hm])
  exact ⟨c', h1, h2, by rw [h3, hs]; rfl, by rw [h3, hs]; rfl, h4⟩

/-- C3, witness: the bytes `0xC3 0x0A` give the run `{value: 0x0A, length: 3}`
and both bytes are consumed. -/
theorem C3_repeated_run_witness :
    ∃ c', next_run (buffers_init [] [] [] (conv_image 8 8 [0xC3, 0x0A])) = .ok c' ∧
      c'.run = ⟨0x0A, 3⟩ ∧ stream c' = [] := by
  obtain ⟨hw, hs⟩ := buffers_init_window [] [] [] (conv_image 8 8 [0xC3, 0x0A])
  obtain ⟨_, c', h1, h2, h3, _⟩ :=
    C3_repeated_run (buffers_init [] [] [] (conv_image 8 8 [0xC3, 0x0A])) 0xC3 0x0A [] hw hs
      (by decide)
  exact ⟨c', h1, h2, by rw [h3, hs]; rfl⟩

/-- C4. Literal run decode: when the byte `v` at the input window cursor has
`(v & 0xC0) != 0xC0`, `next_run` produces the run `{value: v, length: 1}` and
consumes exactly 1 byte of the stream. -/
theorem C4_literal_run (c : conv_s) (v : Nat) (rest : List Nat) (hw : window_ok c)
    (hs : stream c = v :: rest) (hv : v &&& 0xc0 ≠ 0xc0) :
    c.buf0[c.pos0]? = some v ∧
    ∃ c', next_run c = .ok c' ∧ c'.run = ⟨v, 1⟩ ∧
      stream c' = (stream c).drop 1 ∧ (stream c').length + 1 = (stream c).length ∧
      window_ok c' := by
  refine ⟨stream_head c v _ hw hs, ?_⟩
  obtain ⟨c', h1, h2, h3, h4, _⟩ :=
    next_run_decode c ⟨v, 1⟩ rest hw (by rw [hs]; simp [decode_run, hv])
  exact ⟨c', h1, h2, by rw [h3, hs]; rfl, by rw [h3, hs]; rfl, h4⟩

/-- C4, witness: the byte `0x05` gives the run `{value: 0x05, length: 1}` and
only this byte is consumed. -/
theorem C4_literal_run_witness :
    ∃ c', next_run (buffers_init [] [] [] (conv_image 8 8 [0x05, 0xC3, 0x0A])) = .ok c' ∧
      c'.run = ⟨0x05, 1⟩ ∧ stream c' = [0xC3, 0x0A] := by
  obtain ⟨hw, hs⟩ := buffers_init_window [] [] [] (conv_image 8 8 [0x05, 0xC3, 0x0A])
  obtain ⟨_, c', h1, h2, h3, _⟩ :=
    C4_literal_run (buffers_init [] [] [] (conv_image 8 8 [0x05, 0xC3, 0x0A])) 0x05
      [0xC3, 0x0A] hw hs (by decide)
  exact ⟨c', h1, h2, by rw [h3, hs]; rfl⟩

/-- C5. Scanline assembly: for every width `W` (also `W = 0`), when the
scanline cursor, an `unsigned int`, equals `W` and the next runs decoded from the input are `runs`, whose
lengths sum to `W` with every proper prefix summing to less than `W`,
`next_8_pixels` consumes exactly those runs, leaves the scanline buffer equal
to the expansion of the runs (`W` bytes) and leaves the scanline cursor at 0. -/
theorem C5_scanline_assembly (W : Nat) (c : conv_s) (runs : List run_s) (rest : List Nat)
    (hw : window_ok c) (hsz : c.size1 = W) (hpos : c.pos1 = W)
    (hpos32 : c.pos1 < UINT_MOD) (hlen : c.buf1.length = W)
    (hdec : decodes (stream c) runs rest) (hfill : fills W runs) :
    ∃ c', next_8_pixels c = .ok c' ∧ c'.buf1 = expand runs ∧ c'.buf1.length = W ∧
      c'.pos1 = 0 ∧ stream c' = rest ∧ window_ok c' := by
  obtain ⟨c', h1, h2, h3, h4, h5, _⟩ :=
    next_8_pixels_fills W (by omega) c runs rest hw hsz hpos hlen hdec hfill
  exact ⟨c', h1, h2, by rw [h2, expand_length]; exact hfill.1, h3, h4, h5⟩

set_option maxRecDepth 100000 in
/-- C5, witness: `W = 8` and the runs `[(0xAA,4),(0xBB,4)]` give 4 bytes `0xAA`
followed by 4 bytes `0xBB`. -/
theorem C5_scanline_assembly_witness :
    ∃ c', next_8_pixels (buffers_init [] [] [] (conv_image 8 8 [0xC4, 0xAA, 0xC4, 0xBB]))
        = .ok c' ∧
      c'.buf1 = [0xAA, 0xAA, 0xAA, 0xAA, 0xBB, 0xBB, 0xBB, 0xBB] ∧ c'.pos1 = 0 ∧
      stream c' = [] := by
  obtain ⟨hw, hs⟩ := buffers_init_window [] [] [] (conv_image 8 8 [0xC4, 0xAA, 0xC4, 0xBB])
  obtain ⟨c', h1, h2, _, h3, h4, _⟩ :=
    C5_scanline_assembly 8 (buffers_init [] [] [] (conv_image 8 8 [0xC4, 0xAA, 0xC4, 0xBB]))
      [⟨0xAA, 4⟩, ⟨0xBB, 4⟩] [] hw rfl rfl (by decide) rfl
      (by rw [hs]; exact ⟨rfl, rfl, rfl⟩)
      (by
        refine ⟨rfl, ?_⟩
        intro j hj
        simp only [List.length_cons, List.length_nil] at hj
        interval_cases j <;> decide)
  exact ⟨c', h1, by rw [h2]; rfl, h3, h4⟩

/-- C6. Zero-length run: for every byte `v`, the stream bytes `0xC0 v` decode
in `next_run` to the run `{value: v, length: 0}`, consuming 2 bytes; met in the
refill loop of `next_8_pixels` (cursor below the size, inside the buffer), such
a run changes neither the scanline cursor nor the scanline buffer, and the loop
goes on with the rest of the stream: the iteration leaves a state `c2` on which
the loop continues. -/
theorem C6_zero_length_run (c : conv_s) (v : Nat) (rest : List Nat) (fuel : Nat)
    (hw : window_ok c) (hs : stream c = 0xc0 :: v :: rest) (hlt : c.pos1 < c.size1)
    (hcap : c.size1 ≤ c.buf1.length) (h32 : c.pos1 < UINT_MOD) :
    (∃ c1, next_run c = .ok c1 ∧ c1.run = ⟨v, 0⟩ ∧ stream c1 = rest) ∧
    ∃ c2, next_8_pixels_body c = .ok c2 ∧ c2.pos1 = c.pos1 ∧ c2.buf1 = c.buf1 ∧
      c2.size1 = c.size1 ∧ stream c2 = rest ∧ window_ok c2 ∧
      next_8_pixels_loop (fuel + 1) c = next_8_pixels_loop fuel c2 := by
  obtain ⟨c1, h1, h2, h3, h4, ⟨ht, hb, hp⟩⟩ :=
    next_run_decode c ⟨v, 0⟩ rest hw (by rw [hs]; rfl)
  refine ⟨⟨c1, h1, h2, h3⟩, ?_⟩
  have hms : memset c1.buf1 c1.pos1 c1.run.ch c1.run.len = some c.buf1 := by
    simp only [memset, h2, hb, hp, Nat.add_zero, List.replicate_zero, List.append_nil,
      List.take_append_drop]
    rw [if_pos (by omega)]
  have hmod : (c1.pos1 + c1.run.len) % UINT_MOD = c.pos1 := by
    rw [h2, hp]; exact Nat.mod_eq_of_lt h32
  have hbody : next_8_pixels_body c = .ok { c1 with buf1 := c.buf1, pos1 := c.pos1 } := by
    simp only [next_8_pixels_body, h1, hms, hmod]
  refine ⟨{ c1 with buf1 := c.buf1, pos1 := c.pos1 }, hbody, rfl, rfl, ht.2.1, h3, h4, ?_⟩
  simp only [next_8_pixels_loop, hlt, if_true, hbody]

/-- C6, witness: the bytes `0xC0 0x07` at the start of a scanline refill decode
to the run `{value: 0x07, length: 0}` and leave cursor and buffer as they were. -/
theorem C6_zero_length_run_witness :
    (∃ c1, next_run { buffers_init [] [] [] (conv_image 8 8 [0xC0, 0x07, 0xC8, 0x01])
        with pos1 := 0 } = .ok c1 ∧ c1.run = ⟨0x07, 0⟩ ∧ stream c1 = [0xC8, 0x01]) ∧
    ∃ c2, next_8_pixels_body { buffers_init [] [] [] (conv_image 8 8 [0xC0, 0x07, 0xC8, 0x01])
        with pos1 := 0 } = .ok c2 ∧ c2.pos1 = 0 ∧
      c2.buf1 = (buffers_init [] [] [] (conv_image 8 8 [0xC0, 0x07, 0xC8, 0x01])).buf1 := by
  obtain ⟨hw, hs⟩ := buffers_init_window [] [] [] (conv_image 8 8 [0xC0, 0x07, 0xC8, 0x01])
  obtain ⟨h1, c2, h2, h3, h4, _⟩ := C6_zero_length_run
    { buffers_init [] [] [] (conv_image 8 8 [0xC0, 0x07, 0xC8, 0x01]) with pos1 := 0 }
    0x07 [0xC8, 0x01] 0 hw hs (by decide) (by decide) (by decide)
  exact ⟨h1, c2, h2, h3, h4⟩

/-! ## The input window is transparent -/

theorem decode_flat_step (s : List Nat) (r : run_s) (runs : List run_s)
    (h : decode_flat s = r :: runs) :
    ∃ t, decode_run s = some (r, t) ∧ decode_flat t = runs := by
  match s, h with
  | [m], h =>
    simp only [decode_flat] at h
    split at h
    · simp at h
    · rename_i hm
      simp only [List.cons.injEq] at h
      exact ⟨[], by simp [decode_run, hm, h.1], by rw [← h.2]; rfl⟩
  | m :: v :: rest, h =>
    simp only [decode_flat] at h
    split at h
    · rename_i hm
      simp only [List.cons.injEq] at h
      exact ⟨rest, by simp [decode_run, hm, h.1], h.2⟩
    · rename_i hm
      simp only [List.cons.injEq] at h
      exact ⟨v :: rest, by simp [decode_run, hm, h.1], h.2⟩

theorem run_seq_decode : ∀ (n : Nat) (c : conv_s), window_ok c →
    n ≤ (decode_flat (stream c)).length →
    run_seq n c = .ok ((decode_flat (stream c)).take n) := by
  intro n
  induction n with
  | zero => intro c _ _; rfl
  | succ n ih =>
    intro c hw hn
    cases hd : decode_flat (stream c) with
    | nil => rw [hd] at hn; simp at hn
    | cons r runs =>
      rw [hd] at hn
      obtain ⟨t, h1, h2⟩ := decode_flat_step _ r runs hd
      obtain ⟨c', g1, g2, g3, g4, _⟩ := next_run_decode c r t hw h1
      have := ih c' g4 (by rw [g3, h2]; simpa using hn)
      simp only [run_seq, g1, this, g2, g3, h2, List.take_succ_cons]

theorem refill_run_iterate : ∀ (k : Nat) (c : conv_s), window_ok c →
    k ≤ (stream c).length →
    window_ok (refill_run^[k] c) ∧ stream (refill_run^[k] c) = (stream c).drop k := by
  intro k
  induction k with
  | zero => intro c hw _; exact ⟨hw, rfl⟩
  | succ k ih =>
    intro c hw hk
    cases hs : stream c with
    | nil => rw [hs] at hk; simp at hk
    | cons b t =>
      obtain ⟨h1, h2⟩ := refill_run_stream c b t hw hs
      rw [hs] at hk
      obtain ⟨h3, h4⟩ := ih (refill_run c) h1 (by rw [h2]; simpa using hk)
      rw [Function.iterate_succ_apply]
      exact ⟨h3, by rw [h4, h2]; rfl⟩

/-- C7. The 256-byte input window is transparent: for every pixel-data stream
`s` (the unread input when `buffers_init` does the first read) and every
`k < |s|`, after `k` calls of `refill_run` the byte at the window cursor is
`s[k]`; hence the runs produced by successive calls of `next_run` are the runs
obtained by decoding `s` directly as a flat byte list (`decode_flat`), wherever
the window boundaries fall. -/
theorem C7_window_transparent (j0 j1 j2 : List Nat) (conv : conv_s) :
    (∀ k, k < conv.input.length →
      (refill_run^[k] (buffers_init j0 j1 j2 conv)).buf0[
        (refill_run^[k] (buffers_init j0 j1 j2 conv)).pos0]? = conv.input[k]?) ∧
    ∀ n, n ≤ (decode_flat conv.input).length →
      run_seq n (buffers_init j0 j1 j2 conv) = .ok ((decode_flat conv.input).take n) := by
  obtain ⟨hw, hs⟩ := buffers_init_window j0 j1 j2 conv
  constructor
  · intro k hk
    obtain ⟨h1, h2⟩ := refill_run_iterate k (buffers_init j0 j1 j2 conv) hw
      (by rw [hs]; omega)
    rw [hs] at h2
    have h3 : conv.input.drop k = conv.input[k] :: conv.input.drop (k + 1) :=
      List.drop_eq_getElem_cons hk
    rw [h3] at h2
    rw [stream_head _ _ _ h1 h2, List.getElem?_eq_getElem hk]
  · intro n hn
    have := run_seq_decode n (buffers_init j0 j1 j2 conv) hw (by rw [hs]; exact hn)
    rw [hs] at this
    exact this

theorem refill_run_no_read : ∀ (k : Nat) (c : conv_s), c.pos0 + k < c.size0 →
    c.size0 ≤ UINT_MOD →
    refill_run^[k] c = { c with pos0 := c.pos0 + k } := by
  intro k
  induction k with
  | zero => intro c _ _; rfl
  | succ k ih =>
    intro c h1 h2
    have hmod : (c.pos0 + 1) % UINT_MOD = c.pos0 + 1 := Nat.mod_eq_of_lt (by omega)
    have hstep : refill_run c = { c with pos0 := c.pos0 + 1 } := by
      rw [refill_run_eq, hmod, if_neg (by omega)]
    have hih := ih { c with pos0 := c.pos0 + 1 } (by show c.pos0 + 1 + k < c.size0; omega) h2
    rw [Function.iterate_succ_apply, hstep, hih]
    show ({ c with pos0 := c.pos0 + 1 + k } : conv_s) = { c with pos0 := c.pos0 + (k + 1) }
    rw [Nat.add_assoc, Nat.add_comm 1 k]

/-- C8. Buffer refill boundary: for every pixel-data stream of `n` bytes with
`256 < n <= 512`, the first 255 calls of `refill_run` after `buffers_init`
perform no read, the 256th call performs exactly one read, and after it the
filled size of the input window is `n - 256`, the cursor is 0 and the window
holds the bytes `256 .. n-1` of the stream. -/
theorem C8_refill_boundary (j0 j1 j2 : List Nat) (conv : conv_s)
    (h1 : 256 < conv.input.length) (h2 : conv.input.length ≤ 512) :
    (∀ k, k ≤ 255 →
      (refill_run^[k] (buffers_init j0 j1 j2 conv)).freads
        = (buffers_init j0 j1 j2 conv).freads) ∧
    (refill_run^[256] (buffers_init j0 j1 j2 conv)).freads
      = (buffers_init j0 j1 j2 conv).freads + 1 ∧
    (refill_run^[256] (buffers_init j0 j1 j2 conv)).size0 = conv.input.length - 256 ∧
    (refill_run^[256] (buffers_init j0 j1 j2 conv)).pos0 = 0 ∧
    (refill_run^[256] (buffers_init j0 j1 j2 conv)).buf0.take (conv.input.length - 256)
      = conv.input.drop 256 := by
  have hp : (buffers_init j0 j1 j2 conv).pos0 = 0 := rfl
  have hsz : (buffers_init j0 j1 j2 conv).size0 = 256 := by
    simp only [buffers_init, fread]; omega
  have hin : (buffers_init j0 j1 j2 conv).input = conv.input.drop 256 := rfl
  have hk : ∀ k, k ≤ 255 → refill_run^[k] (buffers_init j0 j1 j2 conv)
      = { buffers_init j0 j1 j2 conv with pos0 := (buffers_init j0 j1 j2 conv).pos0 + k } := by
    intro k hk
    exact refill_run_no_read k _ (by rw [hp, hsz]; omega) (by rw [hsz]; unfold UINT_MOD; omega)
  have h256 : refill_run^[256] (buffers_init j0 j1 j2 conv)
      = refill_run { buffers_init j0 j1 j2 conv with pos0 := 255 } := by
    rw [show (256 : Nat) = 255 + 1 from rfl, Function.iterate_succ_apply', hk 255 (by omega), hp]
  have hmod : (255 + 1) % UINT_MOD = 256 := by decide
  have hstep : refill_run { buffers_init j0 j1 j2 conv with pos0 := 255 }
      = { buffers_init j0 j1 j2 conv with
          buf0 := (fread (buffers_init j0 j1 j2 conv).buf0 256 (conv.input.drop 256)).1
          size0 := (fread (buffers_init j0 j1 j2 conv).buf0 256 (conv.input.drop 256)).2.1
          input := (fread (buffers_init j0 j1 j2 conv).buf0 256 (conv.input.drop 256)).2.2
          freads := (buffers_init j0 j1 j2 conv).freads + 1
          pos0 := 0 } := by
    rw [refill_run_eq]
    simp only [hmod, hsz, if_true, hin]
  refine ⟨?_, ?_, ?_, ?_, ?_⟩
  · intro k hk'
    rw [hk k hk']
  · rw [h256, hstep]
  · rw [h256, hstep]
    simp only [fread, List.length_drop]
    omega
  · rw [h256, hstep]
  · rw [h256, hstep]
    simp only [fread]
    rw [List.take_append_of_le_length (by simp; omega)]
    rw [List.take_take, Nat.min_eq_left (by omega)]
    exact List.take_of_length_le (by simp)

set_option maxRecDepth 100000 in
/-- C8, witness: a stream of 266 bytes; `buffers_init` makes the first read,
255 calls of `refill_run` make none, and the 256th makes the second, which
brings the last 10 bytes into the window. -/
theorem C8_refill_boundary_witness :
    (refill_run^[255] (buffers_init [] [] [] (conv_image 8 8 (List.replicate 266 0x05)))).freads
      = 1 ∧
    (refill_run^[256] (buffers_init [] [] [] (conv_image 8 8 (List.replicate 266 0x05)))).freads
      = 2 ∧
    (refill_run^[256] (buffers_init [] [] [] (conv_image 8 8 (List.replicate 266 0x05)))).size0
      = 10 ∧
    (refill_run^[256] (buffers_init [] [] [] (conv_image 8 8 (List.replicate 266 0x05)))).pos0
      = 0 := by
  obtain ⟨g1, g2, g3, g4, _⟩ := C8_refill_boundary [] [] []
    (conv_image 8 8 (List.replicate 266 0x05))
    (by show 256 < (List.replicate 266 0x05).length; rw [List.length_replicate]; decide)
    (by show (List.replicate 266 0x05).length ≤ 512; rw [List.length_replicate]; decide)
  refine ⟨?_, ?_, ?_, g4⟩
  · rw [g1 255 (by decide)]; rfl
  · rw [g2]; rfl
  · rw [g3]
    show (List.replicate 266 0x05).length - 256 = 10
    rw [List.length_replicate]

/-! ## The header -/

theorem read_header_words (junk : List Nat) (conv : conv_s) (hdr rest : List Nat)
    (hin : conv.input = hdr ++ rest) (hlen : hdr.length = 128) :
    (read_header junk conv).width
      = ((((HEADER hdr 4 : Nat) : Int) - (HEADER hdr 2 : Nat) + 1) % (UINT_MOD : Nat)).toNat ∧
    (read_header junk conv).height
      = ((((HEADER hdr 5 : Nat) : Int) - (HEADER hdr 3 : Nat) + 1) % (UINT_MOD : Nat)).toNat := by
  have h : (fread (malloc junk 128) 128 conv.input).1 = hdr := by
    simp only [fread, hin]
    rw [List.take_left' hlen, List.drop_of_length_le (by rw [malloc_length]; simp; omega),
      List.append_nil]
  simp only [read_header, h]
  trivial

/-- C9. Header extraction: for every 128-byte header whose little-endian 16-bit
words at byte offsets 4, 6, 8 and 10 are `xmin`, `ymin`, `xmax`, `ymax` with
`xmax >= xmin` and `ymax >= ymin`, `read_header` sets
`width = xmax - xmin + 1` and `height = ymax - ymin + 1`; and any other
128-byte header with the same bytes at offsets 4..11 gives the same result,
whatever its other bytes, the data that follow it or the content of the
freshly allocated block. -/
theorem C9_header_extraction (junk : List Nat) (conv : conv_s) (hdr rest : List Nat)
    (xmin ymin xmax ymax : Nat) (hin : conv.input = hdr ++ rest) (hlen : hdr.length = 128)
    (hbytes : ∀ b ∈ hdr, b < 256)
    (hxmin : hdr.getD 4 0 + 256 * hdr.getD 5 0 = xmin)
    (hymin : hdr.getD 6 0 + 256 * hdr.getD 7 0 = ymin)
    (hxmax : hdr.getD 8 0 + 256 * hdr.getD 9 0 = xmax)
    (hymax : hdr.getD 10 0 + 256 * hdr.getD 11 0 = ymax)
    (hx : xmin ≤ xmax) (hy : ymin ≤ ymax) :
    (read_header junk conv).width = xmax - xmin + 1 ∧
    (read_header junk conv).height = ymax - ymin + 1 ∧
    ∀ (junk' : List Nat) (conv' : conv_s) (hdr' rest' : List Nat),
      conv'.input = hdr' ++ rest' → hdr'.length = 128 →
      (∀ i, 4 ≤ i → i < 12 → hdr'.getD i 0 = hdr.getD i 0) →
      (read_header junk' conv').width = (read_header junk conv).width ∧
      (read_header junk' conv').height = (read_header junk conv).height := by
  obtain ⟨hw, hh⟩ := read_header_words junk conv hdr rest hin hlen
  have hb : ∀ i, hdr.getD i 0 < 256 := by
    intro i
    rw [List.getD_eq_getElem?_getD]
    cases hi : hdr[i]? with
    | none => simp
    | some b => exact hbytes b (List.getElem?_mem hi)
  have b8 := hb 8
  have b9 := hb 9
  have b10 := hb 10
  have b11 := hb 11
  have e2 : HEADER hdr 2 = xmin := hxmin
  have e3 : HEADER hdr 3 = ymin := hymin
  have e4 : HEADER hdr 4 = xmax := hxmax
  have e5 : HEADER hdr 5 = ymax := hymax
  refine ⟨?_, ?_, ?_⟩
  · rw [hw, e2, e4]; unfold UINT_MOD; omega
  · rw [hh, e3, e5]; unfold UINT_MOD; omega
  · intro junk' conv' hdr' rest' hin' hlen' hsame
    obtain ⟨hw', hh'⟩ := read_header_words junk' conv' hdr' rest' hin' hlen'
    have f2 : HEADER hdr' 2 = HEADER hdr 2 := by
      simp only [HEADER]; rw [hsame 4 (by omega) (by omega), hsame 5 (by omega) (by omega)]
    have f3 : HEADER hdr' 3 = HEADER hdr 3 := by
      simp only [HEADER]; rw [hsame 6 (by omega) (by omega), hsame 7 (by omega) (by omega)]
    have f4 : HEADER hdr' 4 = HEADER hdr 4 := by
      simp only [HEADER]; rw [hsame 8 (by omega) (by omega), hsame 9 (by omega) (by omega)]
    have f5 : HEADER hdr' 5 = HEADER hdr 5 := by
      simp only [HEADER]; rw [hsame 10 (by omega) (by omega), hsame 11 (by omega) (by omega)]
    rw [hw', hh', hw, hh, f2, f3, f4, f5]
    exact ⟨rfl, rfl⟩

set_option maxRecDepth 100000 in
/-- C9, witness: `xmin = 0`, `ymin = 0`, `xmax = 15`, `ymax = 7` give width 16
and height 8. -/
theorem C9_header_extraction_witness :
    (read_header [] (conv_open ([10, 5, 1, 1, 0, 0, 0, 0, 15, 0, 7, 0]
      ++ List.replicate 116 0 ++ [0xC8, 0x01]))).width = 16 ∧
    (read_header [] (conv_open ([10, 5, 1, 1, 0, 0, 0, 0, 15, 0, 7, 0]
      ++ List.replicate 116 0 ++ [0xC8, 0x01]))).height = 8 := by
  obtain ⟨h1, h2, _⟩ := C9_header_extraction []
    (conv_open ([10, 5, 1, 1, 0, 0, 0, 0, 15, 0, 7, 0] ++ List.replicate 116 0 ++ [0xC8, 0x01]))
    ([10, 5, 1, 1, 0, 0, 0, 0, 15, 0, 7, 0] ++ List.replicate 116 0) [0xC8, 0x01]
    0 0 15 7 rfl (by decide) (by decide) (by decide) (by decide) (by decide) (by decide)
    (by decide) (by decide)
  exact ⟨h1, h2⟩

/-! ## What every successful run of the loops keeps -/

theorem next_run_frame (c c' : conv_s) (h : next_run c = .ok c') : same_scan c c' := by
  unfold next_run at h
  split at h
  · simp at h
  · simp only at h
    split at h
    · split at h
      · simp at h
      · injection h with h
        rw [← h]
        simp [same_scan, same_tiles]
    · injection h with h
      rw [← h]
      simp [same_scan, same_tiles]

theorem next_8_pixels_body_frame (c c' : conv_s) (h : next_8_pixels_body c = .ok c') :
    same_tiles c c' := by
  unfold next_8_pixels_body at h
  split at h
  · simp at h
  · rename_i c1 h1
    have hf := (next_run_frame c c1 h1).1
    split at h
    · simp at h
    · injection h with h
      rw [← h]
      exact hf

theorem next_8_pixels_loop_frame : ∀ (fuel : Nat) (c c' : conv_s),
    next_8_pixels_loop fuel c = .ok c' → same_tiles c c' := by
  intro fuel
  induction fuel with
  | zero =>
    intro c c' h
    simp only [next_8_pixels_loop] at h
    split at h
    · simp at h
    · injection h with h; rw [← h]; exact same_tiles_refl c
  | succ fuel ih =>
    intro c c' h
    simp only [next_8_pixels_loop] at h
    split at h
    · split at h
      · simp at h
      · rename_i c1 h1
        exact same_tiles_trans (next_8_pixels_body_frame c c1 h1) (ih c1 c' h)
    · injection h with h; rw [← h]; exact same_tiles_refl c

theorem next_8_pixels_frame (c c' : conv_s) (h : next_8_pixels c = .ok c') :
    same_tiles c c' := by
  unfold next_8_pixels at h
  split at h
  · split at h
    · simp at h
    · rename_i c1 h1
      injection h with h
      rw [← h]
      exact next_8_pixels_loop_frame _ { c with pos1 := 0 } c1 h1
  · injection h with h; rw [← h]; exact same_tiles_refl c

/-- The size of the tile buffer, the sizes, the header information and the
output file are the same in both states. -/
theorem tile_col_frame (row col : Nat) (c c' : conv_s) (h : tile_col row c col = .ok c') :
    same_hdr c c' ∧ c'.buf2.length = c.buf2.length := by
  unfold tile_col at h
  split at h
  · simp at h
  · split at h
    · simp at h
    · rename_i b hb
      injection h with h
      rw [← h]
      refine ⟨same_hdr_refl c, ?_⟩
      unfold memcpy at hb
      split at hb
      · rename_i hle
        injection hb with hb
        rw [← hb]
        simp only [List.length_append, List.length_take, List.length_drop, List.length_cons,
          List.length_nil] at hle ⊢
        omega
      · simp at hb

theorem tile_cols_frame (row : Nat) : ∀ (l : List Nat) (c c' : conv_s),
    l.foldlM (tile_col row) c = .ok c' →
    same_hdr c c' ∧ c'.buf2.length = c.buf2.length := by
  intro l
  induction l with
  | nil =>
    intro c c' h
    injection h with h
    rw [← h]
    exact ⟨same_hdr_refl c, rfl⟩
  | cons col l ih =>
    intro c c' h
    rw [List.foldlM_cons] at h
    cases h1 : tile_col row c col with
    | error e => rw [h1] at h; simp [bind, Except.bind] at h
    | ok c1 =>
      rw [h1] at h
      obtain ⟨f1, f2⟩ := tile_col_frame row col c c1 h1
      obtain ⟨g1, g2⟩ := ih c1 c' h
      exact ⟨same_hdr_trans f1 g1, g2.trans f2⟩

theorem scan_row_frame (n row : Nat) (c c' : conv_s) (h : scan_row n c row = .ok c') :
    same_hdr c c' ∧ c'.buf2.length = c.buf2.length := by
  unfold scan_row at h
  split at h
  · simp at h
  · rename_i c1 h1
    have f := next_8_pixels_frame c c1 h1
    obtain ⟨g1, g2⟩ := tile_cols_frame row _ c1 c' h
    exact ⟨same_hdr_trans f.2 g1, by rw [g2, f.1]⟩

theorem scan_rows_frame (n : Nat) : ∀ (l : List Nat) (c c' : conv_s),
    l.foldlM (scan_row n) c = .ok c' →
    same_hdr c c' ∧ c'.buf2.length = c.buf2.length := by
  intro l
  induction l with
  | nil =>
    intro c c' h
    injection h with h
    rw [← h]
    exact ⟨same_hdr_refl c, rfl⟩
  | cons row l ih =>
    intro c c' h
    rw [List.foldlM_cons] at h
    cases h1 : scan_row n c row with
    | error e => rw [h1] at h; simp [bind, Except.bind] at h
    | ok c1 =>
      rw [h1] at h
      obtain ⟨f1, f2⟩ := scan_row_frame n row c c1 h1
      obtain ⟨g1, g2⟩ := ih c1 c' h
      exact ⟨same_hdr_trans f1 g1, g2.trans f2⟩

theorem next_8_scanlines_frame (c c' : conv_s) (h : next_8_scanlines c = .ok c') :
    same_hdr c c' ∧ c'.buf2.length = c.buf2.length :=
  scan_rows_frame _ _ c c' h

/-- Every completed run of the loop of `main` with `n` iterations has appended
exactly `n` chunks of `size[2]` bytes to the output. -/
theorem main_loop_chunks : ∀ (n : Nat) (c c' : conv_s), main_loop n c = .ok c' →
    ∃ chunks, c'.output = c.output ++ chunks ∧ chunks.length = n ∧
      ∀ ch ∈ chunks, ch.length = c.size2 := by
  intro n
  induction n with
  | zero =>
    intro c c' h
    injection h with h
    exact ⟨[], by rw [← h]; simp, rfl, by simp⟩
  | succ n ih =>
    intro c c' h
    simp only [main_loop] at h
    split at h
    · simp at h
    · rename_i c1 h1
      obtain ⟨f, _⟩ := next_8_scanlines_frame c c1 h1
      by_cases hle : c1.size2 ≤ c1.buf2.length
      · have hfw : fwrite_output c1
            = .ok { c1 with output := c1.output ++ [c1.buf2.take c1.size2] } := by
          unfold fwrite_output; rw [if_pos hle]
        rw [hfw] at h
        obtain ⟨chunks, g1, g2, g3⟩ := ih _ c' h
        refine ⟨c1.buf2.take c1.size2 :: chunks, ?_, by simp [g2], ?_⟩
        · rw [g1]
          show c1.output ++ [c1.buf2.take c1.size2] ++ chunks = _
          rw [f.2.2.2.2.2]; simp
        · intro ch hch
          rcases List.mem_cons.mp hch with rfl | hch
          · rw [List.length_take, ← f.2.1]; omega
          · rw [g3 ch hch]; exact f.2.1
      · have hfw : fwrite_output c1 = .error .oobRead := by
          unfold fwrite_output; rw [if_neg hle]
        rw [hfw] at h
        exact absurd h (by simp)

theorem flatten_length_uniform (k : Nat) : ∀ (L : List (List Nat)),
    (∀ ch ∈ L, ch.length = k) → L.flatten.length = L.length * k := by
  intro L
  induction L with
  | nil => intro _; simp
  | cons a L ih =>
    intro h
    rw [List.flatten_cons, List.length_append, h a (List.mem_cons_self a L),
      ih (fun ch hch => h ch (List.mem_cons_of_mem a hch)), List.length_cons]
    ring

/-- C10, on the widths whose `width*8` does not wrap in `unsigned int`. Output size
and iteration count: for every width `W` that is a multiple of 8 with
`W * 8 < 2^32` and every height `H`, started on the state left by
`buffers_init`, (1) every completed run of the conversion of `main` has made
exactly `H/8` writes, each of the whole tile buffer of `W*8/2` bytes, so
`(W/8)*(H/8)` tiles of 32 bytes; and (2) on every stream that starts with
`8*(H/8)` well-formed scanlines the conversion does complete, its output is
the packing of these scanlines alone, and the unconsumed stream is exactly what
follows them: the last `H mod 8` scanlines are never decoded. -/
theorem C10_output_size (W H : Nat) (j0 j1 j2 : List Nat) (conv : conv_s)
    (hW8 : W % 8 = 0) (hW : W * 8 < UINT_MOD) (hwd : conv.width = W)
    (hht : conv.height = H) (hout : conv.output = []) :
    (∀ c', main_convert (buffers_init j0 j1 j2 conv) = .ok c' →
      c'.output.length = H / 8 ∧ (∀ ch ∈ c'.output, ch.length = W * 8 / 2) ∧
      c'.output.flatten.length = (W / 8) * (H / 8) * 32) ∧
    ∀ lines rest, lines.length = 8 * (H / 8) → encodes W conv.input lines rest →
      ∃ c', main_convert (buffers_init j0 j1 j2 conv) = .ok c' ∧
        c'.output = pack_rows W (H / 8) lines ∧ stream c' = rest := by
  obtain ⟨hw, hs⟩ := buffers_init_window j0 j1 j2 conv
  obtain ⟨a1, a2, a3, a4, a5, a6, a7, a8⟩ :=
    buffers_init_alloc j0 j1 j2 conv (by rw [hwd]; exact hW)
  rw [hwd] at a1 a4 a5 a6 a7 a8
  have hconv : main_convert (buffers_init j0 j1 j2 conv)
      = main_loop (H / 8) (buffers_init j0 j1 j2 conv) := by
    unfold main_convert; rw [a2, hht]
  constructor
  · intro c' h
    rw [hconv] at h
    obtain ⟨chunks, g1, g2, g3⟩ := main_loop_chunks (H / 8) _ c' h
    rw [a3, hout, List.nil_append] at g1
    rw [a8] at g3
    have g4 : ∀ ch ∈ c'.output, ch.length = W * 8 / 2 := by
      intro ch hch
      rw [g1] at hch
      rw [g3 ch hch]; omega
    refine ⟨by rw [g1, g2], g4, ?_⟩
    rw [flatten_length_uniform (W * 8 / 2) c'.output g4, g1, g2]
    obtain ⟨q, hq⟩ : ∃ q, W = 8 * q := ⟨W / 8, by omega⟩
    have e1 : W / 8 = q := by omega
    have e2 : W * 8 / 2 = 32 * q := by omega
    rw [e1, e2]; ring
  · intro lines rest hl henc
    obtain ⟨c', hr, ho, hst⟩ := main_loop_ok W hW8 hW (H / 8) lines
      (buffers_init j0 j1 j2 conv) rest hl hw a1 a4 a5 a6 a7 a8 (by rw [hs]; exact henc)
    rw [a3, hout, List.nil_append] at ho
    exact ⟨c', by rw [hconv]; exact hr, ho, hst⟩

set_option maxRecDepth 100000 in
/-- C10, witness: `W = 8`, `H = 12` and a stream of 12 scanlines: one iteration,
one chunk of 32 bytes, and the last 4 scanlines are left undecoded. -/
theorem C10_output_size_witness :
    ∃ c', main_convert (buffers_init [] [] [] (conv_image 8 12 (solid_image 12 1 3))) = .ok c' ∧
      c'.output.length = 1 ∧ c'.output.flatten.length = 32 ∧
      stream c' = solid_image 4 1 3 := by
  obtain ⟨h1, h2⟩ := C10_output_size 8 12 [] [] [] (conv_image 8 12 (solid_image 12 1 3))
    (by decide) (by decide) rfl rfl rfl
  obtain ⟨c', g1, _, g3⟩ := h2 (List.replicate 8 (List.replicate (8 * 1) 3))
    (solid_image 4 1 3) (by decide) (encodes_solid_image 1 3 (solid_image 4 1 3) 8)
  obtain ⟨f1, _, f3⟩ := h1 c' g1
  exact ⟨c', g1, f1, f3, g3⟩

/-- C10, failing input: for `W = 8 * 536870911 = 4294967288`, a multiple of
8, `H = 12` and a stream of 12 well-formed scanlines, the conversion does not
run its `H/8 = 1` iteration to the end and writes no tile: the first
`next_8_scanlines` writes past the tile buffer, whose size `width*8/2` wrapped. -/
theorem C10_failing_input :
    (8 * 536870911) % 8 = 0 ∧
    encodes (8 * 536870911)
      (conv_image (8 * 536870911) 12
        (solid_image 8 536870911 3 ++ solid_image 4 536870911 3)).input
      (List.replicate 8 (List.replicate (8 * 536870911) 3)) (solid_image 4 536870911 3) ∧
    main_convert (buffers_init [] [] [] (conv_image (8 * 536870911) 12
        (solid_image 8 536870911 3 ++ solid_image 4 536870911 3)))
      = .error .oobWrite := by
  have henc : encodes (8 * 536870911)
      (conv_image (8 * 536870911) 12
        (solid_image 8 536870911 3 ++ solid_image 4 536870911 3)).input
      (List.replicate 8 (List.replicate (8 * 536870911) 3)) (solid_image 4 536870911 3) :=
    encodes_solid_image 536870911 3 (solid_image 4 536870911 3) 8
  have hwd : (conv_image (8 * 536870911) 12
      (solid_image 8 536870911 3 ++ solid_image 4 536870911 3)).width = 8 * 536870911 := rfl
  have hdec : decodes (conv_image (8 * 536870911) 12
        (solid_image 8 536870911 3 ++ solid_image 4 536870911 3)).input
      (List.replicate 536870911 ⟨3, 8⟩)
      (solid_image 7 536870911 3 ++ solid_image 4 536870911 3) := by
    have h := decodes_solid_line 3 (solid_image 7 536870911 3 ++ solid_image 4 536870911 3)
      536870911
    rw [← List.append_assoc, ← solid_image_succ] at h
    exact h
  have hf : next_8_scanlines (buffers_init [] [] [] (conv_image (8 * 536870911) 12
        (solid_image 8 536870911 3 ++ solid_image 4 536870911 3)))
      = .error .oobWrite :=
    next_8_scanlines_wide_fault (8 * 536870911) (by decide) (by decide) (by decide)
      [] [] [] (conv_image (8 * 536870911) 12
        (solid_image 8 536870911 3 ++ solid_image 4 536870911 3))
      (List.replicate 536870911 ⟨3, 8⟩)
      (solid_image 7 536870911 3 ++ solid_image 4 536870911 3) hwd hdec
      (fills_solid 536870911 3)
  exact ⟨by decide, henc, main_loop_fault 0 _ _ hf⟩

/-! ## The iteration bound of the refill loop is never reached -/

theorem refill_run_measure (c : conv_s) (hl : c.buf0.length = 256) (hp : c.pos0 < 256) :
    window_measure (refill_run c) < window_measure c ∧ (refill_run c).buf0.length = 256 := by
  have hmod : (c.pos0 + 1) % UINT_MOD = c.pos0 + 1 :=
    Nat.mod_eq_of_lt (by unfold UINT_MOD; omega)
  rw [refill_run_eq, hmod]
  by_cases he : c.pos0 + 1 = c.size0
  · rw [if_pos he]
    simp only [window_measure, fread, List.length_drop, List.length_append, List.length_take, hl]
    have h0 : ¬ c.size0 = 0 := by omega
    rw [if_neg h0]
    constructor
    · split <;> omega
    · omega
  · rw [if_neg he]
    simp only [window_measure]
    exact ⟨by split <;> omega, hl⟩

theorem next_run_measure (c c' : conv_s) (hl : c.buf0.length = 256)
    (h : next_run c = .ok c') :
    window_measure c' < window_measure c ∧ c'.buf0.length = 256 := by
  unfold next_run at h
  split at h
  · simp at h
  · rename_i ch hch
    have hp : c.pos0 < 256 := by
      rw [← hl]
      exact (List.getElem?_eq_some.mp hch).1
    obtain ⟨m1, l1⟩ := refill_run_measure c hl hp
    simp only at h
    split at h
    · split at h
      · simp at h
      · rename_i ch2 hch2
        have hp2 : (refill_run c).pos0 < 256 := by
          rw [← l1]
          exact (List.getElem?_eq_some.mp hch2).1
        obtain ⟨m2, l2⟩ := refill_run_measure (refill_run c) l1 hp2
        injection h with h
        rw [← h]
        exact ⟨Nat.lt_trans m2 m1, l2⟩
    · injection h with h
      rw [← h]
      exact ⟨m1, l1⟩

theorem next_8_pixels_body_measure (c c' : conv_s) (hl : c.buf0.length = 256)
    (h : next_8_pixels_body c = .ok c') :
    window_measure c' < window_measure c ∧ c'.buf0.length = 256 := by
  unfold next_8_pixels_body at h
  split at h
  · simp at h
  · rename_i c1 h1
    have hm := next_run_measure c c1 hl h1
    split at h
    · simp at h
    · injection h with h
      rw [← h]
      exact hm

/-- With more fuel than the measure of the state, the loop of `next_8_pixels`
never stops for lack of fuel: a result `Fault.fuel` is not an outcome of the C
loop being cut short. -/
theorem next_8_pixels_loop_fuel : ∀ (fuel : Nat) (c : conv_s), c.buf0.length = 256 →
    window_measure c < fuel → next_8_pixels_loop fuel c ≠ .error .fuel := by
  intro fuel
  induction fuel with
  | zero => intro c _ h; omega
  | succ fuel ih =>
    intro c hl hm
    simp only [next_8_pixels_loop]
    split
    · cases hb : next_8_pixels_body c with
      | error e =>
        simp only
        intro he
        injection he with he
        subst he
        unfold next_8_pixels_body at hb
        split at hb
        · rename_i e1 h1
          injection hb with hb
          subst hb
          unfold next_run at h1
          split at h1
          · simp at h1
          · simp only at h1
            split at h1
            · split at h1
              · simp at h1
              · simp at h1
            · simp at h1
        · split at hb
          · simp at hb
          · simp at hb
      | ok c1 =>
        obtain ⟨m1, l1⟩ := next_8_pixels_body_measure c c1 hl hb
        exact ih c1 l1 (by omega)
    · simp

/-- The iteration bound built into `next_8_pixels` is never what stops it. -/
theorem next_8_pixels_fuel (c : conv_s) (hl : c.buf0.length = 256) :
    next_8_pixels c ≠ .error .fuel := by
  unfold next_8_pixels
  split
  · have hm : window_measure { c with pos1 := 0 } < loop_bound c := by
      simp only [window_measure, loop_bound]
      split <;> omega
    have := next_8_pixels_loop_fuel (loop_bound c) { c with pos1 := 0 } hl hm
    split
    · rename_i e he
      intro h
      injection h with h
      subst h
      exact this he
    · simp
  · simp
set_option maxRecDepth 100000 in
/-- A run marker that is the last byte of one window takes its value from the
first byte of the next: after 255 literal bytes the marker `0xC3` sits at
index 255 of a window of 256 bytes, and `next_run` still yields
`{value: 0x0A, length: 3}`. -/
theorem marker_across_windows :
    (refill_run^[255] (buffers_init [] [] []
        (conv_image 8 8 (List.replicate 255 0x01 ++ [0xC3, 0x0A])))).pos0 = 255 ∧
    (refill_run^[255] (buffers_init [] [] []
        (conv_image 8 8 (List.replicate 255 0x01 ++ [0xC3, 0x0A])))).size0 = 256 ∧
    ∃ c', next_run (refill_run^[255] (buffers_init [] [] []
        (conv_image 8 8 (List.replicate 255 0x01 ++ [0xC3, 0x0A])))) = .ok c' ∧
      c'.run = ⟨0x0A, 3⟩ ∧ stream c' = [] := by
  obtain ⟨hw, hs⟩ := buffers_init_window [] [] []
    (conv_image 8 8 (List.replicate 255 0x01 ++ [0xC3, 0x0A]))
  have hin : (conv_image 8 8 (List.replicate 255 0x01 ++ [0xC3, 0x0A])).input
      = List.replicate 255 0x01 ++ [0xC3, 0x0A] := rfl
  rw [hin] at hs
  have hsz : (buffers_init [] [] []
      (conv_image 8 8 (List.replicate 255 0x01 ++ [0xC3, 0x0A]))).size0 = 256 := by
    show min 256 (List.replicate 255 0x01 ++ [0xC3, 0x0A]).length = 256
    rw [List.length_append, List.length_replicate]; rfl
  have hnr := refill_run_no_read 255 (buffers_init [] [] []
      (conv_image 8 8 (List.replicate 255 0x01 ++ [0xC3, 0x0A])))
    (by rw [hsz]; decide) (by rw [hsz]; decide)
  obtain ⟨h1, h2⟩ := refill_run_iterate 255 _ hw
    (by rw [hs, List.length_append, List.length_replicate]; decide)
  rw [hs, List.drop_left' (List.length_replicate 255 1)] at h2
  have hm := next_run_marker _ 0xC3 0x0A [] h1 h2 (by decide)
  obtain ⟨h3, h4⟩ := refill_run_stream _ 0xC3 [0x0A] h1 h2
  obtain ⟨_, h5⟩ := refill_run_stream _ 0x0A [] h3 h4
  refine ⟨by rw [hnr]; rfl, by rw [hnr]; exact hsz, _, hm, rfl, h5⟩

set_option maxRecDepth 100000 in
/-- The width `4294967288 = 8 * 536870911` is one that `read_header` produces:
a header with `xmin = 9`, `xmax = 0` (and `ymin = 0`, `ymax = 7`) gives
`width = (0 - 9 + 1) mod 2^32` and `height = 8`. -/
theorem read_header_wide :
    (read_header [] (conv_open ([10, 5, 1, 1, 9, 0, 0, 0, 0, 0, 7, 0]
      ++ List.replicate 116 0))).width = 8 * 536870911 ∧
    (read_header [] (conv_open ([10, 5, 1, 1, 9, 0, 0, 0, 0, 0, 7, 0]
      ++ List.replicate 116 0))).height = 8 := by
  obtain ⟨h1, h2⟩ := read_header_words []
    (conv_open ([10, 5, 1, 1, 9, 0, 0, 0, 0, 0, 7, 0] ++ List.replicate 116 0))
    ([10, 5, 1, 1, 9, 0, 0, 0, 0, 0, 7, 0] ++ List.replicate 116 0) []
    (by rw [List.append_nil]; rfl) (by decide)
  rw [h1, h2]
  exact ⟨by decide, by decide⟩

/-! ## The offsets written by the column loop -/

theorem buffers_init_ready (j0 j1 j2 : List Nat) (conv : conv_s) :
    scan_ready conv.width (buffers_init j0 j1 j2 conv) := by
  simp only [scan_ready, buffers_init, malloc_length]
  trivial

theorem tile_dst_eq (row col : Nat) (hrow : row < 8) (hcol : col * 32 < UINT_MOD) :
    tile_dst row col = col * 32 + row * 4 := by
  unfold tile_dst
  rw [Nat.mod_eq_of_lt hcol, Nat.mod_eq_of_lt (by unfold UINT_MOD; omega)]

theorem memcpy_some (dst src b : List Nat) (off : Nat) (h : memcpy dst off src = some b) :
    off + src.length ≤ dst.length := by
  unfold memcpy at h
  by_cases hc : off + src.length ≤ dst.length
  · exact hc
  · rw [if_neg hc] at h
    cases h

/-- One iteration of the column loop writes the 4 bytes at `tile_dst row col`
and no other byte of the tile buffer. -/
theorem tile_col_writes (row col : Nat) (c c' : conv_s) (h : tile_col row c col = .ok c') :
    tile_dst row col + 4 ≤ c.buf2.length ∧ c'.buf2.length = c.buf2.length ∧
      ∀ i, (i < tile_dst row col ∨ tile_dst row col + 4 ≤ i) → c'.buf2[i]? = c.buf2[i]? := by
  unfold tile_col at h
  split at h
  · cases h
  · rename_i tr _
    split at h
    · cases h
    · rename_i b hb
      have hle := memcpy_some _ _ _ _ hb
      obtain ⟨B, hB, hBl, hBi⟩ := memcpy_ok c.buf2 [tr.t0, tr.t1, tr.t2, tr.t3] _ hle
      rw [hB] at hb
      injection hb with hb
      injection h with h
      subst h
      subst hb
      simp only [List.length_cons, List.length_nil] at hle hBi
      refine ⟨hle, hBl, ?_⟩
      intro i hi
      show B[i]? = _
      rw [hBi, if_neg]
      unfold tile_dst at hi
      omega

/-- C11, on the widths whose `width*8` does not wrap in `unsigned int`. The tile
buffer is fully refilled by each call: for every width `W` that is a multiple
of 8 with `W * 8 < 2^32`, the destinations `tile_dst row col + p` of the bytes
that the column loop copies are the offsets `col*32 + row*4 + p`, they lie
inside the `W*8/2`-byte tile buffer, no two of them coincide and every offset
below `W*8/2` is one of them; each iteration changes only its own 4 bytes; and
one call of `next_8_scanlines` on 8 well-formed scanlines leaves a tile buffer
every byte of which is the packing of these scanlines, whatever the buffer held
before. -/
theorem C11_tile_buffer_refilled (W : Nat) (lines : List (List Nat)) (c : conv_s)
    (rest : List Nat) (hW8 : W % 8 = 0) (hW : W * 8 < UINT_MOD)
    (hlines : lines.length = 8) (hw : window_ok c) (hc : scan_ready W c)
    (henc : encodes W (stream c) lines rest) :
    (∀ col row p, col < W / 8 → row < 8 → p < 4 →
      tile_dst row col + p = col * 32 + row * 4 + p ∧ tile_dst row col + p < c.buf2.length) ∧
    (∀ col row p col' row' p', col < W / 8 → row < 8 → p < 4 →
      col' < W / 8 → row' < 8 → p' < 4 →
      tile_dst row col + p = tile_dst row' col' + p' → col = col' ∧ row = row' ∧ p = p') ∧
    (∀ i, i < W * 8 / 2 →
      ∃ col row p, col < W / 8 ∧ row < 8 ∧ p < 4 ∧ tile_dst row col + p = i) ∧
    (∀ row col s s', tile_col row s col = .ok s' →
      s'.buf2.length = s.buf2.length ∧
      ∀ i, (i < tile_dst row col ∨ tile_dst row col + 4 ≤ i) → s'.buf2[i]? = s.buf2[i]?) ∧
    ∃ c', next_8_scanlines c = .ok c' ∧ c'.buf2.length = W * 8 / 2 ∧
      (∀ i, i < W * 8 / 2 → c'.buf2[i]? = some (packed_byte lines i)) ∧
      ∀ B : List Nat, B.length = c.buf2.length →
        ∃ c'', next_8_scanlines { c with buf2 := B } = .ok c'' ∧ c''.buf2 = c'.buf2 := by
  obtain ⟨hwd, hsz, hpos, hlen, hlen2, _⟩ := hc
  have h2 : c.buf2.length = 4 * W := by
    rw [hlen2, Nat.mod_eq_of_lt hW]; omega
  have hdst : ∀ col row, col < W / 8 → row < 8 → tile_dst row col = col * 32 + row * 4 := by
    intro col row hcol hrow
    exact tile_dst_eq row col hrow (by unfold UINT_MOD at *; omega)
  refine ⟨?_, ?_, ?_, ?_, ?_⟩
  · intro col row p hcol hrow hp
    rw [hdst col row hcol hrow, h2]
    omega
  · intro col row p col' row' p' hcol hrow hp hcol' hrow' hp' he
    rw [hdst col row hcol hrow, hdst col' row' hcol' hrow'] at he
    omega
  · intro i hi
    refine ⟨i / 32, i % 32 / 4, i % 4, by omega, by omega, by omega, ?_⟩
    rw [hdst _ _ (by omega) (by omega)]
    omega
  · intro row col s s' h
    exact (tile_col_writes row col s s' h).2
  · obtain ⟨c', hr, hb, _⟩ := next_8_scanlines_ok W hW8 hW lines c rest hlines hw hwd hsz hpos
      hlen h2 henc
    refine ⟨c', hr, ?_, ?_, ?_⟩
    · rw [hb, pack_tiles_length]; omega
    · intro i hi
      rw [hb, pack_tiles, List.getElem?_map, List.getElem?_range (by omega)]
      rfl
    · intro B hB
      obtain ⟨c'', hr', hb', _⟩ := next_8_scanlines_ok W hW8 hW lines { c with buf2 := B } rest
        hlines hw hwd hsz hpos hlen (by show B.length = 4 * W; omega) henc
      exact ⟨c'', hr', by rw [hb', hb]⟩

set_option maxRecDepth 100000 in
/-- C11, witness: `W = 8`, a tile buffer that still holds 32 bytes `0xEE`, and
8 scanlines of pixel value `0x01`: after the call every one of the 32 bytes is
the packing of the new scanlines. -/
theorem C11_tile_buffer_refilled_witness :
    (buffers_init [] [] (List.replicate 32 0xEE) (conv_image 8 8 (solid_image 8 1 0x01))).buf2
      = List.replicate 32 0xEE ∧
    ∃ c', next_8_scanlines
        (buffers_init [] [] (List.replicate 32 0xEE) (conv_image 8 8 (solid_image 8 1 0x01)))
        = .ok c' ∧ c'.buf2.length = 8 * 8 / 2 ∧
      ∀ i, i < 8 * 8 / 2 →
        c'.buf2[i]? = some (packed_byte (List.replicate 8 (List.replicate (8 * 1) 0x01)) i) := by
  obtain ⟨hw, hs⟩ := buffers_init_window [] [] (List.replicate 32 0xEE)
    (conv_image 8 8 (solid_image 8 1 0x01))
  obtain ⟨_, _, _, _, c', h1, h2, h3, _⟩ := C11_tile_buffer_refilled 8
    (List.replicate 8 (List.replicate (8 * 1) 0x01))
    (buffers_init [] [] (List.replicate 32 0xEE) (conv_image 8 8 (solid_image 8 1 0x01))) []
    (by decide) (by decide) (by simp) hw
    (buffers_init_ready [] [] (List.replicate 32 0xEE) (conv_image 8 8 (solid_image 8 1 0x01)))
    (by rw [hs]; simpa using encodes_solid_image 1 0x01 [] 8)
  exact ⟨by rfl, c', h1, h2, h3⟩

/-- C11, failing input: for `W = 8 * 536870911 = 4294967288`, a multiple of 8,
`buffers_init` allocates a tile buffer of 2147483616 bytes; the destination of
tile column 67108863 (one of the `W/8 = 536870911` columns) of row 0 is offset
2147483616, outside that buffer, and one call of `next_8_scanlines` on
well-formed scanlines writes there. -/
theorem C11_failing_input :
    (8 * 536870911) % 8 = 0 ∧
    (buffers_init [] [] [] (conv_image (8 * 536870911) 8 (solid_image 8 536870911 0x03))).buf2.length
      = 2147483616 ∧
    67108863 < 8 * 536870911 / 8 ∧ tile_dst 0 67108863 = 2147483616 ∧
    encodes (8 * 536870911)
      (conv_image (8 * 536870911) 8 (solid_image 8 536870911 0x03)).input
      (List.replicate 8 (List.replicate (8 * 536870911) 0x03)) [] ∧
    next_8_scanlines
      (buffers_init [] [] [] (conv_image (8 * 536870911) 8 (solid_image 8 536870911 0x03)))
      = .error .oobWrite := by
  have hlen : (buffers_init [] [] []
      (conv_image (8 * 536870911) 8 (solid_image 8 536870911 0x03))).buf2.length
      = 8 * 536870911 * 8 % UINT_MOD / 2 :=
    (buffers_init_ready [] [] []
      (conv_image (8 * 536870911) 8 (solid_image 8 536870911 0x03))).2.2.2.2.1
  have hnum : 8 * 536870911 * 8 % UINT_MOD / 2 = 2147483616 := by decide
  have henc : encodes (8 * 536870911)
      (conv_image (8 * 536870911) 8 (solid_image 8 536870911 0x03)).input
      (List.replicate 8 (List.replicate (8 * 536870911) 0x03)) [] := by
    have h := encodes_solid_image 536870911 0x03 [] 8
    rw [List.append_nil] at h
    exact h
  have hwd : (conv_image (8 * 536870911) 8 (solid_image 8 536870911 0x03)).width
      = 8 * 536870911 := rfl
  have hdec : decodes (conv_image (8 * 536870911) 8 (solid_image 8 536870911 0x03)).input
      (List.replicate 536870911 ⟨0x03, 8⟩) (solid_image 7 536870911 0x03) := by
    have h := decodes_solid_line 0x03 (solid_image 7 536870911 0x03) 536870911
    rw [← solid_image_succ] at h
    exact h
  have hf : next_8_scanlines
      (buffers_init [] [] [] (conv_image (8 * 536870911) 8 (solid_image 8 536870911 0x03)))
      = .error .oobWrite :=
    next_8_scanlines_wide_fault (8 * 536870911) (by decide) (by decide) (by decide)
      [] [] [] (conv_image (8 * 536870911) 8 (solid_image 8 536870911 0x03))
      (List.replicate 536870911 ⟨0x03, 8⟩) (solid_image 7 536870911 0x03) hwd hdec
      (fills_solid 536870911 0x03)
  exact ⟨by decide, hlen.trans hnum, by decide, by decide, henc, hf⟩

/-- C12 (as amended: the code makes no check). Run overrun is not rejected: in
every state of the refill loop (`pos[1] < size[1]`, scanline buffer of
`size[1]` bytes) whose stream decodes next to a run that would carry the
scanline cursor past the width (`cursor + length > width`), `next_run` returns
that run and the loop body executes `memset` with it all the same: the write
runs past the end of the scanline buffer (undefined behaviour, `oobWrite`), and
so does the refill loop; no corrupt-input error is raised. -/
theorem C12_run_overrun (c : conv_s) (r : run_s) (t : List Nat) (hw : window_ok c)
    (hpos : c.pos1 < c.size1) (hlen : c.buf1.length = c.size1)
    (hd : decode_run (stream c) = some (r, t)) (hover : c.size1 < c.pos1 + r.len) :
    (∃ c1, next_run c = .ok c1 ∧ c1.run = r ∧ c1.pos1 = c.pos1 ∧ c1.buf1 = c.buf1 ∧
      c1.buf1.length < c1.pos1 + c1.run.len ∧
      memset c1.buf1 c1.pos1 c1.run.ch c1.run.len = none) ∧
    next_8_pixels_body c = .error .oobWrite ∧
    ∀ fuel, next_8_pixels_loop (fuel + 1) c = .error .oobWrite := by
  obtain ⟨c1, hn, hr, _, _, hs⟩ := next_run_decode c r t hw hd
  have hb1 : c1.buf1 = c.buf1 := hs.2.1
  have hp1 : c1.pos1 = c.pos1 := hs.2.2
  have hlt : c1.buf1.length < c1.pos1 + c1.run.len := by
    rw [hb1, hp1, hr, hlen]; exact hover
  have hm : memset c1.buf1 c1.pos1 c1.run.ch c1.run.len = none := by
    unfold memset
    rw [if_neg (by omega)]
  have hbody : next_8_pixels_body c = .error .oobWrite := by
    simp only [next_8_pixels_body, hn, hm]
  refine ⟨⟨c1, hn, hr, hp1, hb1, hlt, hm⟩, hbody, ?_⟩
  intro fuel
  simp only [next_8_pixels_loop, hpos, if_true, hbody]

set_option maxRecDepth 100000 in
/-- C12, witness: width 8 and the stream bytes `0xC9 0x00`, a run of 9 bytes at
cursor 0: the loop body calls `memset` past the 8-byte scanline buffer. -/
theorem C12_run_overrun_witness :
    next_8_pixels_body
      { buffers_init [] [] [] (conv_image 8 8 [0xC9, 0x00]) with pos1 := 0 }
      = .error .oobWrite := by
  have hw := (buffers_init_window [] [] [] (conv_image 8 8 [0xC9, 0x00])).1
  exact (C12_run_overrun
    { buffers_init [] [] [] (conv_image 8 8 [0xC9, 0x00]) with pos1 := 0 } ⟨0x00, 9⟩ []
    hw (by decide) (by rfl) (by rfl) (by decide)).2.1

set_option maxRecDepth 100000 in
/-- C12, counterexample: width 8 and the pixel data `0xC9 0x00`. The first run
decoded during the scanline refill has length 9 at cursor 0, so
`cursor + length = 9 > 8 = width`; `next_8_pixels` does not reject the input
but calls `memset` for 9 bytes on the 8-byte scanline buffer. -/
theorem C12_counterexample :
    (∃ c1, next_run { buffers_init [] [] [] (conv_image 8 8 [0xC9, 0x00]) with pos1 := 0 }
        = .ok c1 ∧ c1.pos1 = 0 ∧ c1.run.len = 9 ∧ c1.buf1.length = 8 ∧
      memset c1.buf1 c1.pos1 c1.run.ch c1.run.len = none) ∧
    next_8_pixels (buffers_init [] [] [] (conv_image 8 8 [0xC9, 0x00])) = .error .oobWrite := by
  refine ⟨⟨_, rfl, rfl, rfl, rfl, rfl⟩, rfl⟩

/-! ## The scanline cursor -/

/-- When the refill loop returns, the scanline cursor stands exactly at the end
of the scanline buffer, whatever the stream held. -/
theorem next_8_pixels_loop_home : ∀ (fuel : Nat) (c c' : conv_s),
    next_8_pixels_loop fuel c = .ok c' → c.pos1 ≤ c.size1 → c.buf1.length = c.size1 →
    c.size1 < UINT_MOD →
    c'.pos1 = c.size1 ∧ c'.size1 = c.size1 ∧ c'.buf1.length = c.size1 := by
  intro fuel
  induction fuel with
  | zero =>
    intro c c' h hle hlen _
    unfold next_8_pixels_loop at h
    by_cases hc : c.pos1 < c.size1
    · rw [if_pos hc] at h; cases h
    · rw [if_neg hc] at h
      injection h with h
      subst h
      exact ⟨by omega, rfl, hlen⟩
  | succ fuel ih =>
    intro c c' h hle hlen hlt
    unfold next_8_pixels_loop at h
    by_cases hc : c.pos1 < c.size1
    · rw [if_pos hc] at h
      cases hb : next_8_pixels_body c with
      | error e => rw [hb] at h; cases h
      | ok c2 =>
        rw [hb] at h
        simp only [] at h
        unfold next_8_pixels_body at hb
        cases hn : next_run c with
        | error e => rw [hn] at hb; cases hb
        | ok c1 =>
          rw [hn] at hb
          simp only [] at hb
          have hs := next_run_frame c c1 hn
          have hsz : c1.size1 = c.size1 := hs.1.2.1
          have hb1 : c1.buf1 = c.buf1 := hs.2.1
          have hp1 : c1.pos1 = c.pos1 := hs.2.2
          cases hm : memset c1.buf1 c1.pos1 c1.run.ch c1.run.len with
          | none => rw [hm] at hb; cases hb
          | some b =>
            rw [hm] at hb
            injection hb with hb
            subst hb
            have hle1 : c1.pos1 + c1.run.len ≤ c1.buf1.length := by
              unfold memset at hm
              by_cases hi : c1.pos1 + c1.run.len ≤ c1.buf1.length
              · exact hi
              · rw [if_neg hi] at hm; cases hm
            have hbl : b.length = c1.buf1.length := by
              unfold memset at hm
              rw [if_pos hle1] at hm
              injection hm with hm
              subst hm
              simp
              omega
            rw [hb1, hlen] at hle1
            have hmod : (c1.pos1 + c1.run.len) % UINT_MOD = c1.pos1 + c1.run.len :=
              Nat.mod_eq_of_lt (by omega)
            have := ih _ c' h (by show (c1.pos1 + c1.run.len) % UINT_MOD ≤ c1.size1; omega)
              (by show b.length = c1.size1; rw [hbl, hb1, hlen, hsz]) (by show c1.size1 < _; omega)
            exact ⟨this.1.trans hsz, this.2.1.trans hsz, this.2.2.trans hsz⟩
    · rw [if_neg hc] at h
      injection h with h
      subst h
      exact ⟨by omega, rfl, hlen⟩

/-- A call of `next_8_pixels` that finds the scanline consumed and returns
leaves the cursor at 0. -/
theorem next_8_pixels_home (c c' : conv_s) (h : next_8_pixels c = .ok c')
    (hpos : c.pos1 = c.size1) (hlen : c.buf1.length = c.size1) (hlt : c.size1 < UINT_MOD) :
    c'.pos1 = 0 ∧ c'.size1 = c.size1 ∧ c'.buf1.length = c.size1 := by
  unfold next_8_pixels at h
  rw [if_pos hpos] at h
  cases hl : next_8_pixels_loop (loop_bound c) { c with pos1 := 0 } with
  | error e => rw [hl] at h; cases h
  | ok c1 =>
    rw [hl] at h
    injection h with h
    subst h
    have := next_8_pixels_loop_home _ _ _ hl (Nat.zero_le _) hlen hlt
    exact ⟨rfl, this.2.1, this.2.2⟩

theorem tile_bits_read (c : conv_s) : ∀ (l : List Nat) (t t' : tile_row_t),
    l.foldlM (tile_bit c) t = .ok t' → ∀ bit ∈ l, c.pos1 + bit < c.buf1.length := by
  intro l
  induction l with
  | nil => intro t t' _ bit hb; cases hb
  | cons a l ih =>
    intro t t' h bit hb
    rw [List.foldlM_cons] at h
    cases ha : tile_bit c t a with
    | error e => rw [ha] at h; cases h
    | ok t1 =>
      rw [ha] at h
      rcases List.mem_cons.mp hb with hb | hb
      · subst hb
        unfold tile_bit at ha
        cases hg : c.buf1[c.pos1 + bit]? with
        | none => rw [hg] at ha; cases ha
        | some x =>
          by_contra hlt
          rw [List.getElem?_eq_none (by omega)] at hg
          cases hg
      · exact ih t1 t' h bit hb

/-- One iteration of the column loop that returns has read the 8 bytes at the
scanline cursor inside the scanline buffer and advanced the cursor by 8. -/
theorem tile_col_cursor (row col : Nat) (c c' : conv_s) (h : tile_col row c col = .ok c') :
    c.pos1 + 8 ≤ c.buf1.length ∧ c'.pos1 = (c.pos1 + 8) % UINT_MOD ∧ c'.buf1 = c.buf1 ∧
      c'.size1 = c.size1 := by
  unfold tile_col at h
  split at h
  · cases h
  · rename_i tr htr
    have h7 := tile_bits_read c _ _ _ htr 7 (by decide)
    split at h
    · cases h
    · injection h with h
      subst h
      exact ⟨by omega, rfl, rfl, rfl⟩

theorem tile_cols_cursor (row : Nat) : ∀ (n k : Nat) (c c' : conv_s),
    (List.range' k n).foldlM (tile_col row) c = .ok c' → c.pos1 ≤ c.buf1.length →
    c.buf1.length < UINT_MOD →
    c'.pos1 = c.pos1 + 8 * n ∧ c'.pos1 ≤ c.buf1.length ∧ c'.buf1 = c.buf1 ∧
      c'.size1 = c.size1 := by
  intro n
  induction n with
  | zero =>
    intro k c c' h hle _
    injection h with h
    subst h
    exact ⟨rfl, hle, rfl, rfl⟩
  | succ n ih =>
    intro k c c' h hle hlt
    rw [List.range'_succ, List.foldlM_cons] at h
    cases h1 : tile_col row c k with
    | error e => rw [h1] at h; cases h
    | ok c1 =>
      rw [h1] at h
      obtain ⟨a1, a2, a3, a4⟩ := tile_col_cursor row k c c1 h1
      rw [Nat.mod_eq_of_lt (by omega)] at a2
      obtain ⟨b1, b2, b3, b4⟩ := ih (k + 1) c1 c' h (by rw [a2, a3]; exact a1) (by rw [a3]; exact hlt)
      rw [a3] at b2 b3
      exact ⟨by rw [b1, a2]; omega, b2, b3, b4.trans a4⟩

/-- A row iteration entered with the scanline consumed and completed leaves the
scanline consumed again, whatever the stream held. -/
theorem scan_row_home (W : Nat) (hW8 : W % 8 = 0) (hW : W < UINT_MOD) (row : Nat)
    (c c' : conv_s) (h : scan_row (W / 8) c row = .ok c') (hpos : c.pos1 = W)
    (hsz : c.size1 = W) (hlen : c.buf1.length = W) :
    c'.pos1 = W ∧ c'.size1 = W ∧ c'.buf1.length = W := by
  unfold scan_row at h
  cases hn : next_8_pixels c with
  | error e => rw [hn] at h; cases h
  | ok c1 =>
    rw [hn] at h
    simp only [] at h
    obtain ⟨a1, a2, a3⟩ := next_8_pixels_home c c1 hn (by rw [hpos, hsz]) (by rw [hlen, hsz])
      (by rw [hsz]; exact hW)
    rw [List.range_eq_range'] at h
    obtain ⟨b1, _, b3, b4⟩ := tile_cols_cursor row (W / 8) 0 c1 c' h (by omega)
      (by rw [a3, hsz]; exact hW)
    refine ⟨?_, ?_, ?_⟩
    · rw [b1, a1]; omega
    · rw [b4, a2, hsz]
    · rw [b3, a3, hsz]

theorem scan_rows_home (W : Nat) (hW8 : W % 8 = 0) (hW : W < UINT_MOD) :
    ∀ (l : List Nat) (c c' : conv_s), l.foldlM (scan_row (W / 8)) c = .ok c' →
    c.pos1 = W → c.size1 = W → c.buf1.length = W →
    c'.pos1 = W ∧ c'.size1 = W ∧ c'.buf1.length = W := by
  intro l
  induction l with
  | nil =>
    intro c c' h hpos hsz hlen
    injection h with h
    subst h
    exact ⟨hpos, hsz, hlen⟩
  | cons a l ih =>
    intro c c' h hpos hsz hlen
    rw [List.foldlM_cons] at h
    cases h1 : scan_row (W / 8) c a with
    | error e => rw [h1] at h; cases h
    | ok c1 =>
      rw [h1] at h
      obtain ⟨a1, a2, a3⟩ := scan_row_home W hW8 hW a c c1 h1 hpos hsz hlen
      exact ih c1 c' h a1 a2 a3

theorem fwrite_output_ready (W : Nat) (c c' : conv_s) (h : fwrite_output c = .ok c')
    (hc : scan_ready W c) :
    scan_ready W c' ∧ stream c' = stream c ∧ (window_ok c → window_ok c') := by
  unfold fwrite_output at h
  by_cases hle : c.size2 ≤ c.buf2.length
  · rw [if_pos hle] at h
    injection h with h
    subst h
    exact ⟨hc, rfl, fun hw => hw⟩
  · rw [if_neg hle] at h
    cases h

/-- C13, on the widths whose `width*8` does not wrap in `unsigned int`. A fresh
scanline per row: for every
width `W` that is a multiple of 8 with `W * 8 < 2^32`, `buffers_init` leaves
scanline cursor = size = `W`; whatever the stream holds, every row iteration of
`next_8_scanlines` that is reached is entered with the cursor equal to `W`
(the column loop brings it from 0 back to exactly `W`), and so is every later
call, since `fwrite` changes neither; and when the stream starts with 8
well-formed scanlines, row iteration `k` is reached, its `next_8_pixels`
assembles scanline `k` and consumes exactly that scanline from the stream, and
the call returns having decoded exactly these 8 scanlines, in the shape
`buffers_init` left. -/
theorem C13_fresh_scanline (W : Nat) (j0 j1 j2 : List Nat) (conv : conv_s)
    (hW8 : W % 8 = 0) (hW : W * 8 < UINT_MOD) (hwd : conv.width = W) :
    scan_ready W (buffers_init j0 j1 j2 conv) ∧
    (∀ c k ck, scan_ready W c → k ≤ 8 →
      (List.range k).foldlM (scan_row (c.width / 8)) c = .ok ck →
      ck.pos1 = W ∧ ck.size1 = W ∧ ck.buf1.length = W) ∧
    (∀ c c', scan_ready W c → next_8_scanlines c = .ok c' → scan_ready W c') ∧
    (∀ c c', scan_ready W c → fwrite_output c = .ok c' → scan_ready W c') ∧
    ∀ c lines rest, scan_ready W c → window_ok c → lines.length = 8 →
      encodes W (stream c) lines rest →
      (∀ k, k < 8 → ∃ ck c1,
        (List.range k).foldlM (scan_row (c.width / 8)) c = .ok ck ∧
        ck.pos1 = W ∧ ck.size1 = W ∧ encodes W (stream c) (lines.take k) (stream ck) ∧
        next_8_pixels ck = .ok c1 ∧ c1.buf1 = lines.getD k [] ∧
        encodes W (stream ck) [lines.getD k []] (stream c1)) ∧
      ∃ c', next_8_scanlines c = .ok c' ∧ scan_ready W c' ∧ window_ok c' ∧
        stream c' = rest := by
  have hWlt : W < UINT_MOD := by omega
  have h4 : W * 8 % UINT_MOD / 2 = 4 * W := by
    rw [Nat.mod_eq_of_lt hW]; omega
  refine ⟨hwd ▸ buffers_init_ready j0 j1 j2 conv, ?_, ?_, ?_, ?_⟩
  · intro c k ck hc _ h
    rw [hc.1] at h
    exact scan_rows_home W hW8 hWlt _ c ck h hc.2.2.1 hc.2.1 hc.2.2.2.1
  · intro c c' hc h
    obtain ⟨hh, hl⟩ := next_8_scanlines_frame c c' h
    unfold next_8_scanlines at h
    rw [hc.1] at h
    obtain ⟨a1, a2, a3⟩ := scan_rows_home W hW8 hWlt _ c c' h hc.2.2.1 hc.2.1 hc.2.2.2.1
    exact ⟨hh.2.2.2.1.trans hc.1, a2, a1, a3, hl.trans hc.2.2.2.2.1, hh.2.1.trans hc.2.2.2.2.2⟩
  · intro c c' hc h
    exact (fwrite_output_ready W c c' h hc).1
  · intro c lines rest hc hw hlines henc
    obtain ⟨hwc, hsz, hpos, hlen, hlen2, hsz2⟩ := hc
    rw [h4] at hlen2 hsz2
    refine ⟨?_, ?_⟩
    · intro k hk
      obtain ⟨mid, he1, he2⟩ := encodes_split W k lines (stream c) rest henc
      have hlk : (lines.take k).length = k := by
        rw [List.length_take]; omega
      obtain ⟨ck, hr, hl1, hp, hs, hwk, _, hh, _⟩ :=
        scan_rows_ok W hW8 hW (lines.take k) 0 c mid (by omega) hw hsz hpos hlen hlen2 he1
      rw [hlk, ← List.range_eq_range'] at hr
      cases hd : lines.drop k with
      | nil =>
        have := congrArg List.length hd
        simp at this
        omega
      | cons line tl =>
        rw [hd] at he2
        obtain ⟨runs, mid1, hdec, hfill, hline, _⟩ := he2
        have hg : lines.getD k [] = line := by
          have : lines[k]? = (lines.drop k)[0]? := by rw [List.getElem?_drop]; rfl
          rw [List.getD_eq_getElem?_getD, this, hd]
          simp
        rw [← hs] at hdec
        obtain ⟨c1, hn, hb1, _, hs1, _, _⟩ :=
          next_8_pixels_fills W hWlt ck runs mid1 hwk (hh.1.trans hsz) hp hl1 hdec hfill
        refine ⟨ck, c1, by rw [hwc]; exact hr, hp, hh.1.trans hsz, by rw [hs]; exact he1, hn,
          by rw [hb1, hg, hline], ?_⟩
        rw [hg]
        exact ⟨runs, mid1, hdec, hfill, hline, hs1⟩
    · obtain ⟨c', hr, hb, hl1, hp, hs, hw', hh⟩ :=
        next_8_scanlines_ok W hW8 hW lines c rest hlines hw hwc hsz hpos hlen hlen2 henc
      refine ⟨c', hr, ⟨hh.2.2.2.1.trans hwc, hh.1.trans hsz, hp, hl1, ?_, ?_⟩, hw', hs⟩
      · rw [hb, pack_tiles_length, h4]
      · rw [hh.2.1, hsz2, h4]

set_option maxRecDepth 100000 in
/-- C13, witness: `W = 8` and a stream of 8 scanlines of pixel value `0x05`:
the call returns with the scanline cursor back at 8 and the stream used up. -/
theorem C13_fresh_scanline_witness :
    ∃ c', next_8_scanlines (buffers_init [] [] [] (conv_image 8 8 (solid_image 8 1 0x05)))
        = .ok c' ∧ c'.pos1 = 8 ∧ stream c' = [] := by
  obtain ⟨hw, hs⟩ := buffers_init_window [] [] [] (conv_image 8 8 (solid_image 8 1 0x05))
  obtain ⟨hr, _, _, _, h⟩ := C13_fresh_scanline 8 [] [] []
    (conv_image 8 8 (solid_image 8 1 0x05)) (by decide) (by decide) rfl
  obtain ⟨_, c', h1, h2, _, h3⟩ := h _ (List.replicate 8 (List.replicate (8 * 1) 0x05)) [] hr hw
    (by simp) (by rw [hs]; simpa using encodes_solid_image 1 0x05 [] 8)
  exact ⟨c', h1, h2.2.2.1, h3⟩

/-- C13, failing input: for `W = 8 * 536870911 = 4294967288`, a positive
multiple of 8, the state left by `buffers_init` has scanline cursor = size =
`W` and the stream holds 8 well-formed scanlines, yet the first call of
`next_8_scanlines` does not decode 8 scanlines: its first row iteration writes
past the tile buffer, so the other 7 iterations are never entered. -/
theorem C13_failing_input :
    (8 * 536870911) % 8 = 0 ∧ 0 < 8 * 536870911 ∧
    (buffers_init [] [] [] (conv_image (8 * 536870911) 16 (solid_image 16 536870911 0x05))).pos1
      = 8 * 536870911 ∧
    (buffers_init [] [] [] (conv_image (8 * 536870911) 16 (solid_image 16 536870911 0x05))).size1
      = 8 * 536870911 ∧
    encodes (8 * 536870911)
      (conv_image (8 * 536870911) 16 (solid_image 16 536870911 0x05)).input
      (List.replicate 16 (List.replicate (8 * 536870911) 0x05)) [] ∧
    next_8_scanlines
      (buffers_init [] [] [] (conv_image (8 * 536870911) 16 (solid_image 16 536870911 0x05)))
      = .error .oobWrite := by
  have hp : (buffers_init [] [] []
      (conv_image (8 * 536870911) 16 (solid_image 16 536870911 0x05))).pos1
      = 8 * 536870911 :=
    (buffers_init_ready [] [] []
      (conv_image (8 * 536870911) 16 (solid_image 16 536870911 0x05))).2.2.1
  have hsz : (buffers_init [] [] []
      (conv_image (8 * 536870911) 16 (solid_image 16 536870911 0x05))).size1
      = 8 * 536870911 :=
    (buffers_init_ready [] [] []
      (conv_image (8 * 536870911) 16 (solid_image 16 536870911 0x05))).2.1
  have henc : encodes (8 * 536870911)
      (conv_image (8 * 536870911) 16 (solid_image 16 536870911 0x05)).input
      (List.replicate 16 (List.replicate (8 * 536870911) 0x05)) [] := by
    have h := encodes_solid_image 536870911 0x05 [] 16
    rw [List.append_nil] at h
    exact h
  have hwd : (conv_image (8 * 536870911) 16 (solid_image 16 536870911 0x05)).width
      = 8 * 536870911 := rfl
  have hdec : decodes (conv_image (8 * 536870911) 16 (solid_image 16 536870911 0x05)).input
      (List.replicate 536870911 ⟨0x05, 8⟩) (solid_image 15 536870911 0x05) := by
    have h := decodes_solid_line 0x05 (solid_image 15 536870911 0x05) 536870911
    rw [← solid_image_succ] at h
    exact h
  have hf : next_8_scanlines
      (buffers_init [] [] [] (conv_image (8 * 536870911) 16 (solid_image 16 536870911 0x05)))
      = .error .oobWrite :=
    next_8_scanlines_wide_fault (8 * 536870911) (by decide) (by decide) (by decide)
      [] [] [] (conv_image (8 * 536870911) 16 (solid_image 16 536870911 0x05))
      (List.replicate 536870911 ⟨0x05, 8⟩) (solid_image 15 536870911 0x05) hwd hdec
      (fills_solid 536870911 0x05)
  exact ⟨by decide, by decide, hp, hsz, henc, hf⟩

/-! ## The writes of the refill loop -/

theorem total_len_take_drop (runs : List run_s) (j : Nat) :
    total_len (runs.take j) + total_len (runs.drop j) = total_len runs := by
  unfold total_len
  rw [← List.sum_append, ← List.map_append, List.take_append_drop]

/-- The state in which iteration `j` of the refill loop starts, on runs that
fill the rest of the scanline exactly: the cursor is the sum of the lengths of
the runs stored so far, and the loop has really got there. -/
theorem refill_steps_fills (W : Nat) (hW : W < UINT_MOD) :
    ∀ (j : Nat) (runs : List run_s) (c : conv_s) (rest : List Nat),
      window_ok c → c.size1 = W → c.buf1.length = W → c.pos1 ≤ W →
      decodes (stream c) runs rest → total_len runs = W - c.pos1 →
      (∀ i, i < runs.length → total_len (runs.take i) < W - c.pos1) →
      j ≤ runs.length →
      ∃ cj, refill_steps j c = .ok cj ∧ cj.pos1 = c.pos1 + total_len (runs.take j) ∧
        window_ok cj ∧ cj.size1 = W ∧ cj.buf1.length = W ∧
        decodes (stream cj) (runs.drop j) rest ∧
        ∀ fuel, next_8_pixels_loop (j + fuel) c = next_8_pixels_loop fuel cj := by
  intro j
  induction j with
  | zero =>
    intro runs c rest hw hsz hlen _ hdec _ _ _
    refine ⟨c, rfl, by simp [total_len], hw, hsz, hlen, hdec, ?_⟩
    intro fuel
    rw [Nat.zero_add]
  | succ j ih =>
    intro runs c rest hw hsz hlen hpos hdec htot hpre hj
    cases runs with
    | nil => simp at hj
    | cons r runs =>
      have h0 := hpre 0 (by simp)
      simp only [List.take_zero, total_len, List.map_nil, List.sum_nil] at h0
      have hlt : c.pos1 < c.size1 := by omega
      rw [total_len_cons] at htot
      simp only [decodes] at hdec
      cases hdr : decode_run (stream c) with
      | none => rw [hdr] at hdec; exact hdec.elim
      | some pr =>
        obtain ⟨r1, s1⟩ := pr
        rw [hdr] at hdec
        simp only at hdec
        obtain ⟨hr, hdec1⟩ := hdec
        subst hr
        obtain ⟨c1, hn, hrun, hs1, hw1, ⟨ht1, hb1, hp1⟩⟩ := next_run_decode c r1 s1 hw hdr
        have hms : memset c1.buf1 c1.pos1 c1.run.ch c1.run.len
            = some (c.buf1.take c.pos1 ++ List.replicate r1.len r1.ch
                ++ c.buf1.drop (c.pos1 + r1.len)) := by
          simp only [memset, hb1, hp1, hrun]
          rw [if_pos (by omega)]
        have hmod : (c1.pos1 + c1.run.len) % UINT_MOD = c.pos1 + r1.len := by
          rw [hp1, hrun]; apply Nat.mod_eq_of_lt; omega
        have hbody : next_8_pixels_body c = .ok
            { c1 with
              buf1 := c.buf1.take c.pos1 ++ List.replicate r1.len r1.ch
                ++ c.buf1.drop (c.pos1 + r1.len)
              pos1 := c.pos1 + r1.len } := by
          simp only [next_8_pixels_body, hn, hms, hmod]
        obtain ⟨cj, e1, e2, e3, e4, e5, e6, e7⟩ := ih runs
          { c1 with
            buf1 := c.buf1.take c.pos1 ++ List.replicate r1.len r1.ch
              ++ c.buf1.drop (c.pos1 + r1.len)
            pos1 := c.pos1 + r1.len } rest hw1
          (by show c1.size1 = W; rw [ht1.2.1]; exact hsz)
          (by
            show (c.buf1.take c.pos1 ++ List.replicate r1.len r1.ch
              ++ c.buf1.drop (c.pos1 + r1.len)).length = W
            simp; omega)
          (by show c.pos1 + r1.len ≤ W; omega)
          (by show decodes (stream c1) runs rest; rw [hs1]; exact hdec1)
          (by show total_len runs = W - (c.pos1 + r1.len); omega)
          (by
            intro i hi
            have := hpre (i + 1) (by simp; omega)
            simp only [List.take_succ_cons, total_len_cons] at this
            show total_len (runs.take i) < W - (c.pos1 + r1.len)
            omega)
          (by simpa using hj)
        refine ⟨cj, ?_, ?_, e3, e4, e5, ?_, ?_⟩
        · simp only [refill_steps, hbody]
          exact e1
        · rw [e2, List.take_succ_cons, total_len_cons]
          show c.pos1 + r1.len + _ = _
          omega
        · simpa using e6
        · intro fuel
          rw [← e7 fuel, show j + 1 + fuel = (j + fuel) + 1 by omega]
          simp only [next_8_pixels_loop, hlt, if_true, hbody]

/-- C14. No scanline overflow on properly encoded input: for every width `W`
and every state in which `next_8_pixels` starts a refill (cursor = size = `W`,
scanline buffer of `W` bytes), when the stream decodes to runs whose lengths
sum to exactly `W`, the refill loop reaches each of its iterations `j` with the
cursor at the sum of the first `j` run lengths, `next_run` returns run `j`,
and at the `memset` of that iteration `cursor + run.len <= W`, so the write
lies inside the `W` bytes of the scanline buffer and `memset` succeeds; the
whole call returns without a fault. -/
theorem C14_no_scanline_overflow (W : Nat) (c : conv_s) (runs : List run_s)
    (rest : List Nat) (hW : W < UINT_MOD) (hw : window_ok c) (hsz : c.size1 = W)
    (hpos : c.pos1 = W) (hlen : c.buf1.length = W)
    (hdec : decodes (stream c) runs rest) (hfill : fills W runs) :
    (∀ j, j < runs.length → ∃ cj c1 b,
      refill_steps j { c with pos1 := 0 } = .ok cj ∧
      (∀ fuel, next_8_pixels_loop (j + fuel) { c with pos1 := 0 }
        = next_8_pixels_loop fuel cj) ∧
      cj.pos1 = total_len (runs.take j) ∧ cj.pos1 < cj.size1 ∧
      next_run cj = .ok c1 ∧ some c1.run = runs[j]? ∧ c1.pos1 = cj.pos1 ∧
      c1.buf1.length = W ∧ c1.pos1 + c1.run.len ≤ W ∧
      memset c1.buf1 c1.pos1 c1.run.ch c1.run.len = some b ∧ b.length = W) ∧
    ∃ c', next_8_pixels c = .ok c' ∧ c'.buf1.length = W := by
  refine ⟨?_, ?_⟩
  · intro j hj
    obtain ⟨cj, e1, e2, e3, e4, e5, e6, e7⟩ := refill_steps_fills W hW j runs
      { c with pos1 := 0 } rest hw hsz hlen (Nat.zero_le _) hdec
      (by show total_len runs = W - 0; rw [hfill.1]; rfl)
      (by intro i hi; show _ < W - 0; have := hfill.2 i hi; omega) (by omega)
    have e2 : cj.pos1 = total_len (runs.take j) := by
      rw [e2]; show 0 + _ = _; omega
    cases hd : runs.drop j with
    | nil =>
      have := congrArg List.length hd
      simp at this
      omega
    | cons r tl =>
      rw [hd] at e6
      simp only [decodes] at e6
      cases hdr : decode_run (stream cj) with
      | none => rw [hdr] at e6; exact e6.elim
      | some pr =>
        obtain ⟨r1, s1⟩ := pr
        rw [hdr] at e6
        simp only at e6
        obtain ⟨hr, _⟩ := e6
        subst hr
        obtain ⟨c1, hn, hrun, _, _, ⟨_, hb1, hp1⟩⟩ := next_run_decode cj r1 s1 e3 hdr
        have hget : runs[j]? = some r1 := by
          have : runs[j]? = (runs.drop j)[0]? := by rw [List.getElem?_drop]; rfl
          rw [this, hd]
          simp
        have hsum := total_len_take_drop runs j
        rw [hd, total_len_cons, hfill.1] at hsum
        have hle : c1.pos1 + c1.run.len ≤ W := by
          rw [hp1, hrun, e2]; omega
        have hl1 : c1.buf1.length = W := by rw [hb1]; exact e5
        refine ⟨cj, c1, _, e1, e7, e2, ?_, hn, by rw [hrun, hget], hp1, hl1, hle,
          if_pos (by rw [hl1]; exact hle), ?_⟩
        · rw [e4, e2]
          exact hfill.2 j hj
        · simp
          omega
  · obtain ⟨c', hn, hb, _⟩ := next_8_pixels_fills W hW c runs rest hw hsz hpos hlen hdec hfill
    exact ⟨c', hn, by rw [hb, expand_length]; exact hfill.1⟩

set_option maxRecDepth 100000 in
/-- C14, witness: `W = 8` and the stream `0xC3 0x0A 0x05 0xC4 0x0B`, the runs
`(0x0A,3)`, `(0x05,1)`, `(0x0B,4)` of total length 8: `next_8_pixels` returns
with an 8-byte scanline. -/
theorem C14_no_scanline_overflow_witness :
    ∃ c', next_8_pixels
        (buffers_init [] [] [] (conv_image 8 8 [0xC3, 0x0A, 0x05, 0xC4, 0x0B])) = .ok c' ∧
      c'.buf1.length = 8 := by
  obtain ⟨hw, hs⟩ := buffers_init_window [] [] []
    (conv_image 8 8 [0xC3, 0x0A, 0x05, 0xC4, 0x0B])
  exact (C14_no_scanline_overflow 8
    (buffers_init [] [] [] (conv_image 8 8 [0xC3, 0x0A, 0x05, 0xC4, 0x0B]))
    [⟨0x0A, 3⟩, ⟨0x05, 1⟩, ⟨0x0B, 4⟩] [] (by decide) hw rfl rfl rfl
    (by rw [hs]; exact ⟨rfl, rfl, rfl, rfl⟩)
    (by
      refine ⟨by decide, ?_⟩
      intro j hj
      simp only [List.length_cons, List.length_nil] at hj
      interval_cases j <;> decide)).2

/-! ## Addition and OR in the packer -/

theorem plane_term_eq (bit p b : Nat) : plane_term bit p b = 2 ^ (7 - bit) * pixel_bit p b := by
  unfold plane_term
  rw [and_shift_bit, Nat.one_shiftLeft]
  rfl

theorem plane_add_succ (p : Nat) (px : List Nat) (k : Nat) :
    plane_add p px (k + 1)
      = char_add (plane_add p px k) (plane_term k p (sext8 (px.getD k 0))) := by
  unfold plane_add
  rw [List.range_succ, List.foldl_append]
  rfl

theorem plane_or_succ (p : Nat) (px : List Nat) (k : Nat) :
    plane_or p px (k + 1) = plane_or p px k ||| plane_term k p (px.getD k 0) := by
  unfold plane_or
  rw [List.range_succ, List.foldl_append]
  rfl

theorem and_two_pow_mul (m a b : Nat) (hb : b < 2 ^ m) : 2 ^ m * a &&& b = 0 := by
  apply Nat.eq_of_testBit_eq
  intro i
  rw [Nat.testBit_and, Nat.zero_testBit]
  by_cases h : i < m
  · rw [Nat.testBit_mul_pow_two]
    simp [h]
  · have : b.testBit i = false :=
      Nat.testBit_lt_two_pow (lt_of_lt_of_le hb (Nat.pow_le_pow_right (by omega) (by omega)))
    simp [this]

/-- Before iteration `k` the accumulated byte has only bits above bit `7-k`
set, so adding the term of bit `7-k` neither carries nor leaves the byte, and
equals OR-ing it in. -/
theorem plane_add_inv (p : Nat) (px : List Nat) (hp : p < 4) : ∀ k, k ≤ 8 →
    ∃ a, plane_add p px k = 2 ^ (8 - k) * a ∧ plane_add p px k + 2 ^ (8 - k) ≤ 256 ∧
      plane_or p px k = plane_add p px k := by
  intro k
  induction k with
  | zero => intro _; exact ⟨0, rfl, by show (0 : Nat) + 2 ^ (8 - 0) ≤ 256; norm_num, rfl⟩
  | succ k ih =>
    intro hk
    obtain ⟨a, ha, hlt, hor⟩ := ih (by omega)
    have he := pixel_bit_le p (px.getD k 0)
    have hstep : char_add (plane_add p px k) (2 ^ (7 - k) * pixel_bit p (px.getD k 0))
        = plane_add p px k + 2 ^ (7 - k) * pixel_bit p (px.getD k 0) := by
      apply char_add_small
      have hk8 : k < 8 := by omega
      interval_cases k <;> simp only [Nat.reduceSub, Nat.reducePow] at hlt ⊢ <;> omega
    have hsplit : (2 : Nat) ^ (8 - k) = 2 ^ (7 - k) * 2 := by
      rw [← Nat.pow_succ]; congr 1; omega
    refine ⟨2 * a + pixel_bit p (px.getD k 0), ?_, ?_, ?_⟩
    · rw [plane_add_succ, plane_term_sext8 _ _ _ hp, hstep, ha, hsplit,
        show 8 - (k + 1) = 7 - k by omega]
      ring
    · rw [plane_add_succ, plane_term_sext8 _ _ _ hp, hstep, show 8 - (k + 1) = 7 - k by omega]
      rw [hsplit] at hlt
      have : 2 ^ (7 - k) * pixel_bit p (px.getD k 0) ≤ 2 ^ (7 - k) := by
        have := Nat.mul_le_mul_left (2 ^ (7 - k)) he
        rwa [Nat.mul_one] at this
      omega
    · rw [plane_or_succ, plane_add_succ, plane_term_sext8 _ _ _ hp, plane_term_eq, hstep, hor,
        ha]
      have hb : 2 ^ (7 - k) * pixel_bit p (px.getD k 0) < 2 ^ (8 - k) := by
        rw [hsplit]
        have : 0 < 2 ^ (7 - k) := Nat.two_pow_pos _
        have h2 : 2 ^ (7 - k) * pixel_bit p (px.getD k 0) ≤ 2 ^ (7 - k) := by
          have := Nat.mul_le_mul_left (2 ^ (7 - k)) he
          rwa [Nat.mul_one] at this
        omega
      exact (Nat.mul_add_lt_is_or hb a).symm

theorem plane_or_eq_add (p : Nat) (px : List Nat) (hp : p < 4) (k : Nat) (hk : k ≤ 8) :
    plane_or p px k = plane_add p px k := by
  obtain ⟨_, _, _, h⟩ := plane_add_inv p px hp k hk
  exact h

/-- The `bit` loop of `next_8_scanlines`, stopped after `k` iterations, holds
in `tile_row[p]` the byte `plane_add p px k` of the 8 pixel bytes at the cursor. -/
theorem tile_bits_planes (c : conv_s) (h : c.pos1 + 8 ≤ c.buf1.length) : ∀ k, k ≤ 8 →
    (List.range k).foldlM (tile_bit c) ⟨0, 0, 0, 0⟩ = .ok
      { t0 := plane_add 0 ((c.buf1.drop c.pos1).take 8) k
        t1 := plane_add 1 ((c.buf1.drop c.pos1).take 8) k
        t2 := plane_add 2 ((c.buf1.drop c.pos1).take 8) k
        t3 := plane_add 3 ((c.buf1.drop c.pos1).take 8) k } := by
  intro k
  induction k with
  | zero => intro _; rfl
  | succ k ih =>
    intro hk
    have hget : c.buf1[c.pos1 + k]? = some (((c.buf1.drop c.pos1).take 8).getD k 0) := by
      rw [List.getD_eq_getElem?_getD, List.getElem?_take_of_lt (by omega), List.getElem?_drop,
        List.getElem?_eq_getElem (by omega)]
      rfl
    rw [List.range_succ, List.foldlM_append, ih (by omega)]
    simp only [bind, Except.bind, List.foldlM_cons, List.foldlM_nil, tile_bit, hget,
      plane_add_succ]
    rfl

/-- C15. Addition equals OR in the packer: for every list `px` of pixel bytes
(any values, read by the code as signed `char`) and every plane `p < 4`, the
byte that the code accumulates in `tile_row[p]` by adding the terms
`(1 << (7-bit)) * ((ch & (1 << p)) >> p)` into a `char` equals, after every
iteration, the byte built from the same terms of the unsigned pixel bytes by
OR; before each addition the accumulated byte and the term have no bit in
common, so no addition carries and the sum is the plain sum, below 256; and
the `bit` loop of `next_8_scanlines` returns exactly the four OR-built bytes. -/
theorem C15_addition_equals_or (px : List Nat) (p : Nat) (hp : p < 4) :
    (∀ k, k < 8 →
      plane_add p px k &&& plane_term k p (sext8 (px.getD k 0)) = 0 ∧
      plane_term k p (sext8 (px.getD k 0)) = plane_term k p (px.getD k 0) ∧
      plane_add p px (k + 1) = plane_add p px k + plane_term k p (sext8 (px.getD k 0)) ∧
      plane_add p px (k + 1) < 256 ∧
      plane_add p px (k + 1) = plane_or p px (k + 1)) ∧
    plane_add p px 8 = plane_or p px 8 ∧
    ∀ c : conv_s, c.pos1 + 8 ≤ c.buf1.length → (c.buf1.drop c.pos1).take 8 = px →
      (List.range 8).foldlM (tile_bit c) ⟨0, 0, 0, 0⟩ = .ok
        { t0 := plane_or 0 px 8, t1 := plane_or 1 px 8, t2 := plane_or 2 px 8,
          t3 := plane_or 3 px 8 } := by
  refine ⟨?_, ?_, ?_⟩
  · intro k hk
    obtain ⟨a, ha, hlt, _⟩ := plane_add_inv p px hp k (by omega)
    obtain ⟨_, _, hlt', hor'⟩ := plane_add_inv p px hp (k + 1) (by omega)
    have he := pixel_bit_le p (px.getD k 0)
    have hsplit : (2 : Nat) ^ (8 - k) = 2 ^ (7 - k) * 2 := by
      rw [← Nat.pow_succ]; congr 1; omega
    have h2 : 2 ^ (7 - k) * pixel_bit p (px.getD k 0) ≤ 2 ^ (7 - k) := by
      have := Nat.mul_le_mul_left (2 ^ (7 - k)) he
      rwa [Nat.mul_one] at this
    have hpos : 0 < 2 ^ (7 - k) := Nat.two_pow_pos _
    refine ⟨?_, ?_, ?_, ?_, hor'.symm⟩
    · rw [plane_term_sext8 _ _ _ hp, ha]
      exact and_two_pow_mul _ _ _ (by rw [hsplit]; omega)
    · rw [plane_term_sext8 _ _ _ hp, plane_term_eq]
    · rw [plane_add_succ, plane_term_sext8 _ _ _ hp]
      apply char_add_small
      rw [hsplit] at hlt
      omega
    · have : 0 < 2 ^ (8 - (k + 1)) := Nat.two_pow_pos _
      omega
  · exact (plane_or_eq_add p px hp 8 (by omega)).symm
  · intro c hc hpx
    rw [tile_bits_planes c hc 8 (by omega), hpx,
      plane_or_eq_add 0 px (by omega) 8 (by omega),
      plane_or_eq_add 1 px (by omega) 8 (by omega),
      plane_or_eq_add 2 px (by omega) 8 (by omega),
      plane_or_eq_add 3 px (by omega) 8 (by omega)]

/-- C15, witness: the pixels `1 0 1 0 1 0 1 0` give in plane 0 the byte `0xAA`
by addition and by OR alike. -/
theorem C15_addition_equals_or_witness :
    plane_add 0 [1, 0, 1, 0, 1, 0, 1, 0] 8 = plane_or 0 [1, 0, 1, 0, 1, 0, 1, 0] 8 ∧
    plane_or 0 [1, 0, 1, 0, 1, 0, 1, 0] 8 = 0xAA :=
  ⟨(C15_addition_equals_or [1, 0, 1, 0, 1, 0, 1, 0] 0 (by decide)).2.1, by decide⟩

/-! ## Refill of the input window -/

theorem refill_run_freads (c : conv_s) : c.freads ≤ (refill_run c).freads := by
  rw [refill_run_eq]
  split
  · exact Nat.le_succ _
  · exact Nat.le_refl _

/-- C16, for a window that holds exactly one byte. Refill when the
window is nearly empty: for every state in which the input window cursor
`pos[0]` is 0 and the window holds exactly 1 byte (`size[0] = 1`), the
`refill_run` that follows the read of that byte in `next_run` increments
`pos[0]` to 1, finds `pos[0] == size[0]` and fills the window again from the
file: one more `fread` of up to 256 bytes, `size[0]` set to the number of bytes
read and `pos[0]` back to 0; so every `next_run` that returns has read from the
file. -/
theorem C16_refill_nearly_empty (c : conv_s) (hp : c.pos0 = 0) (hs : c.size0 = 1) :
    (c.pos0 + 1) % UINT_MOD = 1 ∧ (c.pos0 + 1) % UINT_MOD = c.size0 ∧
    refill_run c =
      { c with
        buf0 := c.input.take 256 ++ c.buf0.drop (min 256 c.input.length)
        size0 := min 256 c.input.length
        input := c.input.drop 256
        freads := c.freads + 1
        pos0 := 0 } ∧
    (∀ ch, c.buf0[c.pos0]? = some ch → ch &&& 0xc0 ≠ 0xc0 →
      next_run c = .ok { refill_run c with run := ⟨ch, 1⟩ }) ∧
    ∀ c', next_run c = .ok c' → c.freads + 1 ≤ c'.freads := by
  have h1 : (c.pos0 + 1) % UINT_MOD = 1 := by rw [hp]; rfl
  have hr : refill_run c =
      { c with
        buf0 := c.input.take 256 ++ c.buf0.drop (min 256 c.input.length)
        size0 := min 256 c.input.length
        input := c.input.drop 256
        freads := c.freads + 1
        pos0 := 0 } := by
    rw [refill_run_eq, if_pos (by rw [h1, hs])]
    rfl
  have hf : (refill_run c).freads = c.freads + 1 := by rw [hr]
  refine ⟨h1, by rw [h1, hs], hr, ?_, ?_⟩
  · intro ch hb hlit
    unfold next_run
    rw [hb]
    simp only [hlit, if_false]
  · intro c' h
    unfold next_run at h
    cases hb : c.buf0[c.pos0]? with
    | none => rw [hb] at h; cases h
    | some ch =>
      rw [hb] at h
      simp only [] at h
      by_cases hm : ch &&& 0xc0 = 0xc0
      · simp only [hm, if_true] at h
        cases hb2 : (refill_run c).buf0[(refill_run c).pos0]? with
        | none => rw [hb2] at h; cases h
        | some ch2 =>
          rw [hb2] at h
          injection h with h
          subst h
          show c.freads + 1 ≤ (refill_run (refill_run c)).freads
          rw [← hf]
          exact refill_run_freads _
      · simp only [hm, if_false] at h
        injection h with h
        subst h
        show c.freads + 1 ≤ (refill_run c).freads
        rw [hf]

set_option maxRecDepth 100000 in
/-- C16, witness: a pixel-data stream of one byte. `buffers_init` leaves
`pos[0] = 0` and `size[0] = 1`; the `refill_run` after the read of that byte
calls `fread` a second time, which finds the stream at its end. -/
theorem C16_refill_nearly_empty_witness :
    (buffers_init [] [] [] (conv_image 8 8 [0x05])).freads = 1 ∧
    (refill_run (buffers_init [] [] [] (conv_image 8 8 [0x05]))).freads = 2 ∧
    (refill_run (buffers_init [] [] [] (conv_image 8 8 [0x05]))).pos0 = 0 ∧
    (refill_run (buffers_init [] [] [] (conv_image 8 8 [0x05]))).size0 = 0 := by
  have h := (C16_refill_nearly_empty
    (buffers_init [] [] [] (conv_image 8 8 [0x05])) rfl rfl).2.2.1
  rw [h]
  exact ⟨rfl, rfl, rfl, rfl⟩

set_option maxRecDepth 100000 in
/-- C16, failing input: an empty pixel-data stream. `buffers_init` leaves
`pos[0] = 0` and an empty window (`size[0] = 0`, at most 1 byte); reading one
byte in `next_run` increments `pos[0]` to 1, `pos[0] == size[0]` does not hold
and the window is not filled again: `next_run` returns without a further
`fread`. -/
theorem C16_failing_input :
    (buffers_init [] [] [] (conv_image 8 8 [])).pos0 = 0 ∧
    (buffers_init [] [] [] (conv_image 8 8 [])).size0 ≤ 1 ∧
    (refill_run (buffers_init [] [] [] (conv_image 8 8 []))).pos0 = 1 ∧
    (refill_run (buffers_init [] [] [] (conv_image 8 8 []))).pos0
      ≠ (refill_run (buffers_init [] [] [] (conv_image 8 8 []))).size0 ∧
    (refill_run (buffers_init [] [] [] (conv_image 8 8 []))).freads
      = (buffers_init [] [] [] (conv_image 8 8 [])).freads ∧
    ∃ c', next_run (buffers_init [] [] [] (conv_image 8 8 [])) = .ok c' ∧ c'.pos0 = 1 ∧
      c'.size0 = 0 ∧ c'.freads = (buffers_init [] [] [] (conv_image 8 8 [])).freads := by
  refine ⟨rfl, by decide, rfl, by decide, rfl, _, rfl, rfl, rfl, rfl⟩

/-! ## The input window invariant -/

theorem refill_run_buf0_length (c : conv_s) (h : c.buf0.length = 256) :
    (refill_run c).buf0.length = 256 := by
  rw [refill_run_eq]
  split
  · show (c.input.take 256 ++ c.buf0.drop (min 256 c.input.length)).length = 256
    simp
    omega
  · exact h

theorem refill_run_inv (c : conv_s) (hinv : window_inv c) (h2 : 2 ≤ unconsumed c) :
    window_inv (refill_run c) ∧ unconsumed (refill_run c) + 1 = unconsumed c := by
  obtain ⟨h1, h256⟩ := hinv
  unfold unconsumed at h2
  have hmod : (c.pos0 + 1) % UINT_MOD = c.pos0 + 1 :=
    Nat.mod_eq_of_lt (by unfold UINT_MOD; omega)
  rw [refill_run_eq, hmod]
  by_cases he : c.pos0 + 1 = c.size0
  · rw [if_pos he]
    refine ⟨⟨?_, ?_⟩, ?_⟩
    · show 0 < min 256 c.input.length
      omega
    · show min 256 c.input.length ≤ 256
      omega
    · show (min 256 c.input.length - 0) + (c.input.drop 256).length + 1
        = (c.size0 - c.pos0) + c.input.length
      rw [List.length_drop]
      omega
  · rw [if_neg he]
    refine ⟨⟨?_, h256⟩, ?_⟩
    · show c.pos0 + 1 < c.size0
      omega
    · show (c.size0 - (c.pos0 + 1)) + c.input.length + 1 = (c.size0 - c.pos0) + c.input.length
      omega

/-- C17. Input window invariant: `pos[0] < size[0] <= 256` holds after
`buffers_init` on a non-empty pixel-data stream; every call of `refill_run`
made in a state that satisfies it while at least two bytes remain unconsumed
preserves it (and consumes one byte); and so `next_run`, started in a state
that satisfies it, reads its first byte at a cursor inside the filled part of
the window, that byte being the next byte of the stream, and, when that byte is
a run marker and its value byte is still to come (two bytes unconsumed), reads
the value byte inside the filled part as well and returns. -/
theorem C17_window_invariant (j0 j1 j2 : List Nat) (conv : conv_s) (c : conv_s)
    (hne : conv.input ≠ []) (hinv : window_inv c) (hlen : c.buf0.length = 256) :
    window_inv (buffers_init j0 j1 j2 conv) ∧
    (buffers_init j0 j1 j2 conv).buf0.length = 256 ∧
    (refill_run c).buf0.length = 256 ∧
    (2 ≤ unconsumed c →
      window_inv (refill_run c) ∧ unconsumed (refill_run c) + 1 = unconsumed c) ∧
    ∃ ch, c.buf0[c.pos0]? = some ch ∧ c.pos0 < c.size0 ∧ (stream c).head? = some ch ∧
      (ch &&& 0xc0 ≠ 0xc0 → next_run c = .ok { refill_run c with run := ⟨ch, 1⟩ }) ∧
      (ch &&& 0xc0 = 0xc0 → 2 ≤ unconsumed c →
        ∃ v, (refill_run c).buf0[(refill_run c).pos0]? = some v ∧
          (refill_run c).pos0 < (refill_run c).size0 ∧
          (stream (refill_run c)).head? = some v ∧
          next_run c = .ok { refill_run (refill_run c) with run := ⟨v, ch &&& 0x3f⟩ }) := by
  have hhead : ∀ s : conv_s, window_inv s → s.buf0.length = 256 →
      ∃ ch, s.buf0[s.pos0]? = some ch ∧ (stream s).head? = some ch := by
    intro s hs hl
    have hlt : s.pos0 < s.buf0.length := by rw [hl]; exact lt_of_lt_of_le hs.1 hs.2
    refine ⟨s.buf0[s.pos0], List.getElem?_eq_getElem hlt, ?_⟩
    unfold stream
    rw [List.head?_append_of_ne_nil]
    · rw [List.head?_drop, List.getElem?_take_of_lt hs.1, List.getElem?_eq_getElem hlt]
    · intro h0
      have hl0 : ((s.buf0.take s.size0).drop s.pos0).length = s.size0 - s.pos0 := by
        rw [List.length_drop, List.length_take, hl, Nat.min_eq_left hs.2]
      rw [h0] at hl0
      have := hs.1
      simp only [List.length_nil] at hl0
      omega
  refine ⟨?_, ?_, refill_run_buf0_length c hlen, refill_run_inv c hinv, ?_⟩
  · refine ⟨?_, ?_⟩
    · show 0 < min 256 conv.input.length
      have : 0 < conv.input.length := List.length_pos.mpr hne
      omega
    · show min 256 conv.input.length ≤ 256
      omega
  · exact (buffers_init_window j0 j1 j2 conv).1.1
  · obtain ⟨ch, hb, hh⟩ := hhead c hinv hlen
    refine ⟨ch, hb, hinv.1, hh, ?_, ?_⟩
    · intro hlit
      unfold next_run
      rw [hb]
      simp only [hlit, if_false]
    · intro hm h2
      obtain ⟨hinv', _⟩ := refill_run_inv c hinv h2
      obtain ⟨v, hv, hvh⟩ := hhead (refill_run c) hinv' (refill_run_buf0_length c hlen)
      refine ⟨v, hv, hinv'.1, hvh, ?_⟩
      unfold next_run
      rw [hb]
      simp only [hm, if_true, hv]

set_option maxRecDepth 100000 in
/-- C17, witness: the stream `0xC3 0x0A`; after `buffers_init` the invariant
holds with two bytes unconsumed, and `next_run` reads both inside the window. -/
theorem C17_window_invariant_witness :
    window_inv (buffers_init [] [] [] (conv_image 8 8 [0xC3, 0x0A])) ∧
    unconsumed (buffers_init [] [] [] (conv_image 8 8 [0xC3, 0x0A])) = 2 ∧
    window_inv (refill_run (buffers_init [] [] [] (conv_image 8 8 [0xC3, 0x0A]))) := by
  have h := C17_window_invariant [] [] [] (conv_image 8 8 [0xC3, 0x0A])
    (buffers_init [] [] [] (conv_image 8 8 [0xC3, 0x0A])) (by decide)
    ⟨by decide, by decide⟩ rfl
  exact ⟨h.1, rfl, (h.2.2.2.1 (by decide)).1⟩

/-! ## Pixels recovered from the packed bytes -/

/-- State-level form of `next_8_scanlines_wide_fault`: on any state in the
shape `buffers_init` leaves, a width whose `width*8` wraps makes the first row
of tiles run past the tile buffer. -/
theorem next_8_scanlines_wide_state (W : Nat) (hW8 : W % 8 = 0) (hWlt : W < UINT_MOD)
    (hwrap : UINT_MOD ≤ W * 8) (c : conv_s) (runs : List run_s) (mid : List Nat)
    (hw : window_ok c) (hc : scan_ready W c) (hdec : decodes (stream c) runs mid)
    (hfill : fills W runs) :
    next_8_scanlines c = .error .oobWrite := by
  obtain ⟨f1, f2, f3, f4, f5, _⟩ := hc
  obtain ⟨c1, hn, hb1, hp1, _, _, ht1⟩ :=
    next_8_pixels_fills W hWlt c runs mid hw f2 f3 f4 hdec hfill
  have hl1 : c1.buf1.length = W := by rw [hb1, expand_length]; exact hfill.1
  have hcount : W / 8 = W * 8 % UINT_MOD / 64 + (1 + (W / 8 - W * 8 % UINT_MOD / 64 - 1)) := by
    unfold UINT_MOD at *; omega
  have hfault := tile_cols_fault 0 (by omega) (W * 8 % UINT_MOD / 64)
    (W / 8 - W * 8 % UINT_MOD / 64 - 1) c1
    (by rw [hp1, hl1]; unfold UINT_MOD at *; omega) (by omega)
    (by rw [ht1.1, f5]; unfold UINT_MOD at *; omega) (by unfold UINT_MOD at *; omega)
  unfold next_8_scanlines
  rw [f1, List.range_eq_range', show (8 : Nat) = 7 + 1 from rfl, List.range'_succ,
    List.foldlM_cons]
  have hrow : scan_row (W / 8) c 0 = .error .oobWrite := by
    simp only [scan_row, hn]
    rw [List.range_eq_range', hcount]
    exact hfault
  rw [hrow]
  rfl

/-- Whenever `next_8_scanlines` returns on a state in the shape `buffers_init`
leaves, fed 8 well-formed scanlines, the tile buffer is their packing. -/
theorem next_8_scanlines_packs (W : Nat) (hW8 : W % 8 = 0) (hWlt : W < UINT_MOD)
    (lines : List (List Nat)) (c c' : conv_s) (rest : List Nat) (hlines : lines.length = 8)
    (hw : window_ok c) (hc : scan_ready W c) (henc : encodes W (stream c) lines rest)
    (hr : next_8_scanlines c = .ok c') : c'.buf2 = pack_tiles W lines := by
  by_cases hW : W * 8 < UINT_MOD
  · obtain ⟨f1, f2, f3, f4, f5, _⟩ := hc
    have h2 : c.buf2.length = 4 * W := by
      rw [f5, Nat.mod_eq_of_lt hW]; omega
    obtain ⟨c2, hr2, hb, _⟩ := next_8_scanlines_ok W hW8 hW lines c rest hlines hw f1 f2 f3 f4
      h2 henc
    rw [hr] at hr2
    injection hr2 with hr2
    rw [hr2]
    exact hb
  · cases lines with
    | nil => simp at hlines
    | cons line tl =>
      obtain ⟨runs, mid, hdec, hfill, _, _⟩ := henc
      have := next_8_scanlines_wide_state W hW8 hWlt (by omega) c runs mid hw hc hdec hfill
      rw [this] at hr
      cases hr

theorem plane_byte_bit (p b : Nat) (px : List Nat) (hb : b < 8) :
    plane_byte p px / 2 ^ (7 - b) % 2 = pixel_bit p (px.getD b 0) := by
  have h0 := pixel_bit_le p (px.getD 0 0)
  have h1 := pixel_bit_le p (px.getD 1 0)
  have h2 := pixel_bit_le p (px.getD 2 0)
  have h3 := pixel_bit_le p (px.getD 3 0)
  have h4 := pixel_bit_le p (px.getD 4 0)
  have h5 := pixel_bit_le p (px.getD 5 0)
  have h6 := pixel_bit_le p (px.getD 6 0)
  have h7 := pixel_bit_le p (px.getD 7 0)
  unfold plane_byte
  interval_cases b <;> simp only [Nat.sub_zero, Nat.reduceSub, Nat.reducePow, Nat.pow_zero,
    Nat.div_one] <;> omega

theorem nibble_sum (v : Nat) :
    ∑ p ∈ Finset.range 4, (pixel_bit p v) <<< p = v &&& 0x0F := by
  have h : v &&& 0x0F = v % 16 := Nat.and_pow_two_sub_one_eq_mod v 4
  rw [h]
  simp only [Finset.sum_range_succ, Finset.sum_range_zero, Nat.shiftLeft_eq, pixel_bit]
  norm_num
  omega

theorem pack_tiles_get (W : Nat) (lines : List (List Nat)) (col row p : Nat)
    (hW8 : W % 8 = 0) (hcol : col < W / 8) (hrow : row < 8) (hp : p < 4) :
    (pack_tiles W lines).getD (col * 32 + row * 4 + p) 0
      = plane_byte p (((lines.getD row []).drop (8 * col)).take 8) := by
  have e1 : (col * 32 + row * 4 + p) % 32 / 4 = row := by omega
  have e2 : (col * 32 + row * 4 + p) / 32 = col := by omega
  have e3 : (col * 32 + row * 4 + p) % 4 = p := by omega
  rw [List.getD_eq_getElem?_getD, pack_tiles, List.getElem?_map,
    List.getElem?_range (by omega)]
  simp only [Option.map_some', Option.getD_some, packed_byte, e1, e2, e3, tile_byte]

/-- The low nibble of a pixel is recovered from the four plane bytes of its
tile row. -/
theorem pack_tiles_nibble (W : Nat) (lines : List (List Nat)) (col row b : Nat)
    (hW8 : W % 8 = 0) (hcol : col < W / 8) (hrow : row < 8) (hb : b < 8) :
    (lines.getD row []).getD (8 * col + b) 0 &&& 0x0F
      = ∑ p ∈ Finset.range 4,
          (((pack_tiles W lines).getD (col * 32 + row * 4 + p) 0 >>> (7 - b)) &&& 1) <<< p := by
  rw [← nibble_sum]
  apply Finset.sum_congr rfl
  intro p hp
  rw [Finset.mem_range] at hp
  rw [pack_tiles_get W lines col row p hW8 hcol hrow hp, Nat.shiftRight_eq_div_pow,
    Nat.and_one_is_mod, plane_byte_bit p b _ hb, tile_pixel _ _ _ hb]
theorem encodes_line_length (W : Nat) : ∀ (lines : List (List Nat)) (s rest : List Nat),
    encodes W s lines rest → ∀ l ∈ lines, l.length = W := by
  intro lines
  induction lines with
  | nil => intro s rest _ l hl; cases hl
  | cons line tl ih =>
    intro s rest h l hl
    obtain ⟨runs, mid, _, hfill, hline, henc⟩ := h
    rcases List.mem_cons.mp hl with h1 | h1
    · rw [h1, hline, expand_length]; exact hfill.1
    · exact ih mid rest henc l h1

theorem pixel_bit_low (p v : Nat) (hp : p < 4) : pixel_bit p v = pixel_bit p (v &&& 0x0F) := by
  have h : v &&& 0x0F = v % 16 := Nat.and_pow_two_sub_one_eq_mod v 4
  rw [h]
  unfold pixel_bit
  interval_cases p <;> omega

theorem plane_byte_low (p : Nat) (px px' : List Nat) (hp : p < 4)
    (h : ∀ k, px.getD k 0 &&& 0x0F = px'.getD k 0 &&& 0x0F) :
    plane_byte p px = plane_byte p px' := by
  unfold plane_byte
  rw [pixel_bit_low p (px.getD 0 0) hp, pixel_bit_low p (px.getD 1 0) hp,
    pixel_bit_low p (px.getD 2 0) hp, pixel_bit_low p (px.getD 3 0) hp,
    pixel_bit_low p (px.getD 4 0) hp, pixel_bit_low p (px.getD 5 0) hp,
    pixel_bit_low p (px.getD 6 0) hp, pixel_bit_low p (px.getD 7 0) hp,
    h 0, h 1, h 2, h 3, h 4, h 5, h 6, h 7,
    ← pixel_bit_low p (px'.getD 0 0) hp, ← pixel_bit_low p (px'.getD 1 0) hp,
    ← pixel_bit_low p (px'.getD 2 0) hp, ← pixel_bit_low p (px'.getD 3 0) hp,
    ← pixel_bit_low p (px'.getD 4 0) hp, ← pixel_bit_low p (px'.getD 5 0) hp,
    ← pixel_bit_low p (px'.getD 6 0) hp, ← pixel_bit_low p (px'.getD 7 0) hp]

theorem window_getD (line : List Nat) (col k : Nat) :
    ((line.drop (8 * col)).take 8).getD k 0
      = if k < 8 then line.getD (8 * col + k) 0 else 0 := by
  by_cases hk : k < 8
  · rw [if_pos hk, tile_pixel _ _ _ hk]
  · rw [if_neg hk, List.getD_eq_getElem?_getD, List.getElem?_eq_none (by simp; omega)]
    rfl

/-- The packing depends on the low nibbles of the pixels only. -/
theorem pack_tiles_low (W : Nat) (lines lines' : List (List Nat))
    (h : ∀ row j, (lines.getD row []).getD j 0 &&& 0x0F
      = (lines'.getD row []).getD j 0 &&& 0x0F) :
    pack_tiles W lines = pack_tiles W lines' := by
  unfold pack_tiles
  apply List.map_congr_left
  intro i _
  unfold packed_byte tile_byte
  apply plane_byte_low _ _ _ (Nat.mod_lt _ (by omega))
  intro k
  rw [window_getD, window_getD]
  split
  · exact h _ _
  · rfl

theorem list_ext_getD {α : Type} (d : α) (l1 l2 : List α) (hl : l1.length = l2.length)
    (h : ∀ i, i < l1.length → l1.getD i d = l2.getD i d) : l1 = l2 := by
  apply List.ext_getElem hl
  intro i h1 h2
  have := h i h1
  rw [List.getD_eq_getElem?_getD, List.getD_eq_getElem?_getD, List.getElem?_eq_getElem h1,
    List.getElem?_eq_getElem h2] at this
  exact this

theorem pixel_lt (lines : List (List Nat)) (h : ∀ l ∈ lines, ∀ v ∈ l, v < 16) (row j : Nat) :
    (lines.getD row []).getD j 0 < 16 := by
  rw [List.getD_eq_getElem?_getD, List.getD_eq_getElem?_getD]
  cases hr : lines[row]? with
  | none => simp
  | some l =>
    cases hj : l[j]? with
    | none => simp [hj]
    | some v =>
      simp only [Option.getD_some, hj]
      exact h l (List.getElem?_mem hr) v (List.getElem?_mem hj)

/-- Two images of nibble pixels with the same packing are equal. -/
theorem pack_tiles_inj (W : Nat) (hW8 : W % 8 = 0) (lines lines' : List (List Nat))
    (hl : lines.length = 8) (hl' : lines'.length = 8)
    (hw : ∀ l ∈ lines, l.length = W) (hw' : ∀ l ∈ lines', l.length = W)
    (hn : ∀ l ∈ lines, ∀ v ∈ l, v < 16) (hn' : ∀ l ∈ lines', ∀ v ∈ l, v < 16)
    (h : pack_tiles W lines = pack_tiles W lines') : lines = lines' := by
  have hpix : ∀ row j, row < 8 → j < W →
      (lines.getD row []).getD j 0 = (lines'.getD row []).getD j 0 := by
    intro row j hrow hj
    have e : 8 * (j / 8) + j % 8 = j := by omega
    have a := pack_tiles_nibble W lines (j / 8) row (j % 8) hW8 (by omega) hrow (by omega)
    have a' := pack_tiles_nibble W lines' (j / 8) row (j % 8) hW8 (by omega) hrow (by omega)
    rw [e] at a a'
    rw [h, ← a'] at a
    have m : ∀ v : Nat, v < 16 → v &&& 0x0F = v := by
      intro v hv
      have h16 : v &&& 0x0F = v % 16 := Nat.and_pow_two_sub_one_eq_mod v 4
      rw [h16]
      omega
    rw [m _ (pixel_lt lines hn row j), m _ (pixel_lt lines' hn' row j)] at a
    exact a
  apply list_ext_getD [] lines lines' (by rw [hl, hl'])
  intro row hrow
  rw [hl] at hrow
  have hr1 : lines.getD row [] ∈ lines := by
    rw [List.getD_eq_getElem?_getD, List.getElem?_eq_getElem (by omega)]
    exact List.getElem_mem _
  have hr2 : lines'.getD row [] ∈ lines' := by
    rw [List.getD_eq_getElem?_getD, List.getElem?_eq_getElem (by omega)]
    exact List.getElem_mem _
  apply list_ext_getD 0 _ _ (by rw [hw _ hr1, hw' _ hr2])
  intro j hj
  rw [hw _ hr1] at hj
  exact hpix row j hrow hj

/-- C18. Packing is invertible on nibbles: for every width `W` that is a
multiple of 8 and every 8 well-formed scanlines `lines`, on a state in the
shape `buffers_init` leaves, if `next_8_scanlines` returns the tile buffer
`out` then for all `col < W/8`, `row < 8`, `b < 8` the low nibble of
`lines[row][8*col+b]` is the sum over `p < 4` of
`((out[col*32+row*4+p] >> (7-b)) & 1) << p`; consequently another image whose
pixels have the same low nibbles packs to the same bytes, and two images whose
pixels all lie in `0..15` pack to the same bytes only if they are equal. The
call does return when `W * 8 < 2^32`. -/
theorem C18_nibble_inverse (W : Nat) (lines : List (List Nat)) (c : conv_s)
    (rest : List Nat) (hW8 : W % 8 = 0) (hWlt : W < UINT_MOD) (hlines : lines.length = 8)
    (hw : window_ok c) (hc : scan_ready W c) (henc : encodes W (stream c) lines rest) :
    (W * 8 < UINT_MOD → ∃ c', next_8_scanlines c = .ok c') ∧
    ∀ c', next_8_scanlines c = .ok c' →
      (∀ col row b, col < W / 8 → row < 8 → b < 8 →
        (lines.getD row []).getD (8 * col + b) 0 &&& 0x0F
          = ∑ p ∈ Finset.range 4,
              ((c'.buf2.getD (col * 32 + row * 4 + p) 0 >>> (7 - b)) &&& 1) <<< p) ∧
      ∀ (c2 : conv_s) (lines2 : List (List Nat)) (rest2 : List Nat) (c2' : conv_s),
        lines2.length = 8 → window_ok c2 → scan_ready W c2 →
        encodes W (stream c2) lines2 rest2 → next_8_scanlines c2 = .ok c2' →
        ((∀ row j, (lines2.getD row []).getD j 0 &&& 0x0F
            = (lines.getD row []).getD j 0 &&& 0x0F) → c2'.buf2 = c'.buf2) ∧
        ((∀ l ∈ lines, ∀ v ∈ l, v < 16) → (∀ l ∈ lines2, ∀ v ∈ l, v < 16) →
          c2'.buf2 = c'.buf2 → lines2 = lines) := by
  refine ⟨?_, ?_⟩
  · intro hW
    obtain ⟨f1, f2, f3, f4, f5, _⟩ := hc
    have h2 : c.buf2.length = 4 * W := by
      rw [f5, Nat.mod_eq_of_lt hW]; omega
    obtain ⟨c', hr, _⟩ := next_8_scanlines_ok W hW8 hW lines c rest hlines hw f1 f2 f3 f4
      h2 henc
    exact ⟨c', hr⟩
  · intro c' hr
    have hb := next_8_scanlines_packs W hW8 hWlt lines c c' rest hlines hw hc henc hr
    refine ⟨?_, ?_⟩
    · intro col row b hcol hrow hb8
      rw [hb]
      exact pack_tiles_nibble W lines col row b hW8 hcol hrow hb8
    · intro c2 lines2 rest2 c2' hlines2 hw2 hc2 henc2 hr2
      have hb2 := next_8_scanlines_packs W hW8 hWlt lines2 c2 c2' rest2 hlines2 hw2 hc2 henc2 hr2
      refine ⟨?_, ?_⟩
      · intro hlow
        rw [hb, hb2]
        exact pack_tiles_low W lines2 lines hlow
      · intro hn hn2 he
        rw [hb, hb2] at he
        exact pack_tiles_inj W hW8 lines2 lines hlines2 hlines
          (encodes_line_length W lines2 _ _ henc2) (encodes_line_length W lines _ _ henc)
          hn2 hn he

set_option maxRecDepth 100000 in
/-- C18, witness: `W = 8` and 8 scanlines of pixel value `0x35`: the call
returns, and the low nibble `0x05` of the pixel in row 2, column 3 is the sum
recovered from the four plane bytes of that tile row. -/
theorem C18_nibble_inverse_witness :
    ∃ c', next_8_scanlines (buffers_init [] [] [] (conv_image 8 8 (solid_image 8 1 0x35)))
        = .ok c' ∧
      0x05 = ∑ p ∈ Finset.range 4,
        ((c'.buf2.getD (0 * 32 + 2 * 4 + p) 0 >>> (7 - 3)) &&& 1) <<< p := by
  obtain ⟨hw, hs⟩ := buffers_init_window [] [] [] (conv_image 8 8 (solid_image 8 1 0x35))
  obtain ⟨h1, h2⟩ := C18_nibble_inverse 8 (List.replicate 8 (List.replicate (8 * 1) 0x35))
    (buffers_init [] [] [] (conv_image 8 8 (solid_image 8 1 0x35))) [] (by decide) (by decide)
    (by simp) hw (buffers_init_ready [] [] [] (conv_image 8 8 (solid_image 8 1 0x35)))
    (by rw [hs]; simpa using encodes_solid_image 1 0x35 [] 8)
  obtain ⟨c', hr⟩ := h1 (by decide)
  refine ⟨c', hr, ?_⟩
  have h := (h2 c' hr).1 0 2 3 (by decide) (by decide) (by decide)
  rw [← h]
  decide

/-! ## Widths that are not a multiple of 8 -/

theorem tile_col_eq (row col : Nat) (c c' : conv_s) (h : tile_col row c col = .ok c') :
    ∃ b, c' = { c with buf2 := b, pos1 := (c.pos1 + 8) % UINT_MOD } := by
  unfold tile_col at h
  split at h
  · cases h
  · split at h
    · cases h
    · rename_i b _
      injection h with h
      exact ⟨b, h.symm⟩

theorem tile_col_starved (W row col : Nat) (c c' : conv_s)
    (h : tile_col row c col = .ok c') (hs : starved W c) :
    starved W c' ∧ no_decode c c' := by
  obtain ⟨b, hb⟩ := tile_col_eq row col c c' h
  subst hb
  obtain ⟨h1, h2, h3⟩ := hs
  refine ⟨⟨h1, ?_, h3⟩, rfl, rfl, rfl⟩
  show (c.pos1 + 8) % UINT_MOD % 8 = 0
  unfold UINT_MOD
  omega

theorem tile_cols_starved (W row : Nat) : ∀ (l : List Nat) (c c' : conv_s),
    l.foldlM (tile_col row) c = .ok c' → starved W c → starved W c' ∧ no_decode c c' := by
  intro l
  induction l with
  | nil =>
    intro c c' h hs
    injection h with h
    subst h
    exact ⟨hs, rfl, rfl, rfl⟩
  | cons a l ih =>
    intro c c' h hs
    rw [List.foldlM_cons] at h
    cases h1 : tile_col row c a with
    | error e => rw [h1] at h; cases h
    | ok c1 =>
      rw [h1] at h
      obtain ⟨a1, a2, a3, a4⟩ := tile_col_starved W row a c c1 h1 hs
      obtain ⟨b1, b2, b3, b4⟩ := ih c1 c' h a1
      exact ⟨b1, b2.trans a2, b3.trans a3, b4.trans a4⟩

/-- A starved `next_8_pixels` is a no-op. -/
theorem next_8_pixels_starved (W : Nat) (c : conv_s) (hs : starved W c) :
    c.pos1 ≠ c.size1 ∧ next_8_pixels c = .ok c := by
  obtain ⟨h1, h2, h3⟩ := hs
  have hne : c.pos1 ≠ c.size1 := by
    intro h; rw [h, h1] at h2; exact h3 h2
  exact ⟨hne, by unfold next_8_pixels; rw [if_neg hne]⟩

theorem scan_row_starved (W n row : Nat) (c c' : conv_s) (h : scan_row n c row = .ok c')
    (hs : starved W c) : starved W c' ∧ no_decode c c' := by
  unfold scan_row at h
  rw [(next_8_pixels_starved W c hs).2] at h
  exact tile_cols_starved W row _ c c' h hs

theorem scan_rows_starved (W n : Nat) : ∀ (l : List Nat) (c c' : conv_s),
    l.foldlM (scan_row n) c = .ok c' → starved W c → starved W c' ∧ no_decode c c' := by
  intro l
  induction l with
  | nil =>
    intro c c' h hs
    injection h with h
    subst h
    exact ⟨hs, rfl, rfl, rfl⟩
  | cons a l ih =>
    intro c c' h hs
    rw [List.foldlM_cons] at h
    cases h1 : scan_row n c a with
    | error e => rw [h1] at h; cases h
    | ok c1 =>
      rw [h1] at h
      obtain ⟨a1, a2, a3, a4⟩ := scan_row_starved W n a c c1 h1 hs
      obtain ⟨b1, b2, b3, b4⟩ := ih c1 c' h a1
      exact ⟨b1, b2.trans a2, b3.trans a3, b4.trans a4⟩

/-- Once starved, the whole remaining conversion decodes nothing. -/
theorem main_loop_starved (W : Nat) : ∀ (n : Nat) (c c' : conv_s),
    main_loop n c = .ok c' → starved W c → starved W c' ∧ no_decode c c' := by
  intro n
  induction n with
  | zero =>
    intro c c' h hs
    injection h with h
    subst h
    exact ⟨hs, rfl, rfl, rfl⟩
  | succ n ih =>
    intro c c' h hs
    unfold main_loop at h
    cases h1 : next_8_scanlines c with
    | error e => rw [h1] at h; cases h
    | ok c1 =>
      rw [h1] at h
      simp only [] at h
      obtain ⟨a1, a2, a3, a4⟩ := scan_rows_starved W _ _ c c1 h1 hs
      cases h2 : fwrite_output c1 with
      | error e => rw [h2] at h; cases h
      | ok c2 =>
        rw [h2] at h
        simp only [] at h
        unfold fwrite_output at h2
        by_cases hle : c1.size2 ≤ c1.buf2.length
        · rw [if_pos hle] at h2
          injection h2 with h2
          subst h2
          obtain ⟨b1, b2, b3, b4⟩ := ih _ c' h a1
          exact ⟨b1, b2.trans a2, b3.trans a3, b4.trans a4⟩
        · rw [if_neg hle] at h2
          cases h2

theorem tile_bits_fault (c : conv_s) : ∀ (l : List Nat) (t : tile_row_t),
    (∃ bit ∈ l, c.buf1.length ≤ c.pos1 + bit) →
    l.foldlM (tile_bit c) t = .error .oobRead := by
  intro l
  induction l with
  | nil => intro t h; obtain ⟨_, hb, _⟩ := h; cases hb
  | cons a l ih =>
    intro t h
    rw [List.foldlM_cons]
    cases hg : c.buf1[c.pos1 + a]? with
    | none =>
      have : tile_bit c t a = .error .oobRead := by
        unfold tile_bit; rw [hg]
      rw [this]
      rfl
    | some x =>
      have hlt : c.pos1 + a < c.buf1.length := by
        by_contra hn
        rw [List.getElem?_eq_none (by omega)] at hg
        cases hg
      obtain ⟨bit, hb, hle⟩ := h
      have hbl : bit ∈ l := by
        rcases List.mem_cons.mp hb with h1 | h1
        · subst h1; omega
        · exact h1
      have : ∃ t1, tile_bit c t a = .ok t1 := by
        unfold tile_bit; rw [hg]; exact ⟨_, rfl⟩
      obtain ⟨t1, ht1⟩ := this
      rw [ht1]
      exact ih t1 ⟨bit, hbl, hle⟩

/-- A tile column whose 8 pixels do not all lie inside the scanline buffer is
read past the end of the buffer. -/
theorem tile_col_oob (row col : Nat) (c : conv_s) (h : c.buf1.length < c.pos1 + 8) :
    tile_col row c col = .error .oobRead := by
  unfold tile_col
  rw [tile_bits_fault c (List.range 8) ⟨0, 0, 0, 0⟩ ⟨7, by decide, by omega⟩]
/-- C19 (as amended: the tile loop reads past the scanline only for `W >= 8`).
Width not a multiple of 8 starves the assembler: for every width `W > 0` with
`W mod 8 != 0` and a first scanline of well-formed runs, starting from the
state left by `buffers_init`, the first call of `next_8_pixels` refills the
scanline buffer and leaves the cursor at 0; from then on the cursor stays a
multiple of 8 (the column loop adds 8 mod 2^32), so it never again equals `W`
and every later call of `next_8_pixels` is a no-op; every conversion that the
main loop completes has decoded that one scanline and nothing else. When the
column loop is entered with the cursor at `8*(W/8)`, the place the first row
leaves it, its first column reads the scanline buffer at offset `W`, past its
end; for `W >= 8` with `W * 8 < 2^32` this is how the first call of
`next_8_scanlines` ends. For `W < 8` the column loop has `W/8 = 0` iterations
and reads nothing. -/
theorem C19_width_not_multiple (W : Nat) (j0 j1 j2 : List Nat) (conv : conv_s)
    (runs : List run_s) (mid : List Nat) (hW0 : 0 < W) (hW8 : W % 8 ≠ 0)
    (hWlt : W < UINT_MOD) (hwd : conv.width = W) (hdec : decodes conv.input runs mid)
    (hfill : fills W runs) :
    (∃ c1, next_8_pixels (buffers_init j0 j1 j2 conv) = .ok c1 ∧ c1.buf1 = expand runs ∧
      c1.pos1 = 0 ∧ stream c1 = mid ∧ starved W c1) ∧
    (∀ c, starved W c → c.pos1 ≠ c.size1 ∧ next_8_pixels c = .ok c) ∧
    (∀ c c' row col, starved W c → tile_col row c col = .ok c' →
      starved W c' ∧ no_decode c c') ∧
    (∀ c c' n, starved W c → main_loop n c = .ok c' → starved W c' ∧ no_decode c c') ∧
    (∀ n c', main_loop (n + 1) (buffers_init j0 j1 j2 conv) = .ok c' →
      starved W c' ∧ stream c' = mid ∧ c'.buf1 = expand runs) ∧
    (∀ c row col, c.buf1.length = W → c.pos1 = 8 * (W / 8) →
      c.pos1 + W % 8 = W ∧ c.buf1[c.pos1 + W % 8]? = none ∧
      tile_col row c col = .error .oobRead) ∧
    (8 ≤ W → W * 8 < UINT_MOD →
      next_8_scanlines (buffers_init j0 j1 j2 conv) = .error .oobRead) ∧
    (W < 8 → ∀ c c' row, next_8_pixels c = .ok c' → scan_row (W / 8) c row = .ok c') := by
  obtain ⟨hw, hs⟩ := buffers_init_window j0 j1 j2 conv
  have hrd := buffers_init_ready j0 j1 j2 conv
  rw [hwd] at hrd
  obtain ⟨f1, f2, f3, f4, f5, _⟩ := hrd
  obtain ⟨c1, hn, hb1, hp1, hs1, hw1, ht1⟩ :=
    next_8_pixels_fills W hWlt (buffers_init j0 j1 j2 conv) runs mid hw f2 f3 f4
      (by rw [hs]; exact hdec) hfill
  have hst1 : starved W c1 := ⟨ht1.2.1.trans f2, by rw [hp1], hW8⟩
  have hl1 : c1.buf1.length = W := by rw [hb1, expand_length]; exact hfill.1
  refine ⟨⟨c1, hn, hb1, hp1, hs1, hst1⟩, ?_, ?_, ?_, ?_, ?_, ?_, ?_⟩
  · intro c hc
    exact next_8_pixels_starved W c hc
  · intro c c' row col hc h
    exact tile_col_starved W row col c c' h hc
  · intro c c' n hc h
    exact main_loop_starved W n c c' h hc
  · intro n c' h
    unfold main_loop at h
    cases h1 : next_8_scanlines (buffers_init j0 j1 j2 conv) with
    | error e => rw [h1] at h; cases h
    | ok c3 =>
      rw [h1] at h
      simp only [] at h
      unfold next_8_scanlines at h1
      rw [List.range_eq_range', show (8 : Nat) = 7 + 1 from rfl, List.range'_succ,
        List.foldlM_cons] at h1
      cases h0 : scan_row ((buffers_init j0 j1 j2 conv).width / 8)
          (buffers_init j0 j1 j2 conv) 0 with
      | error e => rw [h0] at h1; cases h1
      | ok c2 =>
        rw [h0] at h1
        unfold scan_row at h0
        rw [hn] at h0
        obtain ⟨a1, a2, a3, a4⟩ := tile_cols_starved W 0 _ c1 c2 h0 hst1
        obtain ⟨b1, b2, b3, b4⟩ := scan_rows_starved W _ _ c2 c3 h1 a1
        cases h2 : fwrite_output c3 with
        | error e => rw [h2] at h; cases h
        | ok c4 =>
          rw [h2] at h
          simp only [] at h
          unfold fwrite_output at h2
          by_cases hle : c3.size2 ≤ c3.buf2.length
          · rw [if_pos hle] at h2
            injection h2 with h2
            subst h2
            obtain ⟨d1, d2, d3, d4⟩ := main_loop_starved W n _ c' h b1
            refine ⟨d1, ?_, ?_⟩
            · rw [d2]
              show stream c3 = mid
              rw [b2, a2, hs1]
            · rw [d4]
              show c3.buf1 = expand runs
              rw [b4, a4, hb1]
          · rw [if_neg hle] at h2
            cases h2
  · intro c row col hlen hpos
    have hsum : c.pos1 + W % 8 = W := by rw [hpos]; omega
    refine ⟨hsum, ?_, ?_⟩
    · rw [hsum]
      exact List.getElem?_eq_none (by omega)
    · exact tile_col_oob row col c (by omega)
  · intro h8 hW
    have hb2 : c1.buf2.length = 4 * W := by
      rw [ht1.1, f5, Nat.mod_eq_of_lt hW]; omega
    obtain ⟨B, hB, _, _⟩ := tile_cols_ok 0 (by omega) (W / 8) 0 c1 (by omega) (by omega)
      (by omega) (by unfold UINT_MOD at *; omega)
    rw [← List.range_eq_range'] at hB
    have hst2 : starved W { c1 with buf2 := B, pos1 := c1.pos1 + 8 * (W / 8) } :=
      ⟨hst1.1, by show (c1.pos1 + 8 * (W / 8)) % 8 = 0; omega, hW8⟩
    have hcols : List.range (W / 8) = 0 :: List.range' 1 (W / 8 - 1) := by
      rw [List.range_eq_range', show W / 8 = (W / 8 - 1) + 1 by omega, List.range'_succ]
      simp
    have hrow1 : scan_row (W / 8) { c1 with buf2 := B, pos1 := c1.pos1 + 8 * (W / 8) } 1
        = .error .oobRead := by
      unfold scan_row
      rw [(next_8_pixels_starved W _ hst2).2]
      simp only []
      rw [hcols, List.foldlM_cons, tile_col_oob 1 0 _
        (by show c1.buf1.length < c1.pos1 + 8 * (W / 8) + 8; omega)]
      rfl
    unfold next_8_scanlines
    rw [f1, List.range_eq_range', show (8 : Nat) = 6 + 1 + 1 from rfl, List.range'_succ,
      List.range'_succ, List.foldlM_cons]
    have hrow0 : scan_row (W / 8) (buffers_init j0 j1 j2 conv) 0
        = .ok { c1 with buf2 := B, pos1 := c1.pos1 + 8 * (W / 8) } := by
      unfold scan_row
      rw [hn]
      exact hB
    rw [hrow0]
    simp only [bind, Except.bind]
    rw [List.foldlM_cons, hrow1]
    rfl
  · intro hlt c c' row h
    unfold scan_row
    rw [h, show W / 8 = 0 by omega]
    rfl

set_option maxRecDepth 100000 in
/-- C19, witness: `W = 12` and the first scanline `0xCC 0x01`: the first call
of `next_8_scanlines` ends in the read of offset 12 of the 12-byte scanline
buffer. -/
theorem C19_width_not_multiple_witness :
    next_8_scanlines (buffers_init [] [] [] (conv_image 12 16 [0xCC, 0x01]))
      = .error .oobRead :=
  (C19_width_not_multiple 12 [] [] [] (conv_image 12 16 [0xCC, 0x01]) [⟨0x01, 12⟩] []
    (by decide) (by decide) (by decide) rfl ⟨rfl, rfl⟩
    ⟨by decide, by
      intro j hj
      simp only [List.length_cons, List.length_nil] at hj
      interval_cases j
      decide⟩).2.2.2.2.2.2.1 (by decide) (by decide)

set_option maxRecDepth 100000 in
/-- C19, counterexample: `W = 4` (positive, not a multiple of 8), `H = 16` and
the scanline `0xC4 0x01`. The column loop has `4/8 = 0` iterations, so the tile
loop reads nothing: the whole conversion of both tile rows completes with the
scanline cursor still at 0, never past `W`. -/
theorem C19_counterexample :
    0 < 4 ∧ 4 % 8 ≠ 0 ∧
    List.range ((buffers_init [] [] [] (conv_image 4 16 [0xC4, 0x01])).width / 8) = [] ∧
    ∃ c', main_convert (buffers_init [] [] [] (conv_image 4 16 [0xC4, 0x01])) = .ok c' ∧
      c'.pos1 = 0 ∧ c'.output.length = 2 := by
  refine ⟨by decide, by decide, rfl, _, rfl, rfl, rfl⟩

end Pcx2sms
